import Mathlib

/-!
# Verification of the CSR sparse-matrix core (`src/sparseMatrix.js`)

This file shallowly embeds the `SparseMatrix` class of `src/sparseMatrix.js`
into Lean 4 and proves the specification claims about it.

Modelling conventions:

* JavaScript arrays of numbers become `List Int` (values) or `List Nat`
  (column indices and the row pointer; all indices handled by the program are
  non-negative integers, and for well-formed matrices the row-pointer entries
  that the code decrements are provably positive, so `Nat` truncation never
  differs from the JavaScript behaviour in any situation covered by a theorem).
* An out-of-range JavaScript array read yields `undefined`; where such a read
  is compared for equality or order (`===`, `<`) we model it with `getElem?`
  (an `Option`, with `none` behaving like `undefined`: never equal to, nor
  smaller than, a number).  Where the read value is used arithmetically the
  read is in bounds for every matrix a theorem touches, and we use `List.getD`
  with default `0`.
* Methods that `throw` are modelled as returning `Option`/`Except`.
* Strings become `List Char` wrapped in `String` at the boundary; the file
  codec is modelled character by character (`split`, `trim`, `match`,
  `parseInt` all have explicit models below).
-/

/-! ## Generic list helpers (models of the JavaScript array primitives) -/

/-- `l.splice(pos, 1)`: remove one element at `pos` (no-op past the end). -/
def spliceRemove (l : List α) (pos : Nat) : List α :=
  l.take pos ++ l.drop (pos + 1)

/-- `l.splice(pos, 0, a)`: insert `a` at `pos` (append when `pos ≥ length`,
matching the JavaScript clamp). -/
def spliceInsert (l : List α) (pos : Nat) (a : α) : List α :=
  l.take pos ++ a :: l.drop pos

/-- `for (let i = cut; i < l.length; i++) l[i] = op(l[i])`: apply `op` to every
element whose index is `≥ cut`. -/
def adjustTail (op : Nat → Nat) : Nat → List Nat → List Nat
  | _, [] => []
  | cut, x :: xs =>
      (if cut = 0 then op x else x) :: adjustTail op (cut - 1) xs

@[simp] theorem adjustTail_nil (op : Nat → Nat) (cut : Nat) :
    adjustTail op cut [] = [] := rfl

@[simp] theorem length_adjustTail (op : Nat → Nat) (cut : Nat) (l : List Nat) :
    (adjustTail op cut l).length = l.length := by
  induction l generalizing cut with
  | nil => rfl
  | cons x xs ih => simp [adjustTail, ih]

theorem getElem?_adjustTail (op : Nat → Nat) (cut : Nat) (l : List Nat) (i : Nat) :
    (adjustTail op cut l)[i]? = l[i]?.map (fun x => if cut ≤ i then op x else x) := by
  induction l generalizing cut i with
  | nil => simp
  | cons x xs ih =>
      cases i with
      | zero =>
          cases cut with
          | zero => simp [adjustTail]
          | succ c => simp [adjustTail, Nat.succ_ne_zero]
      | succ j =>
          cases cut with
          | zero => simpa [adjustTail] using ih 0 j
          | succ c => simpa [adjustTail, Nat.succ_le_succ_iff] using ih c j

theorem spliceRemove_nil (pos : Nat) : spliceRemove ([] : List α) pos = [] := by
  simp [spliceRemove]

theorem spliceRemove_cons_zero (x : α) (xs : List α) :
    spliceRemove (x :: xs) 0 = xs := by
  simp [spliceRemove]

theorem spliceRemove_cons_succ (x : α) (xs : List α) (p : Nat) :
    spliceRemove (x :: xs) (p + 1) = x :: spliceRemove xs p := by
  simp [spliceRemove]

theorem spliceInsert_nil_zero (a : α) : spliceInsert ([] : List α) 0 a = [a] := by
  simp [spliceInsert]

theorem spliceInsert_cons_zero (x : α) (xs : List α) (a : α) :
    spliceInsert (x :: xs) 0 a = a :: x :: xs := by
  simp [spliceInsert]

theorem spliceInsert_cons_succ (x : α) (xs : List α) (p : Nat) (a : α) :
    spliceInsert (x :: xs) (p + 1) a = x :: spliceInsert xs p a := by
  simp [spliceInsert]

theorem length_spliceRemove (l : List α) (pos : Nat) (h : pos < l.length) :
    (spliceRemove l pos).length = l.length - 1 := by
  induction l generalizing pos with
  | nil => simp at h
  | cons x xs ih =>
      cases pos with
      | zero => simp [spliceRemove_cons_zero]
      | succ p =>
          have h' : p < xs.length := by simp at h; omega
          simp only [spliceRemove_cons_succ, List.length_cons, ih p h']
          omega

theorem length_spliceInsert (l : List α) (pos : Nat) (a : α) :
    (spliceInsert l pos a).length = l.length + 1 := by
  simp [spliceInsert]
  omega

theorem getElem?_spliceRemove (l : List α) (pos i : Nat) :
    (spliceRemove l pos)[i]? = if i < pos then l[i]? else l[i + 1]? := by
  induction l generalizing pos i with
  | nil => simp [spliceRemove_nil]
  | cons x xs ih =>
      cases pos with
      | zero => simp [spliceRemove_cons_zero]
      | succ p =>
          rw [spliceRemove_cons_succ]
          cases i with
          | zero => simp
          | succ j =>
              simp only [List.getElem?_cons_succ, ih p j]
              by_cases h : j < p <;> simp [h, Nat.succ_lt_succ_iff]

theorem getElem?_spliceInsert (l : List α) (pos i : Nat) (a : α) (hpos : pos ≤ l.length) :
    (spliceInsert l pos a)[i]? =
      if i < pos then l[i]? else if i = pos then some a else l[i - 1]? := by
  induction l generalizing pos i with
  | nil =>
      have : pos = 0 := by simpa using hpos
      subst this
      rw [spliceInsert_nil_zero]
      cases i <;> simp
  | cons x xs ih =>
      cases pos with
      | zero =>
          rw [spliceInsert_cons_zero]
          cases i with
          | zero => simp
          | succ j => simp
      | succ p =>
          rw [spliceInsert_cons_succ]
          cases i with
          | zero => simp
          | succ j =>
              simp only [List.getElem?_cons_succ, ih p j (by simpa using hpos)]
              by_cases h1 : j < p
              · simp [h1, Nat.succ_lt_succ_iff]
              · by_cases h2 : j = p
                · simp [h1, h2]
                · have h4 : ¬ (j + 1 < p + 1) := by omega
                  have h3 : ¬ (j + 1 = p + 1) := by omega
                  obtain ⟨k, rfl⟩ : ∃ k, j = k + 1 := ⟨j - 1, by omega⟩
                  simp only [if_neg h1, if_neg h2, if_neg h4, if_neg h3,
                    Nat.add_sub_cancel, List.getElem?_cons_succ]

/-! ## The data model

`class SparseMatrix` stores `rows`, `cols` and the three parallel CSR arrays
`values`, `col_indices`, `row_ptr` (lines 4–15 of `src/sparseMatrix.js`). -/

structure SparseMatrix where
  rows : Nat
  cols : Nat
  values : List Int
  col_indices : List Nat
  row_ptr : List Nat
deriving Repr, DecidableEq

namespace SparseMatrix

/-- `new SparseMatrix(null, numRows, numCols)` — the constructor with no file
path: empty arrays, `row_ptr = Array(numRows+1).fill(0)` (or `[0]` when
`numRows = 0`). -/
def mk0 (numRows numCols : Nat) : SparseMatrix :=
  { rows := numRows
    cols := numCols
    values := []
    col_indices := []
    row_ptr := if numRows > 0 then List.replicate (numRows + 1) 0 else [0] }

/-- The scan loop of `getElement` (lines 104–108): walk `i` from `start` to
`end`, returning `values[i]` at the first `i` with `col_indices[i] === col`,
and `0` if the loop finishes. -/
def getLoop (cs : List Nat) (vs : List Int) (col fin i : Nat) : Int :=
  if h : i < fin then
    if cs[i]? = some col then vs.getD i 0 else getLoop cs vs col fin (i + 1)
  else 0
termination_by fin - i

/-- `getElement(row, col)` (lines 96–110): bounds check (throw modelled as
`none`), then scan the row slice. -/
def getElement (m : SparseMatrix) (row col : Nat) : Option Int :=
  if row < m.rows ∧ col < m.cols then
    let start := m.row_ptr.getD row 0
    let fin := if row + 1 < m.row_ptr.length then m.row_ptr.getD (row + 1) 0
               else m.values.length
    some (getLoop m.col_indices m.values col fin start)
  else none

/-- The value stored at a cell (the `getElement` result, defaulting the
out-of-bounds `none` to `0`); shorthand used to state theorems. -/
def getv (m : SparseMatrix) (row col : Nat) : Int :=
  (m.getElement row col).getD 0

/-- The `while (this.row_ptr.length <= row + 1)` loop of `setElement`
(lines 117–119): push copies of the last entry until index `row+1` exists. -/
def extendRowPtr (rp : List Nat) (row : Nat) : List Nat :=
  if h : rp.length ≤ row + 1 then
    extendRowPtr (rp ++ [rp.getD (rp.length - 1) 0]) row
  else rp
termination_by row + 2 - rp.length
decreasing_by simp only [List.length_append, List.length_cons, List.length_nil]; omega

/-- `col_indices[pos] < col`, with the out-of-range read (`undefined < col`,
which is `false`) modelled through `getElem?`. -/
def colLtAt (cs : List Nat) (pos col : Nat) : Bool :=
  match cs[pos]? with
  | some c => decide (c < col)
  | none => false

/-- The insertion-point scan of `setElement` (lines 124–127):
`while (pos < end && col_indices[pos] < col) pos++`. -/
def scanPos (cs : List Nat) (col fin pos : Nat) : Nat :=
  if h : pos < fin ∧ colLtAt cs pos col = true then
    scanPos cs col fin (pos + 1)
  else pos
termination_by fin - pos
decreasing_by omega

/-- `setElement(row, col, value)` without the bounds guard (lines 117–145):
extend the row pointer, locate the insertion point, then remove / overwrite /
insert / no-op. -/
def setElementU (m : SparseMatrix) (row col : Nat) (v : Int) : SparseMatrix :=
  let rp := extendRowPtr m.row_ptr row
  let start := rp.getD row 0
  let fin := rp.getD (row + 1) 0
  let pos := scanPos m.col_indices col fin start
  if pos < fin ∧ m.col_indices[pos]? = some col then
    if v = 0 then
      { m with values := spliceRemove m.values pos
               col_indices := spliceRemove m.col_indices pos
               row_ptr := adjustTail (· - 1) (row + 1) rp }
    else
      { m with values := m.values.set pos v, row_ptr := rp }
  else if v ≠ 0 then
    { m with values := spliceInsert m.values pos v
             col_indices := spliceInsert m.col_indices pos col
             row_ptr := adjustTail (· + 1) (row + 1) rp }
  else
    { m with row_ptr := rp }

/-- `setElement` with its bounds guard (lines 113–115); the throw is `none`. -/
def setElement (m : SparseMatrix) (row col : Nat) (v : Int) : Option SparseMatrix :=
  if row < m.rows ∧ col < m.cols then some (m.setElementU row col v) else none

/-! ## The invariants I1–I3

Spec §3: I1 (each row's slice is sorted by strictly increasing column index
and every stored column index is `< colCount`), I2 (no stored zero values),
I3 (`rowPointer` is non-decreasing, has length `rowCount + 1`, and its last
entry equals the common length of `values`/`colIndices`). -/

/-- Start offset of row `r`'s slice. -/
def rowStart (m : SparseMatrix) (r : Nat) : Nat := m.row_ptr.getD r 0

/-- End offset (one past) of row `r`'s slice. -/
def rowEnd (m : SparseMatrix) (r : Nat) : Nat := m.row_ptr.getD (r + 1) 0

/-- Invariants I1–I3 of spec §3, as a decidable predicate. -/
def Wf (m : SparseMatrix) : Prop :=
  m.row_ptr.length = m.rows + 1 ∧
  m.values.length = m.col_indices.length ∧
  m.row_ptr.getD m.rows 0 = m.values.length ∧
  (∀ i < m.rows, m.row_ptr.getD i 0 ≤ m.row_ptr.getD (i + 1) 0) ∧
  (∀ r < m.rows, ∀ i < m.rowEnd r, m.rowStart r ≤ i →
      m.col_indices.getD i 0 < m.cols ∧
      (i + 1 < m.rowEnd r → m.col_indices.getD i 0 < m.col_indices.getD (i + 1) 0)) ∧
  (∀ v ∈ m.values, v ≠ 0)

instance (m : SparseMatrix) : Decidable m.Wf := by
  unfold Wf
  infer_instance

end SparseMatrix

/-! ## Basic lemmas about the helpers -/

theorem list_getD_eq_getElem?_getD (l : List α) (n : Nat) (d : α) :
    l.getD n d = (l[n]?).getD d := by
  rcases lt_or_ge n l.length with h | h
  · rw [List.getD_eq_getElem l d h, List.getElem?_eq_getElem h]
    rfl
  · rw [List.getD_eq_default l d h, List.getElem?_eq_none h]
    rfl

theorem list_getD_set_ne (l : List α) (p n : Nat) (a d : α) (h : p ≠ n) :
    (l.set p a).getD n d = l.getD n d := by
  rw [list_getD_eq_getElem?_getD, list_getD_eq_getElem?_getD,
    List.getElem?_set_ne h]

namespace SparseMatrix

/-! ### Projections of `Wf` -/

theorem Wf.rp_length {m : SparseMatrix} (h : m.Wf) :
    m.row_ptr.length = m.rows + 1 := h.1

theorem Wf.len_eq {m : SparseMatrix} (h : m.Wf) :
    m.values.length = m.col_indices.length := h.2.1

theorem Wf.rp_last {m : SparseMatrix} (h : m.Wf) :
    m.row_ptr.getD m.rows 0 = m.values.length := h.2.2.1

theorem Wf.rp_mono_adj {m : SparseMatrix} (h : m.Wf) :
    ∀ i < m.rows, m.row_ptr.getD i 0 ≤ m.row_ptr.getD (i + 1) 0 := h.2.2.2.1

theorem Wf.row_sorted {m : SparseMatrix} (h : m.Wf) :
    ∀ r < m.rows, ∀ i < m.rowEnd r, m.rowStart r ≤ i →
      m.col_indices.getD i 0 < m.cols ∧
      (i + 1 < m.rowEnd r → m.col_indices.getD i 0 < m.col_indices.getD (i + 1) 0) :=
  h.2.2.2.2.1

theorem Wf.nonzero {m : SparseMatrix} (h : m.Wf) :
    ∀ v ∈ m.values, v ≠ 0 := h.2.2.2.2.2

/-- The row pointer is monotone between any two indices `≤ rows`. -/
theorem Wf.rp_mono {m : SparseMatrix} (h : m.Wf) :
    ∀ j ≤ m.rows, ∀ i ≤ j, m.row_ptr.getD i 0 ≤ m.row_ptr.getD j 0 := by
  intro j
  induction j with
  | zero =>
      intro _ i hi
      interval_cases i
      exact le_refl _
  | succ k ih =>
      intro hk i hi
      rcases Nat.lt_or_ge i (k + 1) with hlt | hge
      · exact le_trans (ih (by omega) i (by omega)) (h.rp_mono_adj k (by omega))
      · have : i = k + 1 := by omega
        subst this
        exact le_refl _

/-- Every row slice lies inside the arrays: `rowEnd r ≤ values.length`. -/
theorem Wf.rowEnd_le {m : SparseMatrix} (h : m.Wf) {r : Nat} (hr : r < m.rows) :
    m.rowEnd r ≤ m.values.length := by
  have := h.rp_mono m.rows (le_refl _) (r + 1) (by omega)
  rw [h.rp_last] at this
  exact this

theorem Wf.rowStart_le_rowEnd {m : SparseMatrix} (h : m.Wf) {r : Nat} (hr : r < m.rows) :
    m.rowStart r ≤ m.rowEnd r := h.rp_mono_adj r hr

/-- Strict sortedness between any two in-slice positions. -/
theorem Wf.sorted_lt {m : SparseMatrix} (h : m.Wf) {r : Nat} (hr : r < m.rows) :
    ∀ j < m.rowEnd r, ∀ i, m.rowStart r ≤ i → i < j →
      m.col_indices.getD i 0 < m.col_indices.getD j 0 := by
  intro j
  induction j with
  | zero => omega
  | succ k ih =>
      intro hj i hi hij
      rcases Nat.lt_or_ge i k with hlt | hge
      · have hk : k < m.rowEnd r := by omega
        exact lt_trans (ih hk i hi hlt)
          ((h.row_sorted r hr k hk (by omega)).2 hj)
      · have : i = k := by omega
        subst this
        exact (h.row_sorted r hr i (by omega) hi).2 hj

/-! ### `extendRowPtr`, `scanPos`, `getLoop` -/

theorem extendRowPtr_eq_self (rp : List Nat) (row : Nat) (h : row + 1 < rp.length) :
    extendRowPtr rp row = rp := by
  rw [extendRowPtr]
  simp [Nat.not_le.mpr h]

theorem scanPos_ge (cs : List Nat) (col fin pos : Nat) :
    pos ≤ scanPos cs col fin pos := by
  rw [scanPos]
  split
  · exact le_trans (by omega) (scanPos_ge cs col fin (pos + 1))
  · exact le_refl _
termination_by fin - pos
decreasing_by omega

theorem scanPos_le (cs : List Nat) (col fin pos : Nat) (h : pos ≤ fin) :
    scanPos cs col fin pos ≤ fin := by
  rw [scanPos]
  split
  · next hc => exact scanPos_le cs col fin (pos + 1) (by omega)
  · exact h
termination_by fin - pos
decreasing_by omega

/-- Every position strictly before the scan result holds a column `< col`. -/
theorem scanPos_before (cs : List Nat) (col fin pos : Nat) :
    ∀ q, pos ≤ q → q < scanPos cs col fin pos → colLtAt cs q col = true := by
  rw [scanPos]
  split
  · next hc =>
      intro q hq hq'
      rcases Nat.eq_or_lt_of_le hq with rfl | hlt
      · exact hc.2
      · exact scanPos_before cs col fin (pos + 1) q hlt hq'
  · intro q hq hq'
    omega
termination_by fin - pos
decreasing_by omega

/-- If the scan stops strictly before `fin`, the stopping position does not
hold a column `< col`. -/
theorem scanPos_stop (cs : List Nat) (col fin pos : Nat)
    (h : scanPos cs col fin pos < fin) :
    colLtAt cs (scanPos cs col fin pos) col = false := by
  rw [scanPos] at h ⊢
  split at h
  · next hc =>
      rw [dif_pos hc]
      exact scanPos_stop cs col fin (pos + 1) h
  · next hc =>
      rw [dif_neg hc]
      rcases Bool.eq_false_or_eq_true (colLtAt cs pos col) with hb | hb
      · exact absurd ⟨h, hb⟩ hc
      · exact hb
termination_by fin - pos
decreasing_by omega

theorem getLoop_found (cs : List Nat) (vs : List Int) (col fin : Nat)
    (i : Nat) (hif : i < fin) (hc : cs[i]? = some col) (s : Nat) (hs : s ≤ i)
    (hq : ∀ q, s ≤ q → q < i → cs[q]? ≠ some col) :
    getLoop cs vs col fin s = vs.getD i 0 := by
  rw [getLoop]
  rcases Nat.eq_or_lt_of_le hs with rfl | hlt
  · rw [dif_pos hif, if_pos hc]
  · rw [dif_pos (by omega)]
    rw [if_neg (hq s (le_refl _) hlt)]
    exact getLoop_found cs vs col fin i hif hc (s + 1) hlt
      (fun q h1 h2 => hq q (by omega) h2)
termination_by i - s
decreasing_by omega

theorem getLoop_none (cs : List Nat) (vs : List Int) (col fin s : Nat)
    (hq : ∀ q, s ≤ q → q < fin → cs[q]? ≠ some col) :
    getLoop cs vs col fin s = 0 := by
  rw [getLoop]
  split
  · next hs =>
      rw [if_neg (hq s (le_refl _) hs)]
      exact getLoop_none cs vs col fin (s + 1) (fun q h1 h2 => hq q (by omega) h2)
  · rfl
termination_by fin - s
decreasing_by omega

/-- `getLoop` only looks at positions in `[s, fin)`. -/
theorem getLoop_congr (cs₁ cs₂ : List Nat) (vs₁ vs₂ : List Int) (col fin s : Nat)
    (hq : ∀ q, s ≤ q → q < fin → cs₁[q]? = cs₂[q]? ∧ vs₁.getD q 0 = vs₂.getD q 0) :
    getLoop cs₁ vs₁ col fin s = getLoop cs₂ vs₂ col fin s := by
  conv_lhs => rw [getLoop]
  conv_rhs => rw [getLoop]
  rcases Nat.lt_or_ge s fin with hs | hs
  · rcases hq s (le_refl _) hs with ⟨h1, h2⟩
    rw [dif_pos hs, dif_pos hs, h1, h2]
    by_cases hcc : cs₂[s]? = some col
    · rw [if_pos hcc, if_pos hcc]
    · rw [if_neg hcc, if_neg hcc]
      exact getLoop_congr cs₁ cs₂ vs₁ vs₂ col fin (s + 1)
        (fun q h1 h2 => hq q (by omega) h2)
  · rw [dif_neg (by omega), dif_neg (by omega)]
termination_by fin - s
decreasing_by omega

theorem colLtAt_true_iff (cs : List Nat) (q col : Nat) :
    colLtAt cs q col = true ↔ ∃ c, cs[q]? = some c ∧ c < col := by
  unfold colLtAt
  cases h : cs[q]? with
  | none => simp
  | some c => simp [h]

theorem colLtAt_false_iff (cs : List Nat) (q col : Nat) :
    colLtAt cs q col = false ↔ ∀ c, cs[q]? = some c → col ≤ c := by
  unfold colLtAt
  cases h : cs[q]? with
  | none => simp
  | some c => simp [h, Nat.not_lt]

/-- For a matrix whose row pointer has the well-formed length, `getElement`
inside bounds is the scan of the row slice. -/
theorem getElement_eq_getLoop (m : SparseMatrix) (r c : Nat)
    (hlen : m.row_ptr.length = m.rows + 1) (hr : r < m.rows) (hc : c < m.cols) :
    m.getElement r c =
      some (getLoop m.col_indices m.values c (m.rowEnd r) (m.rowStart r)) := by
  unfold getElement
  rw [if_pos ⟨hr, hc⟩]
  have : r + 1 < m.row_ptr.length := by omega
  simp only [if_pos this]
  rfl

/-- Reading a slice shifted up by one position gives the same scan result. -/
theorem getLoop_shift (cs₁ cs₂ : List Nat) (vs₁ vs₂ : List Int) (col fin s : Nat)
    (hq : ∀ q, s ≤ q → q < fin → cs₂[q + 1]? = cs₁[q]? ∧ vs₂.getD (q + 1) 0 = vs₁.getD q 0) :
    getLoop cs₂ vs₂ col (fin + 1) (s + 1) = getLoop cs₁ vs₁ col fin s := by
  conv_lhs => rw [getLoop]
  conv_rhs => rw [getLoop]
  rcases Nat.lt_or_ge s fin with hs | hs
  · rcases hq s (le_refl _) hs with ⟨h1, h2⟩
    rw [dif_pos (by omega), dif_pos hs, h1, h2]
    by_cases hcc : cs₁[s]? = some col
    · rw [if_pos hcc, if_pos hcc]
    · rw [if_neg hcc, if_neg hcc]
      exact getLoop_shift cs₁ cs₂ vs₁ vs₂ col fin (s + 1)
        (fun q h1 h2 => hq q (by omega) h2)
  · rw [dif_neg (by omega), dif_neg (by omega)]
termination_by fin - s
decreasing_by omega

/-- Scanning for `c'` over a slice that contains one extra position `P` whose
column is not `c'` (elements below `P` unchanged, elements above shifted up by
one) gives the same result as scanning the original slice.  Used for both the
insert case (new slice = old plus one) and the delete case (old slice = new
plus one). -/
theorem getLoop_skip (cs cs' : List Nat) (vs vs' : List Int) (c' P E : Nat)
    (hP : ¬ cs'[P]? = some c')
    (hlow : ∀ q, q < P → cs'[q]? = cs[q]? ∧ vs'.getD q 0 = vs.getD q 0)
    (hhigh : ∀ q, P ≤ q → q < E → cs'[q + 1]? = cs[q]? ∧ vs'.getD (q + 1) 0 = vs.getD q 0)
    (hPE : P ≤ E) (s : Nat) (hs : s ≤ P) :
    getLoop cs' vs' c' (E + 1) s = getLoop cs vs c' E s := by
  rcases Nat.eq_or_lt_of_le hs with heq | hlt
  · subst heq
    conv_lhs => rw [getLoop]
    rw [dif_pos (by omega), if_neg hP]
    exact getLoop_shift cs cs' vs vs' c' E s hhigh
  · conv_lhs => rw [getLoop]
    conv_rhs => rw [getLoop]
    rcases hlow s hlt with ⟨h1, h2⟩
    rw [dif_pos (by omega), dif_pos (by omega), h1, h2]
    by_cases hc : cs[s]? = some c'
    · rw [if_pos hc, if_pos hc]
    · rw [if_neg hc, if_neg hc]
      exact getLoop_skip cs cs' vs vs' c' P E hP hlow hhigh hPE (s + 1) hlt
termination_by P - s
decreasing_by omega

theorem getElem?_eq_some_getD (l : List α) (q : Nat) (d : α) (h : q < l.length) :
    l[q]? = some (l.getD q d) := by
  rw [List.getElem?_eq_getElem h, List.getD_eq_getElem l d h]

/-- Overwriting the value at a position whose column is not `c'` does not
change the scan for `c'`. -/
theorem getLoop_set_ne (cs : List Nat) (vs : List Int) (c' P E : Nat) (v : Int)
    (hP : ¬ cs[P]? = some c') (s : Nat) :
    getLoop cs (vs.set P v) c' E s = getLoop cs vs c' E s := by
  conv_lhs => rw [getLoop]
  conv_rhs => rw [getLoop]
  rcases Nat.lt_or_ge s E with hsE | hsE
  · rw [dif_pos hsE, dif_pos hsE]
    by_cases hc : cs[s]? = some c'
    · have hne : P ≠ s := fun h => hP (h ▸ hc)
      rw [if_pos hc, if_pos hc, list_getD_set_ne vs P s v 0 hne]
    · rw [if_neg hc, if_neg hc]
      exact getLoop_set_ne cs vs c' P E v hP (s + 1)
  · rw [dif_neg (by omega), dif_neg (by omega)]
termination_by E - s
decreasing_by omega

theorem rowStart_def (m : SparseMatrix) (r : Nat) :
    m.rowStart r = m.row_ptr.getD r 0 := rfl

theorem rowEnd_def (m : SparseMatrix) (r : Nat) :
    m.rowEnd r = m.row_ptr.getD (r + 1) 0 := rfl

/-! ### The four behaviours of `setElement` (insert / overwrite / delete /
no-op), each proved to preserve I1–I3 and to realise the get-after-set
contract.  In these lemmas `P` abstracts the position computed by the scan
loop of `setElement`, characterised by the hypotheses about the columns
below and at it, and the mutated matrix `m'` is described by one equation
per field. -/

theorem insert_spec (m : SparseMatrix) (row col : Nat) (v : Int) (P : Nat)
    (hwf : m.Wf) (hrow : row < m.rows) (hcol : col < m.cols) (hv : v ≠ 0)
    (hSP : m.rowStart row ≤ P) (hPE : P ≤ m.rowEnd row)
    (hbelow : ∀ q, m.rowStart row ≤ q → q < P → m.col_indices.getD q 0 < col)
    (habove : P < m.rowEnd row → col < m.col_indices.getD P 0)
    (m' : SparseMatrix)
    (hrows : m'.rows = m.rows) (hcols : m'.cols = m.cols)
    (hvals : m'.values = spliceInsert m.values P v)
    (hcis : m'.col_indices = spliceInsert m.col_indices P col)
    (hrp : m'.row_ptr = adjustTail (· + 1) (row + 1) m.row_ptr) :
    m'.Wf ∧ m'.getElement row col = some v ∧
      ∀ r c', r < m.rows → c' < m.cols → ¬(r = row ∧ c' = col) →
        m'.getElement r c' = m.getElement r c' := by
  have hrpl := hwf.rp_length
  have hlvc := hwf.len_eq
  have hElen : m.rowEnd row ≤ m.values.length := hwf.rowEnd_le hrow
  have hPlv : P ≤ m.values.length := le_trans hPE hElen
  have hPlc : P ≤ m.col_indices.length := hlvc ▸ hPlv
  have hSE : m.rowStart row ≤ m.rowEnd row := hwf.rowStart_le_rowEnd hrow
  have hrpD : ∀ i, i < m.row_ptr.length →
      (adjustTail (· + 1) (row + 1) m.row_ptr).getD i 0 =
        if row + 1 ≤ i then m.row_ptr.getD i 0 + 1 else m.row_ptr.getD i 0 := by
    intro i hi
    rw [list_getD_eq_getElem?_getD, getElem?_adjustTail,
      List.getElem?_eq_getElem hi, list_getD_eq_getElem?_getD,
      List.getElem?_eq_getElem hi]
    by_cases h : row + 1 ≤ i <;> simp [h]
  have hrpLow : ∀ i, i ≤ row →
      (adjustTail (· + 1) (row + 1) m.row_ptr).getD i 0 = m.row_ptr.getD i 0 := by
    intro i hi
    rw [hrpD i (by omega)]
    simp [Nat.not_le.mpr (by omega : i < row + 1)]
  have hrpHigh : ∀ i, row + 1 ≤ i → i ≤ m.rows →
      (adjustTail (· + 1) (row + 1) m.row_ptr).getD i 0 = m.row_ptr.getD i 0 + 1 := by
    intro i h1 h2
    rw [hrpD i (by omega)]
    simp [h1]
  have hcs : ∀ q, (spliceInsert m.col_indices P col)[q]? =
      if q < P then m.col_indices[q]? else if q = P then some col
      else m.col_indices[q - 1]? :=
    fun q => getElem?_spliceInsert _ _ _ _ hPlc
  have hvs : ∀ q, (spliceInsert m.values P v)[q]? =
      if q < P then m.values[q]? else if q = P then some v
      else m.values[q - 1]? :=
    fun q => getElem?_spliceInsert _ _ _ _ hPlv
  have hcsD : ∀ q, (spliceInsert m.col_indices P col).getD q 0 =
      if q < P then m.col_indices.getD q 0 else if q = P then col
      else m.col_indices.getD (q - 1) 0 := by
    intro q
    rw [list_getD_eq_getElem?_getD, hcs q]
    split_ifs <;> simp [list_getD_eq_getElem?_getD]
  have hvsD : ∀ q, (spliceInsert m.values P v).getD q 0 =
      if q < P then m.values.getD q 0 else if q = P then v
      else m.values.getD (q - 1) 0 := by
    intro q
    rw [list_getD_eq_getElem?_getD, hvs q]
    split_ifs <;> simp [list_getD_eq_getElem?_getD]
  have hlen' : m'.row_ptr.length = m'.rows + 1 := by
    rw [hrp, hrows, length_adjustTail, hrpl]
  refine ⟨⟨hlen', ?_, ?_, ?_, ?_, ?_⟩, ?_, ?_⟩
  · rw [hvals, hcis, length_spliceInsert, length_spliceInsert, hlvc]
  · rw [hrp, hrows, hvals, hrpHigh m.rows (by omega) (le_refl _),
      length_spliceInsert, hwf.rp_last]
  · intro i hi
    rw [hrows] at hi
    rw [hrp]
    by_cases h1 : row + 1 ≤ i
    · rw [hrpHigh i h1 (by omega), hrpHigh (i + 1) (by omega) (by omega)]
      exact Nat.add_le_add_right (hwf.rp_mono_adj i hi) 1
    · by_cases h2 : row + 1 ≤ i + 1
      · have : i = row := by omega
        subst this
        rw [hrpLow i (le_refl _), hrpHigh (i + 1) (by omega) (by omega)]
        exact le_trans (hwf.rp_mono_adj i hi) (by omega)
      · rw [hrpLow i (by omega), hrpLow (i + 1) (by omega)]
        exact hwf.rp_mono_adj i hi
  · -- I1: per-row column bounds and strict sortedness
    intro r hr i hiE hiS
    rw [hrows] at hr
    rw [rowEnd_def, hrp] at hiE
    rw [rowStart_def, hrp] at hiS
    rw [rowEnd_def, hrp, hcols, hcis]
    rcases Nat.lt_trichotomy r row with hcase | hcase | hcase
    · -- earlier row: slice untouched
      have hSr : m.rowEnd r ≤ m.rowStart row :=
        hwf.rp_mono row (by omega) (r + 1) (by omega)
      rw [hrpLow (r + 1) (by omega)] at hiE ⊢
      rw [hrpLow r (by omega)] at hiS
      rw [← rowEnd_def] at hiE ⊢
      rw [← rowStart_def] at hiS
      have hErP : m.rowEnd r ≤ P := le_trans hSr hSP
      have hiP : i < P := by omega
      rcases hwf.row_sorted r hr i hiE hiS with ⟨hb, hadj⟩
      refine ⟨by rw [hcsD i, if_pos hiP]; exact hb, ?_⟩
      intro hi1
      have hi1P : i + 1 < P := by omega
      rw [hcsD i, if_pos hiP, hcsD (i + 1), if_pos hi1P]
      exact hadj hi1
    · -- the mutated row
      subst hcase
      rw [hrpHigh (r + 1) (by omega) (by omega)] at hiE ⊢
      rw [hrpLow r (le_refl _)] at hiS
      rw [show m.row_ptr.getD (r + 1) 0 = m.rowEnd r from rfl] at hiE ⊢
      rw [← rowStart_def] at hiS
      have hiS' : m.rowStart r ≤ i := hiS
      have hiE' : i < m.rowEnd r + 1 := hiE
      constructor
      · rw [hcsD i]
        by_cases h1 : i < P
        · rw [if_pos h1]
          exact (hwf.row_sorted r hr i (by omega) hiS').1
        · by_cases h2 : i = P
          · rw [if_neg h1, if_pos h2]; exact hcol
          · rw [if_neg h1, if_neg h2]
            exact (hwf.row_sorted r hr (i - 1) (by omega) (by omega)).1
      · intro hi1
        have hi1E : i < m.rowEnd r := by omega
        rw [hcsD i, hcsD (i + 1)]
        by_cases h1 : i + 1 < P
        · rw [if_pos (by omega : i < P), if_pos h1]
          exact (hwf.row_sorted r hr i (by omega) hiS').2 (by omega)
        · by_cases h2 : i + 1 = P
          · rw [if_pos (by omega : i < P), if_neg h1, if_pos h2]
            exact hbelow i hiS' (by omega)
          · by_cases h3 : i = P
            · rw [if_neg (by omega : ¬ i < P), if_pos h3, if_neg h1, if_neg h2]
              have hPlt : P < m.rowEnd r := by omega
              have := habove hPlt
              have heq : i + 1 - 1 = i := by omega
              rw [heq, h3]
              exact this
            · have h4 : P < i := by omega
              rw [if_neg (by omega : ¬ i < P), if_neg h3, if_neg h1, if_neg h2]
              have heq : i + 1 - 1 = i - 1 + 1 := by omega
              rw [heq]
              exact (hwf.row_sorted r hr (i - 1) (by omega) (by omega)).2 (by omega)
    · -- later row: slice shifted up by one
      have hEP : m.rowEnd row ≤ m.rowStart r :=
        hwf.rp_mono r (by omega) (row + 1) (by omega)
      rw [hrpHigh (r + 1) (by omega) (by omega)] at hiE ⊢
      rw [hrpHigh r (by omega) (by omega)] at hiS
      rw [← rowEnd_def] at hiE ⊢
      rw [← rowStart_def] at hiS
      have hiS' : m.rowStart r + 1 ≤ i := hiS
      have hiE' : i < m.rowEnd r + 1 := hiE
      have hPSr : P ≤ m.rowStart r := le_trans hPE hEP
      have hiP : P < i := by omega
      have hi1 : m.rowStart r ≤ i - 1 := by omega
      have hi2 : i - 1 < m.rowEnd r := by omega
      constructor
      · rw [hcsD i, if_neg (by omega : ¬ i < P), if_neg (by omega : ¬ i = P)]
        exact (hwf.row_sorted r hr (i - 1) hi2 hi1).1
      · intro hit
        rw [hcsD i, if_neg (by omega : ¬ i < P), if_neg (by omega : ¬ i = P),
          hcsD (i + 1), if_neg (by omega : ¬ i + 1 < P), if_neg (by omega : ¬ i + 1 = P)]
        have heq : i + 1 - 1 = i - 1 + 1 := by omega
        rw [heq]
        exact (hwf.row_sorted r hr (i - 1) hi2 hi1).2 (by omega)
  · -- I2: no stored zeros
    intro x hx
    rw [hvals] at hx
    rcases List.mem_append.mp hx with hx | hx
    · exact hwf.nonzero x (List.take_subset _ _ hx)
    · rcases List.mem_cons.mp hx with rfl | hx
      · exact hv
      · exact hwf.nonzero x (List.drop_subset _ _ hx)
  · -- get-after-set at the mutated cell
    rw [getElement_eq_getLoop m' row col hlen' (hrows ▸ hrow) (hcols ▸ hcol)]
    rw [rowStart_def, rowEnd_def, hrp, hvals, hcis,
      hrpLow row (le_refl _), hrpHigh (row + 1) (le_refl _) (by omega)]
    have hfound := getLoop_found (spliceInsert m.col_indices P col)
      (spliceInsert m.values P v) col (m.row_ptr.getD (row + 1) 0 + 1) P
      (by have : P ≤ m.rowEnd row := hPE; rw [rowEnd_def] at this; omega)
      (by rw [hcs P]; simp)
      (m.row_ptr.getD row 0) hSP
      (by
        intro q h1 h2 hq
        rw [hcs q, if_pos h2] at hq
        have hqd : m.col_indices.getD q 0 = col := by
          rw [list_getD_eq_getElem?_getD, hq]; rfl
        have := hbelow q h1 h2
        omega)
    rw [hfound, hvsD P]
    simp
  · -- all other cells unchanged
    intro r c' hr hc' hne
    rw [getElement_eq_getLoop m' r c' hlen' (hrows ▸ hr) (hcols ▸ hc'),
      getElement_eq_getLoop m r c' hrpl hr hc']
    rw [rowStart_def, rowEnd_def, hrp, hvals, hcis]
    congr 1
    rcases Nat.lt_trichotomy r row with hcase | hcase | hcase
    · -- earlier row
      have hSr : m.rowEnd r ≤ m.rowStart row :=
        hwf.rp_mono row (by omega) (r + 1) (by omega)
      rw [hrpLow r (by omega), hrpLow (r + 1) (by omega)]
      refine getLoop_congr _ _ _ _ c' _ _ (fun q h1 h2 => ?_)
      have hqP : q < P := by
        have hq1 : q < m.rowEnd r := h2
        have : m.rowEnd r ≤ P := le_trans hSr hSP
        omega
      exact ⟨by rw [hcs q, if_pos hqP], by rw [hvsD q, if_pos hqP]⟩
    · -- the mutated row, different column
      subst hcase
      have hcne : ¬ c' = col := fun h => hne ⟨rfl, h⟩
      rw [hrpLow r (le_refl _), hrpHigh (r + 1) (le_refl _) (by omega)]
      refine getLoop_skip m.col_indices (spliceInsert m.col_indices P col)
        m.values (spliceInsert m.values P v) c' P (m.row_ptr.getD (r + 1) 0)
        ?_ ?_ ?_ ?_ _ hSP
      · rw [hcs P, if_neg (lt_irrefl P), if_pos rfl]
        intro h
        exact hcne (Option.some.inj h).symm
      · exact fun q hq => ⟨by rw [hcs q, if_pos hq], by rw [hvsD q, if_pos hq]⟩
      · intro q h1 h2
        refine ⟨?_, ?_⟩
        · rw [hcs (q + 1), if_neg (by omega), if_neg (by omega)]
          simp
        · rw [hvsD (q + 1), if_neg (by omega), if_neg (by omega)]
          simp
      · exact hPE
    · -- later row
      have hEP : m.rowEnd row ≤ m.rowStart r :=
        hwf.rp_mono r (by omega) (row + 1) (by omega)
      rw [hrpHigh r (by omega) (by omega), hrpHigh (r + 1) (by omega) (by omega)]
      refine getLoop_shift m.col_indices (spliceInsert m.col_indices P col)
        m.values (spliceInsert m.values P v) c' _ _ (fun q h1 h2 => ?_)
      have hqP : P ≤ q := by
        have hq1 : m.rowStart r ≤ q := h1
        have : P ≤ m.rowStart r := le_trans hPE hEP
        omega
      refine ⟨?_, ?_⟩
      · rw [hcs (q + 1), if_neg (by omega), if_neg (by omega)]
        simp
      · rw [hvsD (q + 1), if_neg (by omega), if_neg (by omega)]
        simp

theorem overwrite_spec (m : SparseMatrix) (row col : Nat) (v : Int) (P : Nat)
    (hwf : m.Wf) (hrow : row < m.rows) (hcol : col < m.cols) (hv : v ≠ 0)
    (hSP : m.rowStart row ≤ P) (hPE : P < m.rowEnd row)
    (hPcol : m.col_indices.getD P 0 = col)
    (hbelow : ∀ q, m.rowStart row ≤ q → q < P → m.col_indices.getD q 0 < col)
    (m' : SparseMatrix)
    (hrows : m'.rows = m.rows) (hcols : m'.cols = m.cols)
    (hvals : m'.values = m.values.set P v)
    (hcis : m'.col_indices = m.col_indices)
    (hrp : m'.row_ptr = m.row_ptr) :
    m'.Wf ∧ m'.getElement row col = some v ∧
      ∀ r c', r < m.rows → c' < m.cols → ¬(r = row ∧ c' = col) →
        m'.getElement r c' = m.getElement r c' := by
  have hrpl := hwf.rp_length
  have hlvc := hwf.len_eq
  have hElen : m.rowEnd row ≤ m.values.length := hwf.rowEnd_le hrow
  have hPlv : P < m.values.length := by omega
  have hPlc : P < m.col_indices.length := by omega
  have hPsome : m.col_indices[P]? = some col := by
    rw [getElem?_eq_some_getD m.col_indices P 0 hPlc, hPcol]
  have hlen' : m'.row_ptr.length = m'.rows + 1 := by rw [hrp, hrows, hrpl]
  refine ⟨⟨hlen', ?_, ?_, ?_, ?_, ?_⟩, ?_, ?_⟩
  · rw [hvals, hcis, List.length_set, hlvc]
  · rw [hrp, hrows, hvals, List.length_set, hwf.rp_last]
  · intro i hi
    rw [hrows] at hi
    rw [hrp]
    exact hwf.rp_mono_adj i hi
  · intro r hr i hiE hiS
    rw [hrows] at hr
    rw [rowEnd_def, hrp, ← rowEnd_def] at hiE ⊢
    rw [rowStart_def, hrp, ← rowStart_def] at hiS
    rw [hcols, hcis]
    exact hwf.row_sorted r hr i hiE hiS
  · intro x hx
    rw [hvals] at hx
    rcases List.mem_or_eq_of_mem_set hx with h1 | h1
    · exact hwf.nonzero x h1
    · exact h1 ▸ hv
  · -- get-after-set at the mutated cell
    rw [getElement_eq_getLoop m' row col hlen' (hrows ▸ hrow) (hcols ▸ hcol)]
    rw [rowStart_def, rowEnd_def, hrp, hvals, hcis, ← rowEnd_def, ← rowStart_def]
    rw [getLoop_found m.col_indices (m.values.set P v) col (m.rowEnd row) P hPE
      hPsome (m.rowStart row) hSP
      (by
        intro q h1 h2 hq
        have hqd : m.col_indices.getD q 0 = col := by
          rw [list_getD_eq_getElem?_getD, hq]; rfl
        have := hbelow q h1 h2
        omega)]
    rw [list_getD_eq_getElem?_getD, List.getElem?_set_self',
      List.getElem?_eq_getElem hPlv]
    rfl
  · intro r c' hr hc' hne
    rw [getElement_eq_getLoop m' r c' hlen' (hrows ▸ hr) (hcols ▸ hc'),
      getElement_eq_getLoop m r c' hrpl hr hc']
    rw [rowStart_def, rowEnd_def, hrp, hvals, hcis, ← rowEnd_def, ← rowStart_def]
    congr 1
    rcases Nat.lt_trichotomy r row with hcase | hcase | hcase
    · -- earlier row: the set position lies outside the slice
      have hSr : m.rowEnd r ≤ m.rowStart row :=
        hwf.rp_mono row (by omega) (r + 1) (by omega)
      refine getLoop_congr _ _ _ _ c' _ _ (fun q h1 h2 => ?_)
      have hq2 : q < m.rowEnd r := h2
      have hqP : q ≠ P := by omega
      exact ⟨rfl, list_getD_set_ne m.values P q v 0 (fun h => hqP h.symm)⟩
    · -- the mutated row, different column
      subst hcase
      have hcne : ¬ c' = col := fun h => hne ⟨rfl, h⟩
      exact getLoop_set_ne m.col_indices m.values c' P (m.rowEnd r) v
        (by rw [hPsome]; intro h; exact hcne (Option.some.inj h).symm) (m.rowStart r)
    · -- later row: the set position lies outside the slice
      have hEP : m.rowEnd row ≤ m.rowStart r :=
        hwf.rp_mono r (by omega) (row + 1) (by omega)
      refine getLoop_congr _ _ _ _ c' _ _ (fun q h1 h2 => ?_)
      have hq1 : m.rowStart r ≤ q := h1
      have hqP : q ≠ P := by omega
      exact ⟨rfl, list_getD_set_ne m.values P q v 0 (fun h => hqP h.symm)⟩

theorem delete_spec (m : SparseMatrix) (row col : Nat) (P : Nat)
    (hwf : m.Wf) (hrow : row < m.rows) (hcol : col < m.cols)
    (hSP : m.rowStart row ≤ P) (hPE : P < m.rowEnd row)
    (hPcol : m.col_indices.getD P 0 = col)
    (hbelow : ∀ q, m.rowStart row ≤ q → q < P → m.col_indices.getD q 0 < col)
    (m' : SparseMatrix)
    (hrows : m'.rows = m.rows) (hcols : m'.cols = m.cols)
    (hvals : m'.values = spliceRemove m.values P)
    (hcis : m'.col_indices = spliceRemove m.col_indices P)
    (hrp : m'.row_ptr = adjustTail (· - 1) (row + 1) m.row_ptr) :
    m'.Wf ∧ m'.getElement row col = some 0 ∧
      ∀ r c', r < m.rows → c' < m.cols → ¬(r = row ∧ c' = col) →
        m'.getElement r c' = m.getElement r c' := by
  have hrpl := hwf.rp_length
  have hlvc := hwf.len_eq
  have hElen : m.rowEnd row ≤ m.values.length := hwf.rowEnd_le hrow
  have hSE : m.rowStart row ≤ m.rowEnd row := hwf.rowStart_le_rowEnd hrow
  have hPlv : P < m.values.length := by omega
  have hPlc : P < m.col_indices.length := by omega
  have hPsome : m.col_indices[P]? = some col := by
    rw [getElem?_eq_some_getD m.col_indices P 0 hPlc, hPcol]
  -- every row pointer from row+1 on is at least rowEnd row ≥ P+1 ≥ 1
  have hge : ∀ i, row + 1 ≤ i → i ≤ m.rows → m.rowEnd row ≤ m.row_ptr.getD i 0 :=
    fun i h1 h2 => hwf.rp_mono i h2 (row + 1) h1
  have hrpD : ∀ i, i < m.row_ptr.length →
      (adjustTail (· - 1) (row + 1) m.row_ptr).getD i 0 =
        if row + 1 ≤ i then m.row_ptr.getD i 0 - 1 else m.row_ptr.getD i 0 := by
    intro i hi
    rw [list_getD_eq_getElem?_getD, getElem?_adjustTail,
      List.getElem?_eq_getElem hi, list_getD_eq_getElem?_getD,
      List.getElem?_eq_getElem hi]
    by_cases h : row + 1 ≤ i <;> simp [h]
  have hrpLow : ∀ i, i ≤ row →
      (adjustTail (· - 1) (row + 1) m.row_ptr).getD i 0 = m.row_ptr.getD i 0 := by
    intro i hi
    rw [hrpD i (by omega)]
    simp [Nat.not_le.mpr (by omega : i < row + 1)]
  have hrpHigh : ∀ i, row + 1 ≤ i → i ≤ m.rows →
      (adjustTail (· - 1) (row + 1) m.row_ptr).getD i 0 = m.row_ptr.getD i 0 - 1 := by
    intro i h1 h2
    rw [hrpD i (by omega)]
    simp [h1]
  have hcs : ∀ q, (spliceRemove m.col_indices P)[q]? =
      if q < P then m.col_indices[q]? else m.col_indices[q + 1]? :=
    fun q => getElem?_spliceRemove _ _ _
  have hvs : ∀ q, (spliceRemove m.values P)[q]? =
      if q < P then m.values[q]? else m.values[q + 1]? :=
    fun q => getElem?_spliceRemove _ _ _
  have hcsD : ∀ q, (spliceRemove m.col_indices P).getD q 0 =
      if q < P then m.col_indices.getD q 0 else m.col_indices.getD (q + 1) 0 := by
    intro q
    rw [list_getD_eq_getElem?_getD, hcs q]
    split_ifs <;> simp [list_getD_eq_getElem?_getD]
  have hvsD : ∀ q, (spliceRemove m.values P).getD q 0 =
      if q < P then m.values.getD q 0 else m.values.getD (q + 1) 0 := by
    intro q
    rw [list_getD_eq_getElem?_getD, hvs q]
    split_ifs <;> simp [list_getD_eq_getElem?_getD]
  have hlen' : m'.row_ptr.length = m'.rows + 1 := by
    rw [hrp, hrows, length_adjustTail, hrpl]
  refine ⟨⟨hlen', ?_, ?_, ?_, ?_, ?_⟩, ?_, ?_⟩
  · rw [hvals, hcis, length_spliceRemove _ _ hPlv, length_spliceRemove _ _ hPlc, hlvc]
  · rw [hrp, hrows, hvals, hrpHigh m.rows (by omega) (le_refl _),
      length_spliceRemove _ _ hPlv, hwf.rp_last]
  · intro i hi
    rw [hrows] at hi
    rw [hrp]
    by_cases h1 : row + 1 ≤ i
    · rw [hrpHigh i h1 (by omega), hrpHigh (i + 1) (by omega) (by omega)]
      have := hwf.rp_mono_adj i hi
      omega
    · by_cases h2 : row + 1 ≤ i + 1
      · have : i = row := by omega
        subst this
        rw [hrpLow i (le_refl _), hrpHigh (i + 1) (by omega) (by omega)]
        have h3 : m.rowStart i ≤ P := hSP
        have h4 : P < m.rowEnd i := hPE
        rw [rowStart_def] at h3
        rw [rowEnd_def] at h4
        omega
      · rw [hrpLow i (by omega), hrpLow (i + 1) (by omega)]
        exact hwf.rp_mono_adj i hi
  · -- I1 after removal
    intro r hr i hiE hiS
    rw [hrows] at hr
    rw [rowEnd_def, hrp] at hiE
    rw [rowStart_def, hrp] at hiS
    rw [rowEnd_def, hrp, hcols, hcis]
    rcases Nat.lt_trichotomy r row with hcase | hcase | hcase
    · -- earlier row: slice untouched
      have hSr : m.rowEnd r ≤ m.rowStart row :=
        hwf.rp_mono row (by omega) (r + 1) (by omega)
      rw [hrpLow (r + 1) (by omega)] at hiE ⊢
      rw [hrpLow r (by omega)] at hiS
      rw [← rowEnd_def] at hiE ⊢
      rw [← rowStart_def] at hiS
      have hErP : m.rowEnd r ≤ P := le_trans hSr hSP
      have hiP : i < P := by omega
      rcases hwf.row_sorted r hr i hiE hiS with ⟨hb, hadj⟩
      refine ⟨by rw [hcsD i, if_pos hiP]; exact hb, ?_⟩
      intro hi1
      have hi1P : i + 1 < P := by omega
      rw [hcsD i, if_pos hiP, hcsD (i + 1), if_pos hi1P]
      exact hadj hi1
    · -- the mutated row: slice loses position P
      subst hcase
      rw [hrpHigh (r + 1) (by omega) (by omega)] at hiE ⊢
      rw [hrpLow r (le_refl _)] at hiS
      rw [show m.row_ptr.getD (r + 1) 0 = m.rowEnd r from rfl] at hiE ⊢
      rw [← rowStart_def] at hiS
      have hiS' : m.rowStart r ≤ i := hiS
      have hiE' : i < m.rowEnd r - 1 := hiE
      constructor
      · rw [hcsD i]
        by_cases h1 : i < P
        · rw [if_pos h1]
          exact (hwf.row_sorted r hr i (by omega) hiS').1
        · rw [if_neg h1]
          exact (hwf.row_sorted r hr (i + 1) (by omega) (by omega)).1
      · intro hi1
        rw [hcsD i, hcsD (i + 1)]
        by_cases h1 : i + 1 < P
        · rw [if_pos (by omega : i < P), if_pos h1]
          exact (hwf.row_sorted r hr i (by omega) hiS').2 (by omega)
        · by_cases h2 : i + 1 = P
          · rw [if_pos (by omega : i < P), if_neg h1]
            -- cs i < cs (P+1), with i = P - 1
            exact hwf.sorted_lt hr (i + 1 + 1) (by omega) i hiS' (by omega)
          · rw [if_neg (by omega : ¬ i < P), if_neg h1]
            exact (hwf.row_sorted r hr (i + 1) (by omega) (by omega)).2 (by omega)
    · -- later row: slice shifted down by one
      have hEP : m.rowEnd row ≤ m.rowStart r :=
        hwf.rp_mono r (by omega) (row + 1) (by omega)
      have hgeS : m.rowEnd row ≤ m.row_ptr.getD r 0 := hge r (by omega) (by omega)
      have hgeE : m.rowEnd row ≤ m.row_ptr.getD (r + 1) 0 := hge (r + 1) (by omega) (by omega)
      rw [hrpHigh (r + 1) (by omega) (by omega)] at hiE ⊢
      rw [hrpHigh r (by omega) (by omega)] at hiS
      rw [← rowEnd_def] at hgeE
      rw [← rowStart_def] at hgeS
      rw [show m.row_ptr.getD (r + 1) 0 = m.rowEnd r from rfl] at hiE ⊢
      rw [show m.row_ptr.getD r 0 = m.rowStart r from rfl] at hiS
      have hiS' : m.rowStart r - 1 ≤ i := hiS
      have hiE' : i < m.rowEnd r - 1 := hiE
      have hPi : P ≤ i := by omega
      have hi1 : m.rowStart r ≤ i + 1 := by omega
      have hi2 : i + 1 < m.rowEnd r := by omega
      constructor
      · rw [hcsD i, if_neg (by omega : ¬ i < P)]
        exact (hwf.row_sorted r hr (i + 1) hi2 hi1).1
      · intro hit
        rw [hcsD i, if_neg (by omega : ¬ i < P),
          hcsD (i + 1), if_neg (by omega : ¬ i + 1 < P)]
        exact (hwf.row_sorted r hr (i + 1) hi2 hi1).2 (by omega)
  · -- I2 after removal
    intro x hx
    rw [hvals] at hx
    rcases List.mem_append.mp hx with hx | hx
    · exact hwf.nonzero x (List.take_subset _ _ hx)
    · exact hwf.nonzero x (List.drop_subset _ _ hx)
  · -- the deleted cell now reads 0
    rw [getElement_eq_getLoop m' row col hlen' (hrows ▸ hrow) (hcols ▸ hcol)]
    rw [rowStart_def, rowEnd_def, hrp, hvals, hcis,
      hrpLow row (le_refl _), hrpHigh (row + 1) (le_refl _) (by omega),
      show m.row_ptr.getD (row + 1) 0 = m.rowEnd row from rfl, ← rowStart_def]
    rw [getLoop_none _ _ _ _ _ ?_]
    intro q h1 h2 hq
    by_cases hqP : q < P
    · rw [hcs q, if_pos hqP] at hq
      have hqd : m.col_indices.getD q 0 = col := by
        rw [list_getD_eq_getElem?_getD, hq]; rfl
      have := hbelow q h1 hqP
      omega
    · rw [hcs q, if_neg hqP] at hq
      have hqd : m.col_indices.getD (q + 1) 0 = col := by
        rw [list_getD_eq_getElem?_getD, hq]; rfl
      have := hwf.sorted_lt hrow (q + 1) (by omega) P hSP (by omega)
      omega
  · -- all other cells unchanged
    intro r c' hr hc' hne
    rw [getElement_eq_getLoop m' r c' hlen' (hrows ▸ hr) (hcols ▸ hc'),
      getElement_eq_getLoop m r c' hrpl hr hc']
    rw [rowStart_def, rowEnd_def, hrp, hvals, hcis]
    congr 1
    rcases Nat.lt_trichotomy r row with hcase | hcase | hcase
    · -- earlier row
      have hSr : m.rowEnd r ≤ m.rowStart row :=
        hwf.rp_mono row (by omega) (r + 1) (by omega)
      rw [hrpLow r (by omega), hrpLow (r + 1) (by omega)]
      refine getLoop_congr _ _ _ _ c' _ _ (fun q h1 h2 => ?_)
      have hq2 : q < m.rowEnd r := h2
      have hqP : q < P := by omega
      exact ⟨by rw [hcs q, if_pos hqP], by rw [hvsD q, if_pos hqP]⟩
    · -- the mutated row, different column
      subst hcase
      have hcne : ¬ c' = col := fun h => hne ⟨rfl, h⟩
      rw [hrpLow r (le_refl _), hrpHigh (r + 1) (le_refl _) (by omega)]
      have hPEd : P < m.row_ptr.getD (r + 1) 0 := by
        have := hPE
        rw [rowEnd_def] at this
        exact this
      have hE1 : m.rowEnd r = m.row_ptr.getD (r + 1) 0 - 1 + 1 := by
        rw [rowEnd_def]
        omega
      conv_rhs => rw [hE1]
      refine (getLoop_skip (spliceRemove m.col_indices P) m.col_indices
        (spliceRemove m.values P) m.values c' P (m.row_ptr.getD (r + 1) 0 - 1)
        ?_ ?_ ?_ (by omega) _ hSP).symm
      · rw [hPsome]
        intro h
        exact hcne (Option.some.inj h).symm
      · exact fun q hq => ⟨by rw [hcs q, if_pos hq], by rw [hvsD q, if_pos hq]⟩
      · intro q h1 h2
        exact ⟨by rw [hcs q, if_neg (by omega)], by rw [hvsD q, if_neg (by omega)]⟩
    · -- later row: slice shifted down by one
      have hEP : m.rowEnd row ≤ m.rowStart r :=
        hwf.rp_mono r (by omega) (row + 1) (by omega)
      have hgeS : m.rowEnd row ≤ m.row_ptr.getD r 0 := hge r (by omega) (by omega)
      have hgeE : m.rowEnd row ≤ m.row_ptr.getD (r + 1) 0 := hge (r + 1) (by omega) (by omega)
      have hPE' : P + 1 ≤ m.rowEnd row := hPE
      rw [rowEnd_def] at hPE'
      rw [hrpHigh r (by omega) (by omega), hrpHigh (r + 1) (by omega) (by omega)]
      have hSrd : m.rowStart r = m.row_ptr.getD r 0 := rfl
      have hErd : m.rowEnd r = m.row_ptr.getD (r + 1) 0 := rfl
      have hrpm : m.row_ptr.getD r 0 ≤ m.row_ptr.getD (r + 1) 0 := hwf.rp_mono_adj r hr
      have hS1 : m.rowStart r = m.row_ptr.getD r 0 - 1 + 1 := by
        rw [hSrd]; omega
      have hE1 : m.rowEnd r = m.row_ptr.getD (r + 1) 0 - 1 + 1 := by
        rw [hErd]; omega
      conv_rhs => rw [hE1, hS1]
      refine (getLoop_shift (spliceRemove m.col_indices P) m.col_indices
        (spliceRemove m.values P) m.values c' (m.row_ptr.getD (r + 1) 0 - 1)
        (m.row_ptr.getD r 0 - 1) (fun q h1 h2 => ?_)).symm
      have hPq : P ≤ q := by omega
      exact ⟨by rw [hcs q, if_neg (by omega)], by rw [hvsD q, if_neg (by omega)]⟩

/-- Master specification of the mutator: on a well-formed matrix and
in-bounds indices, `setElement` preserves I1–I3, establishes
`getElement(row, col) = value`, and leaves every other cell unchanged. -/
theorem setElementU_spec (m : SparseMatrix) (row col : Nat) (v : Int)
    (hwf : m.Wf) (hrow : row < m.rows) (hcol : col < m.cols) :
    (m.setElementU row col v).Wf ∧
    (m.setElementU row col v).getElement row col = some v ∧
    ∀ r c', r < m.rows → c' < m.cols → ¬(r = row ∧ c' = col) →
      (m.setElementU row col v).getElement r c' = m.getElement r c' := by
  have hrpl := hwf.rp_length
  have hext : extendRowPtr m.row_ptr row = m.row_ptr :=
    extendRowPtr_eq_self _ _ (by omega)
  have hSEd : m.row_ptr.getD row 0 ≤ m.row_ptr.getD (row + 1) 0 :=
    hwf.rp_mono_adj row hrow
  have hEld : m.row_ptr.getD (row + 1) 0 ≤ m.values.length := hwf.rowEnd_le hrow
  have hlvc := hwf.len_eq
  have hSP : m.row_ptr.getD row 0 ≤
      scanPos m.col_indices col (m.row_ptr.getD (row + 1) 0) (m.row_ptr.getD row 0) :=
    scanPos_ge _ _ _ _
  have hPE : scanPos m.col_indices col (m.row_ptr.getD (row + 1) 0) (m.row_ptr.getD row 0) ≤
      m.row_ptr.getD (row + 1) 0 :=
    scanPos_le _ _ _ _ hSEd
  have hbelow : ∀ q, m.row_ptr.getD row 0 ≤ q →
      q < scanPos m.col_indices col (m.row_ptr.getD (row + 1) 0) (m.row_ptr.getD row 0) →
      m.col_indices.getD q 0 < col := by
    intro q h1 h2
    have h3 := scanPos_before m.col_indices col
      (m.row_ptr.getD (row + 1) 0) (m.row_ptr.getD row 0) q h1 h2
    rcases (colLtAt_true_iff _ _ _).mp h3 with ⟨c, hc, hlt⟩
    rw [list_getD_eq_getElem?_getD, hc]
    exact hlt
  by_cases hmatch :
      scanPos m.col_indices col (m.row_ptr.getD (row + 1) 0) (m.row_ptr.getD row 0) <
        m.row_ptr.getD (row + 1) 0 ∧
      m.col_indices[scanPos m.col_indices col (m.row_ptr.getD (row + 1) 0)
        (m.row_ptr.getD row 0)]? = some col
  · have hPlen : scanPos m.col_indices col (m.row_ptr.getD (row + 1) 0)
        (m.row_ptr.getD row 0) < m.col_indices.length := by omega
    have hPcol : m.col_indices.getD (scanPos m.col_indices col
        (m.row_ptr.getD (row + 1) 0) (m.row_ptr.getD row 0)) 0 = col := by
      rw [list_getD_eq_getElem?_getD, hmatch.2]
      rfl
    by_cases hv : v = 0
    · -- delete
      subst hv
      have hU : m.setElementU row col 0 =
          { m with values := spliceRemove m.values (scanPos m.col_indices col
              (m.row_ptr.getD (row + 1) 0) (m.row_ptr.getD row 0))
                   col_indices := spliceRemove m.col_indices (scanPos m.col_indices col
              (m.row_ptr.getD (row + 1) 0) (m.row_ptr.getD row 0))
                   row_ptr := adjustTail (· - 1) (row + 1) m.row_ptr } := by
        simp only [setElementU, hext]
        rw [if_pos hmatch, if_pos trivial]
      obtain ⟨W, G1, G2⟩ := delete_spec m row col
        (scanPos m.col_indices col (m.row_ptr.getD (row + 1) 0) (m.row_ptr.getD row 0))
        hwf hrow hcol hSP hmatch.1 hPcol hbelow
        (m.setElementU row col 0)
        (by rw [hU]) (by rw [hU]) (by rw [hU]) (by rw [hU]) (by rw [hU])
      exact ⟨W, G1, G2⟩
    · -- overwrite
      have hU : m.setElementU row col v =
          { m with values := m.values.set (scanPos m.col_indices col
              (m.row_ptr.getD (row + 1) 0) (m.row_ptr.getD row 0)) v } := by
        simp only [setElementU, hext]
        rw [if_pos hmatch, if_neg hv]
      obtain ⟨W, G1, G2⟩ := overwrite_spec m row col v
        (scanPos m.col_indices col (m.row_ptr.getD (row + 1) 0) (m.row_ptr.getD row 0))
        hwf hrow hcol hv hSP hmatch.1 hPcol hbelow
        (m.setElementU row col v)
        (by rw [hU]) (by rw [hU]) (by rw [hU]) (by rw [hU]) (by rw [hU])
      exact ⟨W, G1, G2⟩
  · -- no entry at the scanned position
    have habove : scanPos m.col_indices col (m.row_ptr.getD (row + 1) 0)
          (m.row_ptr.getD row 0) < m.row_ptr.getD (row + 1) 0 →
        col < m.col_indices.getD (scanPos m.col_indices col
          (m.row_ptr.getD (row + 1) 0) (m.row_ptr.getD row 0)) 0 := by
      intro hPlt
      have hfalse := scanPos_stop m.col_indices col
        (m.row_ptr.getD (row + 1) 0) (m.row_ptr.getD row 0) hPlt
      rw [colLtAt_false_iff] at hfalse
      have hlenc : scanPos m.col_indices col (m.row_ptr.getD (row + 1) 0)
          (m.row_ptr.getD row 0) < m.col_indices.length := by omega
      have hle := hfalse _ (getElem?_eq_some_getD m.col_indices _ 0 hlenc)
      have hne : m.col_indices.getD (scanPos m.col_indices col
          (m.row_ptr.getD (row + 1) 0) (m.row_ptr.getD row 0)) 0 ≠ col := by
        intro heq
        apply hmatch
        refine ⟨hPlt, ?_⟩
        rw [getElem?_eq_some_getD m.col_indices _ 0 hlenc, heq]
      omega
    by_cases hv : v = 0
    · -- no-op
      subst hv
      have hU : m.setElementU row col 0 = m := by
        simp only [setElementU, hext]
        rw [if_neg hmatch, if_neg (by simp)]
      rw [hU]
      refine ⟨hwf, ?_, fun r c' _ _ _ => rfl⟩
      rw [getElement_eq_getLoop m row col hrpl hrow hcol]
      rw [getLoop_none _ _ _ _ _ ?_]
      intro q h1 h2 hq
      have h1d : m.row_ptr.getD row 0 ≤ q := h1
      have h2d : q < m.row_ptr.getD (row + 1) 0 := h2
      have hqd : m.col_indices.getD q 0 = col := by
        rw [list_getD_eq_getElem?_getD, hq]
        rfl
      by_cases hqP : q < scanPos m.col_indices col
          (m.row_ptr.getD (row + 1) 0) (m.row_ptr.getD row 0)
      · have := hbelow q h1d hqP
        omega
      · rcases Nat.eq_or_lt_of_le (Nat.le_of_not_lt hqP) with heq | hlt
        · -- q is the scan position itself: no match there
          apply hmatch
          rw [heq]
          exact ⟨by omega, hq⟩
        · -- q is past the scan position: its column exceeds col
          have hPlt : scanPos m.col_indices col (m.row_ptr.getD (row + 1) 0)
              (m.row_ptr.getD row 0) < m.row_ptr.getD (row + 1) 0 := by omega
          have h5 := habove hPlt
          have h6 := hwf.sorted_lt hrow q h2 _ hSP hlt
          omega
    · -- insert
      have hU : m.setElementU row col v =
          { m with values := spliceInsert m.values (scanPos m.col_indices col
              (m.row_ptr.getD (row + 1) 0) (m.row_ptr.getD row 0)) v
                   col_indices := spliceInsert m.col_indices (scanPos m.col_indices col
              (m.row_ptr.getD (row + 1) 0) (m.row_ptr.getD row 0)) col
                   row_ptr := adjustTail (· + 1) (row + 1) m.row_ptr } := by
        simp only [setElementU, hext]
        rw [if_neg hmatch, if_pos hv]
      obtain ⟨W, G1, G2⟩ := insert_spec m row col v
        (scanPos m.col_indices col (m.row_ptr.getD (row + 1) 0) (m.row_ptr.getD row 0))
        hwf hrow hcol hv hSP hPE hbelow habove
        (m.setElementU row col v)
        (by rw [hU]) (by rw [hU]) (by rw [hU]) (by rw [hU]) (by rw [hU])
      exact ⟨W, G1, G2⟩

theorem setElementU_wf (m : SparseMatrix) (row col : Nat) (v : Int)
    (hwf : m.Wf) (hrow : row < m.rows) (hcol : col < m.cols) :
    (m.setElementU row col v).Wf :=
  (setElementU_spec m row col v hwf hrow hcol).1

theorem setElementU_rows (m : SparseMatrix) (row col : Nat) (v : Int) :
    (m.setElementU row col v).rows = m.rows := by
  simp only [setElementU]
  split_ifs <;> rfl

theorem setElementU_cols (m : SparseMatrix) (row col : Nat) (v : Int) :
    (m.setElementU row col v).cols = m.cols := by
  simp only [setElementU]
  split_ifs <;> rfl

theorem getElement_setElementU_self (m : SparseMatrix) (row col : Nat) (v : Int)
    (hwf : m.Wf) (hrow : row < m.rows) (hcol : col < m.cols) :
    (m.setElementU row col v).getElement row col = some v :=
  (setElementU_spec m row col v hwf hrow hcol).2.1

theorem getElement_setElementU_other (m : SparseMatrix) (row col : Nat) (v : Int)
    (hwf : m.Wf) (hrow : row < m.rows) (hcol : col < m.cols)
    (r c' : Nat) (hr : r < m.rows) (hc' : c' < m.cols) (hne : ¬(r = row ∧ c' = col)) :
    (m.setElementU row col v).getElement r c' = m.getElement r c' :=
  (setElementU_spec m row col v hwf hrow hcol).2.2 r c' hr hc' hne

theorem setElement_eq_some (m : SparseMatrix) (row col : Nat) (v : Int)
    (hrow : row < m.rows) (hcol : col < m.cols) :
    m.setElement row col v = some (m.setElementU row col v) := by
  unfold setElement
  rw [if_pos ⟨hrow, hcol⟩]

/-! ### Sequences of mutations

The codec and the row-merge arithmetic build matrices by a sequence of
`setElement` calls; these lemmas characterise such folds. -/

/-- Apply a list of `(row, col, value)` mutations through the unguarded
mutator, left to right. -/
def applyCalls (calls : List (Nat × Nat × Int)) (m : SparseMatrix) : SparseMatrix :=
  calls.foldl (fun acc e => acc.setElementU e.1 e.2.1 e.2.2) m

/-- Apply a list of mutations through the guarded mutator (`none` = throw). -/
def runSets (m : SparseMatrix) (calls : List (Nat × Nat × Int)) : Option SparseMatrix :=
  calls.foldlM (fun acc e => acc.setElement e.1 e.2.1 e.2.2) m

/-- The last value a call list writes to cell `(r, c)`, with default `d`. -/
def lastShadow (calls : List (Nat × Nat × Int)) (r c : Nat) (d : Int) : Int :=
  calls.foldl (fun acc e => if e.1 = r ∧ e.2.1 = c then e.2.2 else acc) d

@[simp] theorem applyCalls_nil (m : SparseMatrix) : applyCalls [] m = m := rfl

theorem applyCalls_cons (e : Nat × Nat × Int) (es : List (Nat × Nat × Int))
    (m : SparseMatrix) :
    applyCalls (e :: es) m = applyCalls es (m.setElementU e.1 e.2.1 e.2.2) := rfl

@[simp] theorem lastShadow_nil (r c : Nat) (d : Int) : lastShadow [] r c d = d := rfl

theorem lastShadow_cons (e : Nat × Nat × Int) (es : List (Nat × Nat × Int))
    (r c : Nat) (d : Int) :
    lastShadow (e :: es) r c d =
      lastShadow es r c (if e.1 = r ∧ e.2.1 = c then e.2.2 else d) := rfl

theorem applyCalls_rows (calls : List (Nat × Nat × Int)) (m : SparseMatrix) :
    (applyCalls calls m).rows = m.rows := by
  induction calls generalizing m with
  | nil => rfl
  | cons e es ih => rw [applyCalls_cons, ih, setElementU_rows]

theorem applyCalls_cols (calls : List (Nat × Nat × Int)) (m : SparseMatrix) :
    (applyCalls calls m).cols = m.cols := by
  induction calls generalizing m with
  | nil => rfl
  | cons e es ih => rw [applyCalls_cons, ih, setElementU_cols]

theorem applyCalls_wf (calls : List (Nat × Nat × Int)) (m : SparseMatrix)
    (hwf : m.Wf) (hb : ∀ e ∈ calls, e.1 < m.rows ∧ e.2.1 < m.cols) :
    (applyCalls calls m).Wf := by
  induction calls generalizing m with
  | nil => exact hwf
  | cons e es ih =>
      rw [applyCalls_cons]
      rcases hb e (List.mem_cons_self e es) with ⟨h1, h2⟩
      refine ih _ (setElementU_wf m e.1 e.2.1 e.2.2 hwf h1 h2) ?_
      intro e' he'
      rw [setElementU_rows, setElementU_cols]
      exact hb e' (List.mem_cons_of_mem e he')

/-- Folding a call list: the final content of a cell is the value of the last
call that wrote to it, or the original content when no call touched it. -/
theorem getElement_applyCalls (calls : List (Nat × Nat × Int)) (m : SparseMatrix)
    (hwf : m.Wf) (hb : ∀ e ∈ calls, e.1 < m.rows ∧ e.2.1 < m.cols)
    (r c : Nat) (hr : r < m.rows) (hc : c < m.cols) :
    (applyCalls calls m).getElement r c =
      some (lastShadow calls r c ((m.getElement r c).getD 0)) := by
  induction calls generalizing m with
  | nil =>
      simp only [applyCalls_nil, lastShadow_nil]
      rw [getElement_eq_getLoop m r c hwf.rp_length hr hc]
      rfl
  | cons e es ih =>
      rw [applyCalls_cons, lastShadow_cons]
      rcases hb e (List.mem_cons_self e es) with ⟨h1, h2⟩
      have hwf' := setElementU_wf m e.1 e.2.1 e.2.2 hwf h1 h2
      have hb' : ∀ e' ∈ es, e'.1 < (m.setElementU e.1 e.2.1 e.2.2).rows ∧
          e'.2.1 < (m.setElementU e.1 e.2.1 e.2.2).cols := by
        intro e' he'
        rw [setElementU_rows, setElementU_cols]
        exact hb e' (List.mem_cons_of_mem e he')
      rw [ih _ hwf' hb' (by rw [setElementU_rows]; exact hr)
        (by rw [setElementU_cols]; exact hc)]
      by_cases hkey : e.1 = r ∧ e.2.1 = c
      · rcases hkey with ⟨hk1, hk2⟩
        subst hk1; subst hk2
        rw [getElement_setElementU_self m e.1 e.2.1 e.2.2 hwf h1 h2]
        simp
      · rw [getElement_setElementU_other m e.1 e.2.1 e.2.2 hwf h1 h2 r c hr hc
          (fun h => hkey ⟨h.1.symm, h.2.symm⟩)]
        rw [if_neg hkey]

theorem runSets_eq_some (calls : List (Nat × Nat × Int)) (m : SparseMatrix)
    (hb : ∀ e ∈ calls, e.1 < m.rows ∧ e.2.1 < m.cols) :
    runSets m calls = some (applyCalls calls m) := by
  induction calls generalizing m with
  | nil => rfl
  | cons e es ih =>
      rcases hb e (List.mem_cons_self e es) with ⟨h1, h2⟩
      show (m.setElement e.1 e.2.1 e.2.2).bind _ = _
      rw [setElement_eq_some m e.1 e.2.1 e.2.2 h1 h2, Option.some_bind]
      rw [applyCalls_cons]
      exact ih _ (fun e' he' => by
        rw [setElementU_rows, setElementU_cols]
        exact hb e' (List.mem_cons_of_mem e he'))

/-- `lastShadow` picks the value of the last call whose key is `(r, c)`. -/
theorem lastShadow_eq_getLastD (calls : List (Nat × Nat × Int)) (r c : Nat) (d : Int) :
    lastShadow calls r c d =
      ((calls.filter (fun e => e.1 = r ∧ e.2.1 = c)).map (fun e => e.2.2)).getLastD d := by
  induction calls generalizing d with
  | nil => rfl
  | cons e es ih =>
      rw [lastShadow_cons]
      by_cases hkey : e.1 = r ∧ e.2.1 = c
      · rw [if_pos hkey, List.filter_cons_of_pos (by simpa using hkey),
          List.map_cons, List.getLastD_cons]
        exact ih e.2.2
      · rw [if_neg hkey, List.filter_cons_of_neg (by simpa using hkey)]
        exact ih d

/-! ### The empty matrix -/

theorem mk0_row_ptr (R C : Nat) : (mk0 R C).row_ptr = List.replicate (R + 1) 0 := by
  unfold mk0
  rcases Nat.eq_zero_or_pos R with rfl | h
  · simp
  · simp [h]

theorem replicate_getD {α : Type} (n i : Nat) (a d : α) :
    (List.replicate n a).getD i d = if i < n then a else d := by
  rw [list_getD_eq_getElem?_getD]
  by_cases h : i < n
  · rw [List.getElem?_eq_getElem (by simpa using h)]
    simp [List.getElem_replicate, h]
  · rw [List.getElem?_eq_none (by simpa using h)]
    simp [h]

theorem mk0_wf (R C : Nat) : (mk0 R C).Wf := by
  refine ⟨?_, rfl, ?_, ?_, ?_, ?_⟩
  · rw [mk0_row_ptr]
    simp [mk0]
  · show (mk0 R C).row_ptr.getD (mk0 R C).rows 0 = 0
    rw [mk0_row_ptr]
    show (List.replicate (R + 1) 0).getD R 0 = 0
    rw [replicate_getD]
    simp
  · intro i hi
    rw [mk0_row_ptr, replicate_getD, replicate_getD]
    split_ifs <;> simp
  · intro r hr i hiE hiS
    exfalso
    have : (mk0 R C).rowEnd r = 0 := by
      rw [rowEnd_def, mk0_row_ptr, replicate_getD]
      split_ifs <;> rfl
    omega
  · intro x hx
    simp [mk0] at hx

theorem getElement_mk0 (R C r c : Nat) (hr : r < R) (hc : c < C) :
    (mk0 R C).getElement r c = some 0 := by
  rw [getElement_eq_getLoop (mk0 R C) r c (by rw [mk0_row_ptr]; simp [mk0]) hr hc]
  have hE : (mk0 R C).rowEnd r = 0 := by
    rw [rowEnd_def, mk0_row_ptr, replicate_getD]
    split_ifs <;> rfl
  rw [hE, getLoop]
  simp

end SparseMatrix

/-! ## Addition and subtraction (lines 148–244)

`add` and `subtract` are identical two-pointer merges except that every value
taken from the right operand is negated in `subtract`, and the equal-column
case stores `a + b` resp. `a - b`.  They are transcribed once with a sign
`sgn` applied to right-operand values: `sgn = 1` is `add`, `sgn = -1` is
`subtract`. -/

/-- Errors thrown by the arithmetic methods: the dimension checks, and the
(unreachable on well-formed operands) out-of-bounds throw of the inner
`setElement` calls. -/
inductive OpError where
  | dimensionMismatch
  | indexError
deriving Repr, DecidableEq

namespace SparseMatrix

/-- One of the two trailing `while` loops (lines 184–191 / 233–240): copy the
rest of one operand's row into the result via `setElement`, applying `f` to
each value (`f = id` for the left operand, `f = (sgn * ·)` for the right). -/
def copyTail (src : SparseMatrix) (f : Int → Int) (i e p : Nat)
    (res : SparseMatrix) : Option SparseMatrix :=
  if h : p < e then
    match res.setElement i (src.col_indices.getD p 0) (f (src.values.getD p 0)) with
    | some res' => copyTail src f i e (p + 1) res'
    | none => none
  else some res
termination_by e - p
decreasing_by omega

/-- The merging `while` loop of `add`/`subtract` (lines 164–182 / 213–231),
followed by the two tail loops. -/
def combineLoop (a b : SparseMatrix) (sgn : Int) (i e1 e2 p1 p2 : Nat)
    (res : SparseMatrix) : Option SparseMatrix :=
  if h : p1 < e1 ∧ p2 < e2 then
    let col1 := a.col_indices.getD p1 0
    let col2 := b.col_indices.getD p2 0
    if col1 < col2 then
      match res.setElement i col1 (a.values.getD p1 0) with
      | some res' => combineLoop a b sgn i e1 e2 (p1 + 1) p2 res'
      | none => none
    else if col2 < col1 then
      match res.setElement i col2 (sgn * b.values.getD p2 0) with
      | some res' => combineLoop a b sgn i e1 e2 p1 (p2 + 1) res'
      | none => none
    else
      let cVal := a.values.getD p1 0 + sgn * b.values.getD p2 0
      if cVal ≠ 0 then
        match res.setElement i col1 cVal with
        | some res' => combineLoop a b sgn i e1 e2 (p1 + 1) (p2 + 1) res'
        | none => none
      else combineLoop a b sgn i e1 e2 (p1 + 1) (p2 + 1) res
  else
    (copyTail a id i e1 p1 res).bind (copyTail b (sgn * ·) i e2 p2)
termination_by (e1 - p1) + (e2 - p2)
decreasing_by all_goals omega

/-- The outer `for (let i = 0; i < this.rows; i++)` loop of `add`/`subtract`
(lines 155–192 / 204–241), including the per-row start/end computations. -/
def combineRows (a b : SparseMatrix) (sgn : Int) (i : Nat)
    (res : SparseMatrix) : Option SparseMatrix :=
  if h : i < a.rows then
    let e1 := if i + 1 < a.row_ptr.length then a.row_ptr.getD (i + 1) 0
              else a.values.length
    let e2 := if i + 1 < b.row_ptr.length then b.row_ptr.getD (i + 1) 0
              else b.values.length
    match combineLoop a b sgn i e1 e2 (a.row_ptr.getD i 0) (b.row_ptr.getD i 0) res with
    | some res' => combineRows a b sgn (i + 1) res'
    | none => none
  else some res
termination_by a.rows - i
decreasing_by omega

/-- `add(other)` (lines 148–195). -/
def add (a b : SparseMatrix) : Except OpError SparseMatrix :=
  if a.rows ≠ b.rows ∨ a.cols ≠ b.cols then .error .dimensionMismatch
  else
    match combineRows a b 1 0 (mk0 a.rows a.cols) with
    | some r => .ok r
    | none => .error .indexError

/-- `subtract(other)` (lines 197–244). -/
def subtract (a b : SparseMatrix) : Except OpError SparseMatrix :=
  if a.rows ≠ b.rows ∨ a.cols ≠ b.cols then .error .dimensionMismatch
  else
    match combineRows a b (-1) 0 (mk0 a.rows a.cols) with
    | some r => .ok r
    | none => .error .indexError

/-! ### The merge loops as emit lists

`combineLoop` interleaves computing `(col, value)` pairs with `setElement`
calls on the result (which is never read back by the loop), so it equals the
fold of its emitted pair list; the pair list is then analysed per column. -/

/-- The `(col, f value)` pairs of the slice `[p, e)` of `src`, in order. -/
def slicePairs (src : SparseMatrix) (f : Int → Int) (e p : Nat) : List (Nat × Int) :=
  if h : p < e then
    (src.col_indices.getD p 0, f (src.values.getD p 0)) :: slicePairs src f e (p + 1)
  else []
termination_by e - p
decreasing_by omega

/-- The pairs emitted by `combineLoop` for one row. -/
def combineEmits (a b : SparseMatrix) (sgn : Int) (e1 e2 p1 p2 : Nat) :
    List (Nat × Int) :=
  if h : p1 < e1 ∧ p2 < e2 then
    let col1 := a.col_indices.getD p1 0
    let col2 := b.col_indices.getD p2 0
    if col1 < col2 then
      (col1, a.values.getD p1 0) :: combineEmits a b sgn e1 e2 (p1 + 1) p2
    else if col2 < col1 then
      (col2, sgn * b.values.getD p2 0) :: combineEmits a b sgn e1 e2 p1 (p2 + 1)
    else
      let cVal := a.values.getD p1 0 + sgn * b.values.getD p2 0
      if cVal ≠ 0 then
        (col1, cVal) :: combineEmits a b sgn e1 e2 (p1 + 1) (p2 + 1)
      else combineEmits a b sgn e1 e2 (p1 + 1) (p2 + 1)
  else slicePairs a id e1 p1 ++ slicePairs b (sgn * ·) e2 p2
termination_by (e1 - p1) + (e2 - p2)
decreasing_by all_goals omega

/-- All calls emitted by `combineRows` from row `i` on, with their row keys. -/
def callsFrom (a b : SparseMatrix) (sgn : Int) (i : Nat) : List (Nat × Nat × Int) :=
  if h : i < a.rows then
    ((combineEmits a b sgn
        (if i + 1 < a.row_ptr.length then a.row_ptr.getD (i + 1) 0 else a.values.length)
        (if i + 1 < b.row_ptr.length then b.row_ptr.getD (i + 1) 0 else b.values.length)
        (a.row_ptr.getD i 0) (b.row_ptr.getD i 0)).map
      (fun e => (i, e.1, e.2))) ++ callsFrom a b sgn (i + 1)
  else []
termination_by a.rows - i
decreasing_by omega

/-- The last value an emit list assigns to column `c`, default `d`. -/
def assocLast (l : List (Nat × Int)) (c : Nat) (d : Int) : Int :=
  l.foldl (fun acc e => if e.1 = c then e.2 else acc) d

theorem assocLast_cons (x : Nat × Int) (l : List (Nat × Int)) (c : Nat) (d : Int) :
    assocLast (x :: l) c d = assocLast l c (if x.1 = c then x.2 else d) := rfl

theorem assocLast_append (l1 l2 : List (Nat × Int)) (c : Nat) (d : Int) :
    assocLast (l1 ++ l2) c d = assocLast l2 c (assocLast l1 c d) :=
  List.foldl_append _ _ _ _

theorem runSets_cons (m : SparseMatrix) (e : Nat × Nat × Int)
    (es : List (Nat × Nat × Int)) :
    runSets m (e :: es) =
      (m.setElement e.1 e.2.1 e.2.2).bind (fun m' => runSets m' es) := by
  show List.foldlM _ _ _ = _
  rw [List.foldlM_cons]
  rfl

theorem runSets_append (m : SparseMatrix) (l1 l2 : List (Nat × Nat × Int)) :
    runSets m (l1 ++ l2) = (runSets m l1).bind (fun m' => runSets m' l2) := by
  show List.foldlM _ _ _ = _
  rw [List.foldlM_append]
  rfl

theorem copyTail_eq_runSets (src : SparseMatrix) (f : Int → Int) (i e p : Nat)
    (res : SparseMatrix) :
    copyTail src f i e p res =
      runSets res ((slicePairs src f e p).map (fun e => (i, e.1, e.2))) := by
  rw [copyTail, slicePairs]
  split
  · next h =>
      rw [List.map_cons, runSets_cons]
      cases hset : res.setElement i (src.col_indices.getD p 0) (f (src.values.getD p 0)) with
      | none => rfl
      | some res' =>
          simp only [Option.some_bind]
          exact copyTail_eq_runSets src f i e (p + 1) res'
  · rfl
termination_by e - p
decreasing_by omega

theorem combineLoop_eq_runSets (a b : SparseMatrix) (sgn : Int) (i e1 e2 p1 p2 : Nat)
    (res : SparseMatrix) :
    combineLoop a b sgn i e1 e2 p1 p2 res =
      runSets res ((combineEmits a b sgn e1 e2 p1 p2).map (fun e => (i, e.1, e.2))) := by
  rw [combineLoop, combineEmits]
  split
  · next h =>
      simp only []
      split_ifs with h1 h2 h3
      · rw [List.map_cons, runSets_cons]
        cases hset : res.setElement i (a.col_indices.getD p1 0) (a.values.getD p1 0) with
        | none => rfl
        | some res' =>
            simp only [Option.some_bind]
            exact combineLoop_eq_runSets a b sgn i e1 e2 (p1 + 1) p2 res'
      · rw [List.map_cons, runSets_cons]
        cases hset : res.setElement i (b.col_indices.getD p2 0) (sgn * b.values.getD p2 0) with
        | none => rfl
        | some res' =>
            simp only [Option.some_bind]
            exact combineLoop_eq_runSets a b sgn i e1 e2 p1 (p2 + 1) res'
      · rw [List.map_cons, runSets_cons]
        cases hset : res.setElement i (a.col_indices.getD p1 0)
            (a.values.getD p1 0 + sgn * b.values.getD p2 0) with
        | none => rfl
        | some res' =>
            simp only [Option.some_bind]
            exact combineLoop_eq_runSets a b sgn i e1 e2 (p1 + 1) (p2 + 1) res'
      · exact combineLoop_eq_runSets a b sgn i e1 e2 (p1 + 1) (p2 + 1) res
  · rw [List.map_append, runSets_append, copyTail_eq_runSets]
    exact congrArg _ (funext fun res' => copyTail_eq_runSets b (sgn * ·) i e2 p2 res')
termination_by (e1 - p1) + (e2 - p2)
decreasing_by all_goals omega

theorem combineRows_eq_runSets (a b : SparseMatrix) (sgn : Int) (i : Nat)
    (res : SparseMatrix) :
    combineRows a b sgn i res = runSets res (callsFrom a b sgn i) := by
  rw [combineRows, callsFrom]
  split
  · next h =>
      show (match combineLoop a b sgn i
              (if i + 1 < a.row_ptr.length then a.row_ptr.getD (i + 1) 0
               else a.values.length)
              (if i + 1 < b.row_ptr.length then b.row_ptr.getD (i + 1) 0
               else b.values.length)
              (a.row_ptr.getD i 0) (b.row_ptr.getD i 0) res with
            | some res' => combineRows a b sgn (i + 1) res'
            | none => none) = _
      rw [runSets_append, ← combineLoop_eq_runSets]
      cases hcomb : combineLoop a b sgn i
          (if i + 1 < a.row_ptr.length then a.row_ptr.getD (i + 1) 0
           else a.values.length)
          (if i + 1 < b.row_ptr.length then b.row_ptr.getD (i + 1) 0
           else b.values.length)
          (a.row_ptr.getD i 0) (b.row_ptr.getD i 0) res with
      | none => rfl
      | some res' =>
          simp only [Option.some_bind]
          exact combineRows_eq_runSets a b sgn (i + 1) res'
  · rfl
termination_by a.rows - i
decreasing_by omega

theorem getLoop_step (cs : List Nat) (vs : List Int) (c fin s : Nat) (x : Nat)
    (hsf : s < fin) (hx : cs[s]? = some x) :
    getLoop cs vs c fin s =
      if x = c then vs.getD s 0 else getLoop cs vs c fin (s + 1) := by
  rw [getLoop, dif_pos hsf, hx]
  by_cases h : x = c
  · rw [if_pos h, if_pos (by rw [h])]
  · rw [if_neg h, if_neg (fun hc => h (Option.some.inj hc))]

theorem getLoop_past (cs : List Nat) (vs : List Int) (c fin s : Nat) (h : fin ≤ s) :
    getLoop cs vs c fin s = 0 := by
  rw [getLoop, dif_neg (by omega)]

theorem getLoop_zero_getD (cs : List Nat) (vs : List Int) (c fin s : Nat)
    (hfin : fin ≤ cs.length)
    (h : ∀ q, s ≤ q → q < fin → cs.getD q 0 ≠ c) : getLoop cs vs c fin s = 0 :=
  getLoop_none _ _ _ _ _ (fun q h1 h2 hq =>
    h q h1 h2 (by rw [list_getD_eq_getElem?_getD, hq]; rfl))

theorem assocLast_slicePairs (src : SparseMatrix) (f : Int → Int) (e p : Nat)
    (hlen : e ≤ src.col_indices.length)
    (hsorted : ∀ q q', p ≤ q → q < q' → q' < e →
      src.col_indices.getD q 0 < src.col_indices.getD q' 0)
    (hnz : ∀ q, p ≤ q → q < e → src.values.getD q 0 ≠ 0)
    (c : Nat) (d : Int) :
    assocLast (slicePairs src f e p) c d =
      if getLoop src.col_indices src.values c e p = 0 then d
      else f (getLoop src.col_indices src.values c e p) := by
  rw [slicePairs]
  split
  · next h =>
      rw [assocLast_cons,
        getLoop_step src.col_indices src.values c e p _ h
          (getElem?_eq_some_getD _ _ 0 (by omega))]
      by_cases hc : src.col_indices.getD p 0 = c
      · rw [if_pos hc]
        rw [assocLast_slicePairs src f e (p + 1) hlen
          (fun q q' u1 u2 u3 => hsorted q q' (by omega) u2 u3)
          (fun q u1 u2 => hnz q (by omega) u2) c _]
        have htail : getLoop src.col_indices src.values c e (p + 1) = 0 := by
          refine getLoop_zero_getD _ _ _ _ _ hlen (fun q u1 u2 => ?_)
          have := hsorted p q (le_refl _) (by omega) u2
          omega
        rw [htail, if_pos rfl, if_pos hc, if_neg (hnz p (le_refl _) h)]
      · rw [if_neg hc, if_neg hc]
        exact assocLast_slicePairs src f e (p + 1) hlen
          (fun q q' u1 u2 u3 => hsorted q q' (by omega) u2 u3)
          (fun q u1 u2 => hnz q (by omega) u2) c d
  · next h =>
      rw [getLoop_past _ _ _ _ _ (by omega), if_pos rfl]
      rfl
termination_by e - p
decreasing_by all_goals omega

/-- Per-column content of the merged emit list: the last (and only) value it
assigns to column `c` is `a(c) + sgn * b(c)` when that is non-zero, and it
assigns nothing otherwise. -/
theorem combineEmits_lookup (a b : SparseMatrix) (sgn : Int)
    (hsgn : sgn = 1 ∨ sgn = -1) (e1 e2 p1 p2 : Nat)
    (hl1 : e1 ≤ a.col_indices.length) (hl2 : e2 ≤ b.col_indices.length)
    (hs1 : ∀ q q', p1 ≤ q → q < q' → q' < e1 →
      a.col_indices.getD q 0 < a.col_indices.getD q' 0)
    (hs2 : ∀ q q', p2 ≤ q → q < q' → q' < e2 →
      b.col_indices.getD q 0 < b.col_indices.getD q' 0)
    (hn1 : ∀ q, p1 ≤ q → q < e1 → a.values.getD q 0 ≠ 0)
    (hn2 : ∀ q, p2 ≤ q → q < e2 → b.values.getD q 0 ≠ 0)
    (c : Nat) (d : Int) :
    assocLast (combineEmits a b sgn e1 e2 p1 p2) c d =
      if getLoop a.col_indices a.values c e1 p1 +
          sgn * getLoop b.col_indices b.values c e2 p2 = 0 then d
      else getLoop a.col_indices a.values c e1 p1 +
          sgn * getLoop b.col_indices b.values c e2 p2 := by
  have hs0 : ∀ x : Int, sgn * x = 0 ↔ x = 0 := by
    rcases hsgn with rfl | rfl <;> intro x <;> constructor <;> intro hx <;> omega
  rw [combineEmits]
  split
  · next h =>
      simp only []
      have hA := getLoop_step a.col_indices a.values c e1 p1 _ h.1
        (getElem?_eq_some_getD _ _ 0 (by omega))
      have hB := getLoop_step b.col_indices b.values c e2 p2 _ h.2
        (getElem?_eq_some_getD _ _ 0 (by omega))
      by_cases h1 : a.col_indices.getD p1 0 < b.col_indices.getD p2 0
      · -- left column strictly smaller: emit the left entry
        rw [if_pos h1, assocLast_cons]
        rw [combineEmits_lookup a b sgn hsgn e1 e2 (p1 + 1) p2 hl1 hl2
          (fun q q' u1 u2 u3 => hs1 q q' (by omega) u2 u3) hs2
          (fun q u1 u2 => hn1 q (by omega) u2) hn2 c _]
        have hAz : getLoop a.col_indices a.values c e1 (p1 + 1) = 0 ∨
            ¬ a.col_indices.getD p1 0 = c := by
          by_cases hc : a.col_indices.getD p1 0 = c
          · refine Or.inl (getLoop_zero_getD _ _ _ _ _ hl1 (fun q u1 u2 => ?_))
            have := hs1 p1 q (le_refl _) (by omega) u2
            omega
          · exact Or.inr hc
        by_cases hc : a.col_indices.getD p1 0 = c
        · have hBz : getLoop b.col_indices b.values c e2 p2 = 0 := by
            refine getLoop_zero_getD _ _ _ _ _ hl2 (fun q u1 u2 => ?_)
            rcases Nat.eq_or_lt_of_le u1 with rfl | hlt
            · omega
            · have := hs2 p2 q (le_refl _) hlt u2
              omega
          rcases hAz with hAz | hAz
          · rw [hA, hBz, hAz]
            simp only [if_pos hc, mul_zero, add_zero, if_true]
            rw [if_neg (hn1 p1 (le_refl _) h.1)]
          · exact absurd hc hAz
        · rw [hA, if_neg hc]
          simp only [if_neg hc]
      · by_cases h2 : b.col_indices.getD p2 0 < a.col_indices.getD p1 0
        · -- right column strictly smaller: emit the sign-adjusted right entry
          rw [if_neg h1, if_pos h2, assocLast_cons]
          rw [combineEmits_lookup a b sgn hsgn e1 e2 p1 (p2 + 1) hl1 hl2
            hs1 (fun q q' u1 u2 u3 => hs2 q q' (by omega) u2 u3)
            hn1 (fun q u1 u2 => hn2 q (by omega) u2) c _]
          by_cases hc : b.col_indices.getD p2 0 = c
          · have hAz : getLoop a.col_indices a.values c e1 p1 = 0 := by
              refine getLoop_zero_getD _ _ _ _ _ hl1 (fun q u1 u2 => ?_)
              rcases Nat.eq_or_lt_of_le u1 with rfl | hlt
              · omega
              · have := hs1 p1 q (le_refl _) hlt u2
                omega
            have hBz : getLoop b.col_indices b.values c e2 (p2 + 1) = 0 := by
              refine getLoop_zero_getD _ _ _ _ _ hl2 (fun q u1 u2 => ?_)
              have := hs2 p2 q (le_refl _) (by omega) u2
              omega
            have hvb := hn2 p2 (le_refl _) h.2
            rw [hB, hAz, hBz]
            simp only [if_pos hc, mul_zero, add_zero, zero_add, if_true]
            rw [if_neg (fun hx => hvb ((hs0 _).mp hx))]
          · rw [hB, if_neg hc]
            simp only [if_neg hc]
        · -- equal columns
          have hceq : a.col_indices.getD p1 0 = b.col_indices.getD p2 0 := by omega
          rw [if_neg h1, if_neg h2]
          by_cases h3 : a.values.getD p1 0 + sgn * b.values.getD p2 0 ≠ 0
          · -- non-zero combination: emit it
            rw [if_pos h3, assocLast_cons]
            rw [combineEmits_lookup a b sgn hsgn e1 e2 (p1 + 1) (p2 + 1) hl1 hl2
              (fun q q' u1 u2 u3 => hs1 q q' (by omega) u2 u3)
              (fun q q' u1 u2 u3 => hs2 q q' (by omega) u2 u3)
              (fun q u1 u2 => hn1 q (by omega) u2)
              (fun q u1 u2 => hn2 q (by omega) u2) c _]
            by_cases hc : a.col_indices.getD p1 0 = c
            · have hAz : getLoop a.col_indices a.values c e1 (p1 + 1) = 0 := by
                refine getLoop_zero_getD _ _ _ _ _ hl1 (fun q u1 u2 => ?_)
                have := hs1 p1 q (le_refl _) (by omega) u2
                omega
              have hBz : getLoop b.col_indices b.values c e2 (p2 + 1) = 0 := by
                refine getLoop_zero_getD _ _ _ _ _ hl2 (fun q u1 u2 => ?_)
                have := hs2 p2 q (le_refl _) (by omega) u2
                omega
              rw [hA, hB, hAz, hBz]
              simp only [if_pos hc, if_pos (hceq.symm.trans hc), mul_zero, add_zero, if_true]
              rw [if_neg h3]
            · rw [hA, hB, if_neg hc, if_neg (fun hx => hc (hceq.trans hx))]
              simp only [if_neg hc]
          · -- the combination cancels: emit nothing
            push_neg at h3
            rw [if_neg (by simpa using h3)]
            rw [combineEmits_lookup a b sgn hsgn e1 e2 (p1 + 1) (p2 + 1) hl1 hl2
              (fun q q' u1 u2 u3 => hs1 q q' (by omega) u2 u3)
              (fun q q' u1 u2 u3 => hs2 q q' (by omega) u2 u3)
              (fun q u1 u2 => hn1 q (by omega) u2)
              (fun q u1 u2 => hn2 q (by omega) u2) c d]
            by_cases hc : a.col_indices.getD p1 0 = c
            · have hAz : getLoop a.col_indices a.values c e1 (p1 + 1) = 0 := by
                refine getLoop_zero_getD _ _ _ _ _ hl1 (fun q u1 u2 => ?_)
                have := hs1 p1 q (le_refl _) (by omega) u2
                omega
              have hBz : getLoop b.col_indices b.values c e2 (p2 + 1) = 0 := by
                refine getLoop_zero_getD _ _ _ _ _ hl2 (fun q u1 u2 => ?_)
                have := hs2 p2 q (le_refl _) (by omega) u2
                omega
              rw [hA, hB, hAz, hBz]
              simp only [if_pos hc, if_pos (hceq.symm.trans hc), mul_zero, add_zero, if_true]
              rw [if_pos h3]
            · rw [hA, hB, if_neg hc, if_neg (fun hx => hc (hceq.trans hx))]
  · next h =>
      rw [assocLast_append]
      rw [assocLast_slicePairs a id e1 p1 hl1 hs1 hn1 c d,
        assocLast_slicePairs b (sgn * ·) e2 p2 hl2 hs2 hn2 c _]
      rcases Nat.lt_or_ge p1 e1 with hp1 | hp1
      · have hp2 : e2 ≤ p2 := by omega
        have hBz : getLoop b.col_indices b.values c e2 p2 = 0 :=
          getLoop_past _ _ _ _ _ hp2
        rw [hBz]
        by_cases hAz : getLoop a.col_indices a.values c e1 p1 = 0
        · simp [hAz]
        · simp [hAz]
      · have hAz : getLoop a.col_indices a.values c e1 p1 = 0 :=
          getLoop_past _ _ _ _ _ hp1
        rw [hAz]
        by_cases hBz : getLoop b.col_indices b.values c e2 p2 = 0
        · simp [hBz]
        · simp [hBz, hs0]
termination_by (e1 - p1) + (e2 - p2)
decreasing_by all_goals omega

theorem slicePairs_col_lt (src : SparseMatrix) (f : Int → Int) (e p C : Nat)
    (h : ∀ q, p ≤ q → q < e → src.col_indices.getD q 0 < C) :
    ∀ x ∈ slicePairs src f e p, x.1 < C := by
  rw [slicePairs]
  split
  · next hpe =>
      intro x hx
      rcases List.mem_cons.mp hx with rfl | hx
      · exact h p (le_refl _) hpe
      · exact slicePairs_col_lt src f e (p + 1) C
          (fun q u1 u2 => h q (by omega) u2) x hx
  · intro x hx
    simp at hx
termination_by e - p
decreasing_by omega

theorem combineEmits_col_lt (a b : SparseMatrix) (sgn : Int) (e1 e2 p1 p2 C : Nat)
    (h1 : ∀ q, p1 ≤ q → q < e1 → a.col_indices.getD q 0 < C)
    (h2 : ∀ q, p2 ≤ q → q < e2 → b.col_indices.getD q 0 < C) :
    ∀ x ∈ combineEmits a b sgn e1 e2 p1 p2, x.1 < C := by
  rw [combineEmits]
  split
  · next h =>
      simp only []
      split_ifs with hc1 hc2 hc3 <;> intro x hx
      · rcases List.mem_cons.mp hx with rfl | hx
        · exact h1 p1 (le_refl _) h.1
        · exact combineEmits_col_lt a b sgn e1 e2 (p1 + 1) p2 C
            (fun q u1 u2 => h1 q (by omega) u2) h2 x hx
      · rcases List.mem_cons.mp hx with rfl | hx
        · exact h2 p2 (le_refl _) h.2
        · exact combineEmits_col_lt a b sgn e1 e2 p1 (p2 + 1) C
            h1 (fun q u1 u2 => h2 q (by omega) u2) x hx
      · rcases List.mem_cons.mp hx with rfl | hx
        · exact h1 p1 (le_refl _) h.1
        · exact combineEmits_col_lt a b sgn e1 e2 (p1 + 1) (p2 + 1) C
            (fun q u1 u2 => h1 q (by omega) u2)
            (fun q u1 u2 => h2 q (by omega) u2) x hx
      · exact combineEmits_col_lt a b sgn e1 e2 (p1 + 1) (p2 + 1) C
          (fun q u1 u2 => h1 q (by omega) u2)
          (fun q u1 u2 => h2 q (by omega) u2) x hx
  · intro x hx
    rcases List.mem_append.mp hx with hx | hx
    · exact slicePairs_col_lt a id e1 p1 C h1 x hx
    · exact slicePairs_col_lt b (sgn * ·) e2 p2 C h2 x hx
termination_by (e1 - p1) + (e2 - p2)
decreasing_by all_goals omega

theorem lastShadow_append (l1 l2 : List (Nat × Nat × Int)) (r c : Nat) (d : Int) :
    lastShadow (l1 ++ l2) r c d = lastShadow l2 r c (lastShadow l1 r c d) :=
  List.foldl_append _ _ _ _

theorem lastShadow_mapRow (l : List (Nat × Int)) (i r c : Nat) (d : Int) :
    lastShadow (l.map (fun e => (i, e.1, e.2))) r c d =
      if i = r then assocLast l c d else d := by
  induction l generalizing d with
  | nil =>
      simp only [List.map_nil, lastShadow_nil]
      split_ifs <;> rfl
  | cons x xs ih =>
      rw [List.map_cons, lastShadow_cons, ih, assocLast_cons]
      by_cases hir : i = r
      · by_cases hxc : x.1 = c
        · rw [if_pos hir, if_pos ⟨hir, hxc⟩, if_pos hxc, if_pos hir]
        · rw [if_pos hir, if_neg (fun hh => hxc hh.2), if_neg hxc, if_pos hir]
      · rw [if_neg hir, if_neg (fun hh => hir hh.1), if_neg hir]

theorem lastShadow_callsFrom_gt (a b : SparseMatrix) (sgn : Int) (r c : Nat)
    (d : Int) (i : Nat) (hi : r < i) :
    lastShadow (callsFrom a b sgn i) r c d = d := by
  rw [callsFrom]
  split
  · next h =>
      rw [lastShadow_append, lastShadow_mapRow, if_neg (by omega)]
      exact lastShadow_callsFrom_gt a b sgn r c d (i + 1) (by omega)
  · rfl
termination_by a.rows - i
decreasing_by omega

theorem lastShadow_callsFrom_le (a b : SparseMatrix) (sgn : Int) (r c : Nat)
    (d : Int) (hr : r < a.rows) (i : Nat) (hi : i ≤ r) :
    lastShadow (callsFrom a b sgn i) r c d =
      assocLast (combineEmits a b sgn
        (if r + 1 < a.row_ptr.length then a.row_ptr.getD (r + 1) 0 else a.values.length)
        (if r + 1 < b.row_ptr.length then b.row_ptr.getD (r + 1) 0 else b.values.length)
        (a.row_ptr.getD r 0) (b.row_ptr.getD r 0)) c d := by
  rw [callsFrom]
  split
  · next h =>
      rw [lastShadow_append, lastShadow_mapRow]
      rcases Nat.eq_or_lt_of_le hi with rfl | hlt
      · rw [if_pos rfl]
        exact lastShadow_callsFrom_gt a b sgn i c _ (i + 1) (by omega)
      · rw [if_neg (by omega)]
        exact lastShadow_callsFrom_le a b sgn r c d hr (i + 1) hlt
  · next h => omega
termination_by a.rows - i
decreasing_by omega

theorem callsFrom_bounds (a b : SparseMatrix) (sgn : Int)
    (hwfa : a.Wf) (hwfb : b.Wf) (hbr : b.rows = a.rows) (hbc : b.cols = a.cols)
    (i : Nat) :
    ∀ e ∈ callsFrom a b sgn i, e.1 < a.rows ∧ e.2.1 < a.cols := by
  rw [callsFrom]
  split
  · next h =>
      intro e he
      rcases List.mem_append.mp he with he | he
      · rcases List.mem_map.mp he with ⟨x, hx, rfl⟩
        refine ⟨h, ?_⟩
        refine combineEmits_col_lt a b sgn _ _ _ _ a.cols ?_ ?_ x hx
        · intro q u1 u2
          rw [if_pos (by rw [hwfa.rp_length]; omega)] at u2
          exact (hwfa.row_sorted i h q u2 u1).1
        · intro q u1 u2
          rw [if_pos (by rw [hwfb.rp_length, hbr]; omega)] at u2
          rw [← hbc]
          exact (hwfb.row_sorted i (by omega) q u2 u1).1
      · exact callsFrom_bounds a b sgn hwfa hwfb hbr hbc (i + 1) e he
  · intro e he
    simp at he
termination_by a.rows - i
decreasing_by omega

/-- Correctness of the shared row-merge driver: on well-formed matrices of
identical dimensions it succeeds, the result is well-formed with the same
dimensions, and every cell holds `a(r,c) + sgn * b(r,c)`. -/
theorem combineRows_spec (a b : SparseMatrix) (sgn : Int)
    (hsgn : sgn = 1 ∨ sgn = -1) (hwfa : a.Wf) (hwfb : b.Wf)
    (hbr : b.rows = a.rows) (hbc : b.cols = a.cols) :
    ∃ m, combineRows a b sgn 0 (mk0 a.rows a.cols) = some m ∧
      m.rows = a.rows ∧ m.cols = a.cols ∧ m.Wf ∧
      ∀ r c, r < a.rows → c < a.cols →
        m.getElement r c =
          some ((a.getElement r c).getD 0 + sgn * (b.getElement r c).getD 0) := by
  have hb0 : ∀ e ∈ callsFrom a b sgn 0,
      e.1 < (mk0 a.rows a.cols).rows ∧ e.2.1 < (mk0 a.rows a.cols).cols :=
    callsFrom_bounds a b sgn hwfa hwfb hbr hbc 0
  refine ⟨applyCalls (callsFrom a b sgn 0) (mk0 a.rows a.cols), ?_, ?_, ?_, ?_, ?_⟩
  · rw [combineRows_eq_runSets, runSets_eq_some _ _ hb0]
  · rw [applyCalls_rows]
    rfl
  · rw [applyCalls_cols]
    rfl
  · exact applyCalls_wf _ _ (mk0_wf _ _) hb0
  · intro r c hr hc
    rw [getElement_applyCalls _ _ (mk0_wf _ _) hb0 r c hr hc,
      getElement_mk0 a.rows a.cols r c hr hc]
    simp only [Option.getD_some]
    rw [lastShadow_callsFrom_le a b sgn r c 0 hr 0 (Nat.zero_le r)]
    rw [if_pos (by rw [hwfa.rp_length]; omega),
      if_pos (by rw [hwfb.rp_length, hbr]; omega)]
    have hrb : r < b.rows := by omega
    have hl1 : a.row_ptr.getD (r + 1) 0 ≤ a.col_indices.length := by
      have h1 : a.row_ptr.getD (r + 1) 0 ≤ a.values.length := hwfa.rowEnd_le hr
      rw [hwfa.len_eq] at h1
      exact h1
    have hl2 : b.row_ptr.getD (r + 1) 0 ≤ b.col_indices.length := by
      have h1 : b.row_ptr.getD (r + 1) 0 ≤ b.values.length := hwfb.rowEnd_le hrb
      rw [hwfb.len_eq] at h1
      exact h1
    have hl1v : a.row_ptr.getD (r + 1) 0 ≤ a.values.length := hwfa.rowEnd_le hr
    have hl2v : b.row_ptr.getD (r + 1) 0 ≤ b.values.length := hwfb.rowEnd_le hrb
    rw [combineEmits_lookup a b sgn hsgn (a.row_ptr.getD (r + 1) 0)
      (b.row_ptr.getD (r + 1) 0) (a.row_ptr.getD r 0) (b.row_ptr.getD r 0) hl1 hl2
      (fun q q' u1 u2 u3 => hwfa.sorted_lt hr q' u3 q u1 u2)
      (fun q q' u1 u2 u3 => hwfb.sorted_lt hrb q' u3 q u1 u2)
      (fun q u1 u2 => by
        rw [List.getD_eq_getElem a.values 0 (by omega)]
        exact hwfa.nonzero _ (List.getElem_mem _))
      (fun q u1 u2 => by
        rw [List.getD_eq_getElem b.values 0 (by omega)]
        exact hwfb.nonzero _ (List.getElem_mem _)) c 0]
    rw [getElement_eq_getLoop a r c hwfa.rp_length hr hc,
      getElement_eq_getLoop b r c hwfb.rp_length hrb (by omega)]
    simp only [Option.getD_some]
    rw [rowEnd_def, rowStart_def, rowEnd_def, rowStart_def]
    by_cases hz : getLoop a.col_indices a.values c (a.row_ptr.getD (r + 1) 0)
        (a.row_ptr.getD r 0) + sgn * getLoop b.col_indices b.values c
        (b.row_ptr.getD (r + 1) 0) (b.row_ptr.getD r 0) = 0
    · rw [if_pos hz, hz]
    · rw [if_neg hz]

/-- `add` on well-formed equal-dimension operands: succeeds and is pointwise
addition. -/
theorem add_spec (a b : SparseMatrix) (hwfa : a.Wf) (hwfb : b.Wf)
    (hbr : b.rows = a.rows) (hbc : b.cols = a.cols) :
    ∃ m, a.add b = .ok m ∧ m.rows = a.rows ∧ m.cols = a.cols ∧ m.Wf ∧
      ∀ r c, r < a.rows → c < a.cols →
        m.getElement r c =
          some ((a.getElement r c).getD 0 + (b.getElement r c).getD 0) := by
  obtain ⟨m, hm, h1, h2, h3, h4⟩ :=
    combineRows_spec a b 1 (Or.inl rfl) hwfa hwfb hbr hbc
  refine ⟨m, ?_, h1, h2, h3, fun r c hr hc => ?_⟩
  · unfold add
    rw [if_neg (by omega), hm]
  · rw [h4 r c hr hc]
    rw [one_mul]

/-- `subtract` on well-formed equal-dimension operands: succeeds and is
pointwise subtraction. -/
theorem subtract_spec (a b : SparseMatrix) (hwfa : a.Wf) (hwfb : b.Wf)
    (hbr : b.rows = a.rows) (hbc : b.cols = a.cols) :
    ∃ m, a.subtract b = .ok m ∧ m.rows = a.rows ∧ m.cols = a.cols ∧ m.Wf ∧
      ∀ r c, r < a.rows → c < a.cols →
        m.getElement r c =
          some ((a.getElement r c).getD 0 - (b.getElement r c).getD 0) := by
  obtain ⟨m, hm, h1, h2, h3, h4⟩ :=
    combineRows_spec a b (-1) (Or.inr rfl) hwfa hwfb hbr hbc
  refine ⟨m, ?_, h1, h2, h3, fun r c hr hc => ?_⟩
  · unfold subtract
    rw [if_neg (by omega), hm]
  · rw [h4 r c hr hc]
    congr 1
    omega

/-! ## Multiplication (lines 246–302)

Per output row: accumulate products into a dense scratch row, collect the
non-zero entries in ascending column order, sort them (a no-op on the already
sorted list, but transcribed), bulk-append them to the result arrays, and set
the row pointer directly. -/

/-- The inner loop over the right operand's row (lines 270–274):
`tempRow[resultCol] += rowVal * other.values[p2]`. -/
def accumInner (b : SparseMatrix) (rowVal : Int) (e2 p2 : Nat)
    (temp : List Int) : List Int :=
  if h : p2 < e2 then
    let resultCol := b.col_indices.getD p2 0
    accumInner b rowVal e2 (p2 + 1)
      (temp.set resultCol (temp.getD resultCol 0 + rowVal * b.values.getD p2 0))
  else temp
termination_by e2 - p2
decreasing_by omega

/-- The loop over the left operand's row `i` (lines 263–275). -/
def accumOuter (a b : SparseMatrix) (e1 p1 : Nat) (temp : List Int) : List Int :=
  if h : p1 < e1 then
    let rowVal := a.values.getD p1 0
    let colInSelf := a.col_indices.getD p1 0
    let otherEnd := if colInSelf + 1 < b.row_ptr.length then
        b.row_ptr.getD (colInSelf + 1) 0 else b.values.length
    accumOuter a b e1 (p1 + 1)
      (accumInner b rowVal otherEnd (b.row_ptr.getD colInSelf 0) temp)
  else temp
termination_by e1 - p1
decreasing_by omega

/-- Collect non-zero scratch entries in ascending index order (lines 278–283). -/
def collectNZ (temp : List Int) (cols j : Nat) : List (Nat × Int) :=
  if h : j < cols then
    if temp.getD j 0 ≠ 0 then (j, temp.getD j 0) :: collectNZ temp cols (j + 1)
    else collectNZ temp cols (j + 1)
  else []
termination_by cols - j
decreasing_by all_goals omega

/-- The push loop appending a row's entries to the CSR arrays (lines 289–292). -/
def appendPairs (res : SparseMatrix) (l : List (Nat × Int)) : SparseMatrix :=
  l.foldl (fun r e =>
    { r with values := r.values ++ [e.2], col_indices := r.col_indices ++ [e.1] }) res

/-- The outer `for (let i = 0; ...)` loop of `multiply` (lines 254–299).  The
scratch row is reset to all zeros at the top of each iteration (lines
256–258), which is modelled by a fresh `replicate`; the JavaScript sort of
the collected entries (line 286, `(a, b) => a[0] - b[0]`, stable) is the
stable insertion sort by first component. -/
def mulRows (a b : SparseMatrix) (i : Nat) (res : SparseMatrix) : SparseMatrix :=
  if h : i < a.rows then
    let temp0 : List Int := List.replicate b.cols 0
    let e1 := if i + 1 < a.row_ptr.length then a.row_ptr.getD (i + 1) 0
              else a.values.length
    let temp := accumOuter a b e1 (a.row_ptr.getD i 0) temp0
    let nz := List.insertionSort (fun x y => x.1 ≤ y.1) (collectNZ temp b.cols 0)
    let res1 := appendPairs res nz
    let rp1 := res1.row_ptr.set (i + 1) (res1.row_ptr.getD i 0 + nz.length)
    let rp2 := adjustTail (fun _ => rp1.getD (i + 1) 0) (i + 2) rp1
    mulRows a b (i + 1) { res1 with row_ptr := rp2 }
  else res
termination_by a.rows - i
decreasing_by omega

/-- `multiply(other)` (lines 246–302): dimension check, then the row loop on a
fresh `(a.rows × b.cols)` result.  No `setElement` is involved, so no other
error can occur. -/
def multiply (a b : SparseMatrix) : Except OpError SparseMatrix :=
  if a.cols ≠ b.rows then .error .dimensionMismatch
  else .ok (mulRows a b 0 (mk0 a.rows b.cols))

/-- The mathematical product entry: `∑ k, A(r,k) * B(k,c)`. -/
def prodRC (a b : SparseMatrix) (r c : Nat) : Int :=
  ∑ k ∈ Finset.range a.cols, (a.getElement r k).getD 0 * (b.getElement k c).getD 0

/-! ### Scratch-row accumulation lemmas -/

theorem accumInner_length (b : SparseMatrix) (v : Int) (e2 p2 : Nat) (temp : List Int) :
    (accumInner b v e2 p2 temp).length = temp.length := by
  rw [accumInner]
  split
  · next h =>
      rw [accumInner_length b v e2 (p2 + 1) _, List.length_set]
  · rfl
termination_by e2 - p2
decreasing_by omega

theorem list_getD_set_self (l : List Int) (p : Nat) (a : Int) (h : p < l.length) :
    (l.set p a).getD p 0 = a := by
  rw [list_getD_eq_getElem?_getD, List.getElem?_set_self', List.getElem?_eq_getElem h]
  rfl

theorem accumInner_getD (b : SparseMatrix) (v : Int) (e2 p2 : Nat) (temp : List Int)
    (hl : e2 ≤ b.col_indices.length)
    (hbnd : ∀ q, p2 ≤ q → q < e2 → b.col_indices.getD q 0 < temp.length)
    (hs : ∀ q q', p2 ≤ q → q < q' → q' < e2 →
      b.col_indices.getD q 0 < b.col_indices.getD q' 0)
    (j : Nat) :
    (accumInner b v e2 p2 temp).getD j 0 =
      temp.getD j 0 + v * getLoop b.col_indices b.values j e2 p2 := by
  rw [accumInner]
  split
  · next h =>
      simp only []
      rw [accumInner_getD b v e2 (p2 + 1) _
        hl
        (by
          intro q u1 u2
          rw [List.length_set]
          exact hbnd q (by omega) u2)
        (fun q q' u1 u2 u3 => hs q q' (by omega) u2 u3) j]
      rw [getLoop_step b.col_indices b.values j e2 p2 _ h
        (getElem?_eq_some_getD _ _ 0 (by omega))]
      by_cases hc : b.col_indices.getD p2 0 = j
      · have hj : j < temp.length := hc ▸ hbnd p2 (le_refl _) h
        have htail : getLoop b.col_indices b.values j e2 (p2 + 1) = 0 := by
          refine getLoop_zero_getD _ _ _ _ _ hl (fun q u1 u2 => ?_)
          have := hs p2 q (le_refl _) (by omega) u2
          omega
        rw [if_pos hc, htail, hc, list_getD_set_self _ _ _ hj]
        ring
      · rw [if_neg hc, list_getD_set_ne temp (b.col_indices.getD p2 0) j _ 0 hc]
  · next h =>
      rw [getLoop_past _ _ _ _ _ (by omega)]
      ring
termination_by e2 - p2
decreasing_by all_goals omega

theorem accumOuter_length (a b : SparseMatrix) (e1 p1 : Nat) (temp : List Int) :
    (accumOuter a b e1 p1 temp).length = temp.length := by
  rw [accumOuter]
  split
  · next h =>
      rw [accumOuter_length a b e1 (p1 + 1) _, accumInner_length]
  · rfl
termination_by e1 - p1
decreasing_by omega

theorem accumOuter_getD (a b : SparseMatrix) (hwfb : b.Wf) (e1 p1 : Nat)
    (temp : List Int) (htl : temp.length = b.cols)
    (hacol : ∀ q, p1 ≤ q → q < e1 → a.col_indices.getD q 0 < b.rows)
    (j : Nat) :
    (accumOuter a b e1 p1 temp).getD j 0 =
      temp.getD j 0 + ∑ q ∈ Finset.Ico p1 e1, a.values.getD q 0 *
        getLoop b.col_indices b.values j
          (b.row_ptr.getD (a.col_indices.getD q 0 + 1) 0)
          (b.row_ptr.getD (a.col_indices.getD q 0) 0) := by
  rw [accumOuter]
  split
  · next h =>
      simp only []
      have hk : a.col_indices.getD p1 0 < b.rows := hacol p1 (le_refl _) h
      have hoE : (if a.col_indices.getD p1 0 + 1 < b.row_ptr.length then
          b.row_ptr.getD (a.col_indices.getD p1 0 + 1) 0 else b.values.length) =
          b.row_ptr.getD (a.col_indices.getD p1 0 + 1) 0 :=
        if_pos (by rw [hwfb.rp_length]; omega)
      rw [hoE]
      rw [accumOuter_getD a b hwfb e1 (p1 + 1) _
        (by rw [accumInner_length]; exact htl)
        (fun q u1 u2 => hacol q (by omega) u2) j]
      have hEleb : b.row_ptr.getD (a.col_indices.getD p1 0 + 1) 0 ≤
          b.col_indices.length := by
        have h1 : b.rowEnd (a.col_indices.getD p1 0) ≤ b.values.length :=
          hwfb.rowEnd_le hk
        rw [rowEnd_def, hwfb.len_eq] at h1
        exact h1
      rw [accumInner_getD b (a.values.getD p1 0)
        (b.row_ptr.getD (a.col_indices.getD p1 0 + 1) 0)
        (b.row_ptr.getD (a.col_indices.getD p1 0) 0) temp hEleb
        (fun q u1 u2 => by
          rw [htl]
          exact (hwfb.row_sorted _ hk q u2 u1).1)
        (fun q q' u1 u2 u3 => hwfb.sorted_lt hk q' u3 q u1 u2) j]
      rw [Finset.sum_eq_sum_Ico_succ_bot h]
      ring
  · next h =>
      rw [Finset.Ico_eq_empty (by omega), Finset.sum_empty]
      ring
termination_by e1 - p1
decreasing_by all_goals omega

/-- Reindexing the dot product: summing `slice value × g(slice column)` over a
strictly sorted, bounded slice equals summing `lookup(k) × g(k)` over all
columns `k < C`. -/
theorem sum_range_slice (cs : List Nat) (vs : List Int) (C : Nat) (g : Nat → Int)
    (e p : Nat) (hl : e ≤ cs.length)
    (hs : ∀ q q', p ≤ q → q < q' → q' < e → cs.getD q 0 < cs.getD q' 0)
    (hb : ∀ q, p ≤ q → q < e → cs.getD q 0 < C) :
    ∑ k ∈ Finset.range C, getLoop cs vs k e p * g k =
      ∑ q ∈ Finset.Ico p e, vs.getD q 0 * g (cs.getD q 0) := by
  rcases Nat.lt_or_ge p e with hpe | hpe
  · have hstep : ∀ k, getLoop cs vs k e p =
        if cs.getD p 0 = k then vs.getD p 0 else getLoop cs vs k e (p + 1) :=
      fun k => getLoop_step cs vs k e p _ hpe (getElem?_eq_some_getD _ _ 0 (by omega))
    have hLc0 : getLoop cs vs (cs.getD p 0) e (p + 1) = 0 := by
      refine getLoop_zero_getD _ _ _ _ _ hl (fun q u1 u2 => ?_)
      have := hs p q (le_refl _) (by omega) u2
      omega
    have hterm : ∀ k ∈ Finset.range C, getLoop cs vs k e p * g k =
        getLoop cs vs k e (p + 1) * g k +
          (if k = cs.getD p 0 then vs.getD p 0 * g k else 0) := by
      intro k _
      rw [hstep k]
      by_cases hc : cs.getD p 0 = k
      · have hLk : getLoop cs vs k e (p + 1) = 0 := hc ▸ hLc0
        rw [if_pos hc, if_pos hc.symm, hLk]
        ring
      · rw [if_neg hc, if_neg (fun hh => hc hh.symm)]
        ring
    rw [Finset.sum_congr rfl hterm, Finset.sum_add_distrib,
      Finset.sum_ite_eq' (Finset.range C) (cs.getD p 0)
        (fun k => vs.getD p 0 * g k),
      if_pos (Finset.mem_range.mpr (hb p (le_refl _) hpe))]
    rw [sum_range_slice cs vs C g e (p + 1) hl
      (fun q q' u1 u2 u3 => hs q q' (by omega) u2 u3)
      (fun q u1 u2 => hb q (by omega) u2)]
    rw [Finset.sum_eq_sum_Ico_succ_bot hpe]
    ring
  · have hz : ∀ k, getLoop cs vs k e p = 0 := fun k => getLoop_past _ _ _ _ _ hpe
    rw [Finset.Ico_eq_empty (by omega), Finset.sum_empty]
    rw [Finset.sum_congr rfl (fun k _ => by rw [hz k, zero_mul])]
    exact Finset.sum_const_zero
termination_by e - p
decreasing_by all_goals omega

/-! ### The collected non-zero row and its bulk append -/

theorem collectNZ_mem (temp : List Int) (cols j0 : Nat) :
    ∀ x ∈ collectNZ temp cols j0,
      j0 ≤ x.1 ∧ x.1 < cols ∧ x.2 = temp.getD x.1 0 ∧ temp.getD x.1 0 ≠ 0 := by
  rw [collectNZ]
  split
  · next h =>
      split_ifs with hnz <;> intro x hx
      · rcases List.mem_cons.mp hx with rfl | hx
        · exact ⟨le_refl _, h, rfl, hnz⟩
        · have := collectNZ_mem temp cols (j0 + 1) x hx
          exact ⟨by omega, this.2⟩
      · have := collectNZ_mem temp cols (j0 + 1) x hx
        exact ⟨by omega, this.2⟩
  · intro x hx
    simp at hx
termination_by cols - j0
decreasing_by all_goals omega

theorem collectNZ_sorted (temp : List Int) (cols j0 : Nat) :
    List.Sorted (fun x y : Nat × Int => x.1 ≤ y.1) (collectNZ temp cols j0) := by
  rw [collectNZ]
  split
  · next h =>
      split_ifs with hnz
      · rw [List.sorted_cons]
        exact ⟨fun x hx => le_trans (by omega) (collectNZ_mem temp cols (j0 + 1) x hx).1,
          collectNZ_sorted temp cols (j0 + 1)⟩
      · exact collectNZ_sorted temp cols (j0 + 1)
  · exact List.sorted_nil
termination_by cols - j0
decreasing_by all_goals omega

theorem collectNZ_pairwise_lt (temp : List Int) (cols j0 : Nat) :
    List.Pairwise (fun x y : Nat × Int => x.1 < y.1) (collectNZ temp cols j0) := by
  rw [collectNZ]
  split
  · next h =>
      split_ifs with hnz
      · rw [List.pairwise_cons]
        exact ⟨fun x hx => lt_of_lt_of_le (by omega)
            (collectNZ_mem temp cols (j0 + 1) x hx).1,
          collectNZ_pairwise_lt temp cols (j0 + 1)⟩
      · exact collectNZ_pairwise_lt temp cols (j0 + 1)
  · exact List.Pairwise.nil
termination_by cols - j0
decreasing_by all_goals omega

/-- First-match lookup over a `(col, value)` list: the semantics of the
`getElement` scan over a bulk-appended row. -/
def pairFirst : List (Nat × Int) → Nat → Int
  | [], _ => 0
  | (c, v) :: rest, j => if c = j then v else pairFirst rest j

theorem pairFirst_collectNZ (temp : List Int) (cols j0 j : Nat) :
    pairFirst (collectNZ temp cols j0) j =
      if j0 ≤ j ∧ j < cols then temp.getD j 0 else 0 := by
  rw [collectNZ]
  split
  · next h =>
      by_cases hnz : temp.getD j0 0 ≠ 0
      · rw [if_pos hnz, pairFirst]
        by_cases hj : j0 = j
        · rw [if_pos hj, hj, if_pos ⟨le_refl _, hj ▸ h⟩]
        · rw [if_neg hj, pairFirst_collectNZ temp cols (j0 + 1) j]
          by_cases h1 : j0 + 1 ≤ j ∧ j < cols
          · rw [if_pos h1, if_pos ⟨by omega, h1.2⟩]
          · rw [if_neg h1, if_neg (fun hh => h1 ⟨by omega, hh.2⟩)]
      · rw [if_neg hnz, pairFirst_collectNZ temp cols (j0 + 1) j]
        by_cases h1 : j0 + 1 ≤ j ∧ j < cols
        · rw [if_pos h1, if_pos ⟨by omega, h1.2⟩]
        · rw [if_neg h1]
          by_cases h2 : j0 ≤ j ∧ j < cols
          · have hjj : j = j0 := by omega
            rw [if_pos h2, hjj]
            push_neg at hnz
            rw [hnz]
          · rw [if_neg h2]
  · next h =>
      rw [pairFirst, if_neg (fun hh => h (by omega))]
termination_by cols - j0
decreasing_by all_goals omega

theorem getLoop_of_pairs (nz : List (Nat × Int)) (cs' : List Nat) (vs' : List Int)
    (j : Nat) : ∀ base,
    (∀ t, t < nz.length → cs'[base + t]? = some ((nz.getD t (0, 0)).1) ∧
      vs'.getD (base + t) 0 = (nz.getD t (0, 0)).2) →
    getLoop cs' vs' j (base + nz.length) base = pairFirst nz j := by
  induction nz with
  | nil =>
      intro base _
      rw [show ([] : List (Nat × Int)).length = 0 from rfl, Nat.add_zero, pairFirst]
      exact getLoop_past _ _ _ _ _ (le_refl _)
  | cons x rest ih =>
      intro base hc
      obtain ⟨hc0, hv0⟩ := hc 0 (by simp)
      simp only [Nat.add_zero, List.getD_cons_zero] at hc0 hv0
      rw [getLoop_step cs' vs' j _ base x.1 (by simp) hc0]
      obtain ⟨xc, xv⟩ := x
      rw [pairFirst]
      by_cases hj : xc = j
      · rw [if_pos hj, if_pos hj, hv0]
      · rw [if_neg hj, if_neg hj]
        have harith : base + (rest.length + 1) = (base + 1) + rest.length := by omega
        rw [show ((xc, xv) :: rest).length = rest.length + 1 from rfl, harith]
        refine ih (base + 1) (fun t ht => ?_)
        have := hc (t + 1) (by simp; omega)
        simpa [Nat.add_comm, Nat.add_assoc, Nat.add_left_comm] using this
termination_by nz.length

theorem appendPairs_eq (l : List (Nat × Int)) (res : SparseMatrix) :
    appendPairs res l =
      { res with values := res.values ++ l.map Prod.snd,
                 col_indices := res.col_indices ++ l.map Prod.fst } := by
  induction l generalizing res with
  | nil => simp [appendPairs]
  | cons x t ih =>
      show appendPairs _ t = _
      rw [ih]
      simp

theorem getD_mono_chain (rp : List Nat) (R : Nat)
    (h : ∀ t, t < R → rp.getD t 0 ≤ rp.getD (t + 1) 0) :
    ∀ j, j ≤ R → ∀ i, i ≤ j → rp.getD i 0 ≤ rp.getD j 0 := by
  intro j
  induction j with
  | zero =>
      intro _ i hi
      interval_cases i
      exact le_refl _
  | succ k ih =>
      intro hk i hi
      rcases Nat.lt_or_ge i (k + 1) with hlt | hge
      · exact le_trans (ih (by omega) i (by omega)) (h k (by omega))
      · have : i = k + 1 := by omega
        subst this
        exact le_refl _

/-- One iteration of the `multiply` row loop, with the result state written
out explicitly. -/
theorem mulRows_step (a b : SparseMatrix) (i : Nat) (res : SparseMatrix)
    (h : i < a.rows) :
    mulRows a b i res = mulRows a b (i + 1)
      ⟨res.rows, res.cols,
       res.values ++ (List.insertionSort (fun x y : Nat × Int => x.1 ≤ y.1)
         (collectNZ (accumOuter a b
           (if i + 1 < a.row_ptr.length then a.row_ptr.getD (i + 1) 0
            else a.values.length)
           (a.row_ptr.getD i 0) (List.replicate b.cols 0)) b.cols 0)).map Prod.snd,
       res.col_indices ++ (List.insertionSort (fun x y : Nat × Int => x.1 ≤ y.1)
         (collectNZ (accumOuter a b
           (if i + 1 < a.row_ptr.length then a.row_ptr.getD (i + 1) 0
            else a.values.length)
           (a.row_ptr.getD i 0) (List.replicate b.cols 0)) b.cols 0)).map Prod.fst,
       adjustTail (fun _ => (res.row_ptr.set (i + 1)
           (res.row_ptr.getD i 0 + (List.insertionSort (fun x y : Nat × Int => x.1 ≤ y.1)
             (collectNZ (accumOuter a b
               (if i + 1 < a.row_ptr.length then a.row_ptr.getD (i + 1) 0
                else a.values.length)
               (a.row_ptr.getD i 0) (List.replicate b.cols 0)) b.cols 0)).length)).getD
           (i + 1) 0) (i + 2)
         (res.row_ptr.set (i + 1)
           (res.row_ptr.getD i 0 + (List.insertionSort (fun x y : Nat × Int => x.1 ≤ y.1)
             (collectNZ (accumOuter a b
               (if i + 1 < a.row_ptr.length then a.row_ptr.getD (i + 1) 0
                else a.values.length)
               (a.row_ptr.getD i 0) (List.replicate b.cols 0)) b.cols 0)).length))⟩ := by
  conv_lhs => rw [mulRows]
  rw [dif_pos h]
  simp only [appendPairs_eq]

/-- Invariant-carrying correctness of the `multiply` row loop. -/
theorem mulRows_spec (a b : SparseMatrix) (hwfa : a.Wf) (hwfb : b.Wf)
    (hab : a.cols = b.rows) (i : Nat) (res : SparseMatrix) (hile : i ≤ a.rows)
    (h1 : res.rows = a.rows) (h2 : res.cols = b.cols)
    (h3 : res.row_ptr.length = a.rows + 1)
    (h4 : res.values.length = res.col_indices.length)
    (h5 : ∀ t, i ≤ t → t ≤ a.rows → res.row_ptr.getD t 0 = res.values.length)
    (h6 : ∀ t, t < a.rows → res.row_ptr.getD t 0 ≤ res.row_ptr.getD (t + 1) 0)
    (h7 : ∀ r, r < i → ∀ q, q < res.rowEnd r → res.rowStart r ≤ q →
        res.col_indices.getD q 0 < b.cols ∧
        (q + 1 < res.rowEnd r →
          res.col_indices.getD q 0 < res.col_indices.getD (q + 1) 0))
    (h8 : ∀ v ∈ res.values, v ≠ 0)
    (h9 : ∀ r c, r < i → c < b.cols → res.getElement r c = some (prodRC a b r c)) :
    (mulRows a b i res).Wf ∧ (mulRows a b i res).rows = a.rows ∧
      (mulRows a b i res).cols = b.cols ∧
      ∀ r c, r < a.rows → c < b.cols →
        (mulRows a b i res).getElement r c = some (prodRC a b r c) := by
  by_cases h : i < a.rows
  · rw [mulRows_step a b i res h]
    -- Abbreviations for the scratch row and collected entries of row `i`.
    have hE1 : (if i + 1 < a.row_ptr.length then a.row_ptr.getD (i + 1) 0
        else a.values.length) = a.row_ptr.getD (i + 1) 0 :=
      if_pos (by rw [hwfa.rp_length]; omega)
    rw [hE1]
    set temp := accumOuter a b (a.row_ptr.getD (i + 1) 0) (a.row_ptr.getD i 0)
      (List.replicate b.cols 0) with htemp
    have hsorted := collectNZ_sorted temp b.cols 0
    have hnzeq : List.insertionSort (fun x y : Nat × Int => x.1 ≤ y.1)
        (collectNZ temp b.cols 0) = collectNZ temp b.cols 0 :=
      hsorted.insertionSort_eq
    rw [hnzeq]
    set nz := collectNZ temp b.cols 0 with hnz
    -- Facts about the scratch row.
    have hE1lv : a.row_ptr.getD (i + 1) 0 ≤ a.values.length := hwfa.rowEnd_le h
    have hE1lc : a.row_ptr.getD (i + 1) 0 ≤ a.col_indices.length := by
      rw [← hwfa.len_eq]
      exact hE1lv
    have htempj : ∀ j, j < b.cols → temp.getD j 0 = prodRC a b i j := by
      intro j hj
      rw [htemp, accumOuter_getD a b hwfb _ _ _ (by simp)
        (fun q u1 u2 => by
          rw [← hab]
          exact (hwfa.row_sorted i h q u2 u1).1) j]
      rw [replicate_getD]
      rw [← sum_range_slice a.col_indices a.values a.cols
        (fun k => getLoop b.col_indices b.values j (b.row_ptr.getD (k + 1) 0)
          (b.row_ptr.getD k 0)) (a.row_ptr.getD (i + 1) 0) (a.row_ptr.getD i 0)
        hE1lc
        (fun q q' u1 u2 u3 => hwfa.sorted_lt h q' u3 q u1 u2)
        (fun q u1 u2 => (hwfa.row_sorted i h q u2 u1).1)]
      rw [prodRC]
      rw [Finset.sum_congr rfl (fun k hk => ?_)]
      · split_ifs <;> ring
      · have hkb : k < b.rows := by
          rw [← hab]
          exact Finset.mem_range.mp hk
        rw [getElement_eq_getLoop a i k hwfa.rp_length h (Finset.mem_range.mp hk),
          getElement_eq_getLoop b k j hwfb.rp_length hkb hj]
        simp only [Option.getD_some]
        rfl
    have hmem : ∀ x ∈ nz, x.1 < b.cols ∧ x.2 = temp.getD x.1 0 ∧ temp.getD x.1 0 ≠ 0 := by
      intro x hx
      have := collectNZ_mem temp b.cols 0 x (hnz ▸ hx)
      exact ⟨this.2.1, this.2.2⟩
    have hpw : List.Pairwise (fun x y : Nat × Int => x.1 < y.1) nz := by
      rw [hnz]
      exact collectNZ_pairwise_lt temp b.cols 0
    have hpf : ∀ j, j < b.cols → pairFirst nz j = temp.getD j 0 := by
      intro j hj
      rw [hnz, pairFirst_collectNZ]
      rw [if_pos ⟨Nat.zero_le j, hj⟩]
    -- The old length and the new row pointer.
    have hLi : res.row_ptr.getD i 0 = res.values.length := h5 i (le_refl _) (by omega)
    have hcl : res.col_indices.length = res.values.length := h4.symm
    have hrp1D : ∀ t, t < a.rows + 1 →
        (res.row_ptr.set (i + 1) (res.row_ptr.getD i 0 + nz.length)).getD t 0 =
          if t = i + 1 then res.values.length + nz.length else res.row_ptr.getD t 0 := by
      intro t ht
      by_cases hti : t = i + 1
      · rw [if_pos hti, hti, list_getD_eq_getElem?_getD, List.getElem?_set_self',
          List.getElem?_eq_getElem (by omega)]
        simp only [Option.map_eq_map, Option.map_some', Option.getD_some,
          Function.const_apply]
        omega
      · rw [if_neg hti, list_getD_eq_getElem?_getD,
          List.getElem?_set_ne (fun hh => hti hh.symm), ← list_getD_eq_getElem?_getD]
    have hrp2D : ∀ t, t < a.rows + 1 →
        (adjustTail (fun _ => (res.row_ptr.set (i + 1)
            (res.row_ptr.getD i 0 + nz.length)).getD (i + 1) 0) (i + 2)
          (res.row_ptr.set (i + 1) (res.row_ptr.getD i 0 + nz.length))).getD t 0 =
          if t ≤ i then res.row_ptr.getD t 0 else res.values.length + nz.length := by
      intro t ht
      have hlt : t < (res.row_ptr.set (i + 1)
          (res.row_ptr.getD i 0 + nz.length)).length := by
        rw [List.length_set]
        omega
      rw [list_getD_eq_getElem?_getD, getElem?_adjustTail,
        List.getElem?_eq_getElem hlt]
      simp only [Option.map_some', Option.getD_some]
      beta_reduce
      rw [← List.getD_eq_getElem _ 0 hlt]
      by_cases hti : i + 2 ≤ t
      · rw [if_pos hti, if_neg (by omega), hrp1D (i + 1) (by omega), if_pos rfl]
      · rw [if_neg hti, hrp1D t ht]
        by_cases ht1 : t = i + 1
        · rw [if_pos ht1, if_neg (by omega)]
        · rw [if_neg ht1, if_pos (by omega)]
    refine mulRows_spec a b hwfa hwfb hab (i + 1) _ (by omega) h1 h2 ?_ ?_ ?_ ?_ ?_ ?_ ?_
    · show (adjustTail _ (i + 2) _).length = a.rows + 1
      rw [length_adjustTail, List.length_set, h3]
    · show (res.values ++ nz.map Prod.snd).length = (res.col_indices ++ nz.map Prod.fst).length
      simp [h4]
    · intro t ht1 ht2
      show (adjustTail _ (i + 2) _).getD t 0 = (res.values ++ nz.map Prod.snd).length
      rw [hrp2D t (by omega), if_neg (by omega)]
      simp
    · intro t ht
      show (adjustTail _ (i + 2) _).getD t 0 ≤ (adjustTail _ (i + 2) _).getD (t + 1) 0
      rw [hrp2D t (by omega), hrp2D (t + 1) (by omega)]
      by_cases h1t : t + 1 ≤ i
      · rw [if_pos (by omega), if_pos h1t]
        exact h6 t ht
      · rw [if_neg h1t]
        by_cases h2t : t ≤ i
        · rw [if_pos h2t]
          have : t = i := by omega
          subst this
          rw [hLi]
          omega
        · rw [if_neg h2t]
    · -- I1 for rows below i+1
      intro r hr q hqE hqS
      simp only [SparseMatrix.rowEnd, SparseMatrix.rowStart] at hqE hqS ⊢
      rw [hrp2D (r + 1) (by omega)] at hqE
      rw [hrp2D r (by omega), if_pos (by omega)] at hqS
      rw [hrp2D (r + 1) (by omega)]
      show (res.col_indices ++ nz.map Prod.fst).getD q 0 < b.cols ∧ _
      rcases Nat.lt_or_ge r i with hri | hri
      · -- an old row, untouched
        rw [if_pos (by omega)] at hqE ⊢
        have hEle : res.row_ptr.getD (r + 1) 0 ≤ res.values.length := by
          rw [← hLi]
          exact getD_mono_chain res.row_ptr a.rows h6 i (by omega) (r + 1) (by omega)
        have hq1 : q < res.col_indices.length := by omega
        rcases h7 r hri q hqE hqS with ⟨hb1, hb2⟩
        constructor
        · rw [List.getD_append _ _ _ _ hq1]
          exact hb1
        · intro hq2
          rw [List.getD_append _ _ _ _ hq1,
            List.getD_append _ _ _ _ (by omega)]
          exact hb2 hq2
      · -- the freshly appended row i
        have hri' : r = i := by omega
        subst hri'
        rw [if_neg (by omega)] at hqE ⊢
        rw [hLi] at hqS
        have hq1 : res.col_indices.length ≤ q := by omega
        have hqt : q - res.values.length < nz.length := by omega
        constructor
        · rw [List.getD_append_right _ _ _ _ hq1]
          rw [hcl]
          have := @List.getD_map (Nat × Int) Nat nz ((0 : Nat), (0 : Int))
            (q - res.values.length) Prod.fst
          rw [show ((0 : Nat), (0 : Int)).1 = 0 from rfl] at this
          rw [this]
          have hx := List.getD_eq_getElem nz ((0 : Nat), (0 : Int)) hqt
          rw [hx]
          exact (hmem _ (List.getElem_mem _)).1
        · intro hq2
          rw [List.getD_append_right _ _ _ _ hq1,
            List.getD_append_right _ _ _ _ (by omega), hcl]
          have hm1 := @List.getD_map (Nat × Int) Nat nz ((0 : Nat), (0 : Int))
            (q - res.values.length) Prod.fst
          have hm2 := @List.getD_map (Nat × Int) Nat nz ((0 : Nat), (0 : Int))
            (q + 1 - res.values.length) Prod.fst
          rw [show ((0 : Nat), (0 : Int)).1 = 0 from rfl] at hm1 hm2
          rw [hm1, hm2]
          have hpadj := (List.pairwise_iff_getElem.mp hpw) (q - res.values.length)
            (q + 1 - res.values.length) (by omega) (by omega) (by omega)
          rw [List.getD_eq_getElem nz ((0 : Nat), (0 : Int)) hqt,
            List.getD_eq_getElem nz ((0 : Nat), (0 : Int)) (by omega : q + 1 - res.values.length < nz.length)]
          exact hpadj
    · -- I2
      intro v hv
      rcases List.mem_append.mp hv with hv | hv
      · exact h8 v hv
      · rcases List.mem_map.mp hv with ⟨x, hx, rfl⟩
        rw [(hmem x hx).2.1]
        exact (hmem x hx).2.2
    · -- cell values for rows below i+1
      intro r c hr hc
      rw [getElement_eq_getLoop]
      rotate_left
      · show (adjustTail _ (i + 2) _).length = res.rows + 1
        rw [length_adjustTail, List.length_set, h3, h1]
      · show r < res.rows
        omega
      · show c < res.cols
        omega
      show some (getLoop (res.col_indices ++ nz.map Prod.fst)
          (res.values ++ nz.map Prod.snd) c
          ((adjustTail _ (i + 2) _).getD (r + 1) 0)
          ((adjustTail _ (i + 2) _).getD r 0)) = some (a.prodRC b r c)
      rw [hrp2D (r + 1) (by omega), hrp2D r (by omega)]
      rcases Nat.lt_or_ge r i with hri | hri
      · -- old rows keep their value: the scan runs over the untouched prefix
        rw [if_pos (by omega : r + 1 ≤ i), if_pos (by omega : r ≤ i)]
        have hfin : res.row_ptr.getD (r + 1) 0 ≤ res.col_indices.length := by
          rw [hcl, ← hLi]
          exact getD_mono_chain res.row_ptr a.rows h6 i (by omega) (r + 1) (by omega)
        have hcongr := getLoop_congr (res.col_indices ++ nz.map Prod.fst)
          res.col_indices (res.values ++ nz.map Prod.snd) res.values c
          (res.row_ptr.getD (r + 1) 0) (res.row_ptr.getD r 0) (by
            intro q hq1 hq2
            have hqc : q < res.col_indices.length := by omega
            constructor
            · rw [List.getElem?_append_left hqc]
            · rw [List.getD_append _ _ _ _ (by omega)])
        rw [hcongr]
        have h9r := h9 r c hri hc
        rw [getElement_eq_getLoop res r c (by rw [h3, h1]) (by omega) (by omega)] at h9r
        exact h9r
      · -- the freshly appended row i
        have hri' : r = i := by omega
        subst hri'
        rw [if_neg (by omega), if_pos (le_refl r), hLi]
        have hp := getLoop_of_pairs nz (res.col_indices ++ nz.map Prod.fst)
          (res.values ++ nz.map Prod.snd) c res.values.length (by
            intro t htl
            constructor
            · rw [List.getElem?_append_right (by rw [hcl]; omega), hcl,
                Nat.add_sub_cancel_left, List.getElem?_map,
                List.getElem?_eq_getElem htl, Option.map_some',
                List.getD_eq_getElem nz ((0 : Nat), (0 : Int)) htl]
            · rw [List.getD_append_right _ _ _ _ (by omega),
                Nat.add_sub_cancel_left]
              have := @List.getD_map (Nat × Int) Int nz ((0 : Nat), (0 : Int))
                t Prod.snd
              rw [show ((0 : Nat), (0 : Int)).2 = (0 : Int) from rfl] at this
              rw [this])
        rw [hp, hpf c hc, htempj c hc]
  · have hieq : i = a.rows := by omega
    rw [mulRows, dif_neg h]
    subst hieq
    refine ⟨⟨by rw [h3, h1], h4, ?_, ?_, ?_, h8⟩, h1, h2, ?_⟩
    · show res.row_ptr.getD res.rows 0 = res.values.length
      rw [h1]
      exact h5 a.rows (le_refl _) (le_refl _)
    · intro t ht
      exact h6 t (by omega)
    · intro r hr q hqE hqS
      have := h7 r (by omega) q hqE hqS
      rw [h2]
      exact this
    · intro r c hr hc
      exact h9 r c (by omega) hc
termination_by a.rows - i
decreasing_by omega

/-- Full correctness of `multiply` (lines 246-302): when `a.cols = b.rows` the
operation succeeds with a well-formed `a.rows x b.cols` matrix whose every
in-bounds cell reads back the mathematical product entry. -/
theorem multiply_spec (a b : SparseMatrix) (hwfa : a.Wf) (hwfb : b.Wf)
    (hab : a.cols = b.rows) :
    ∃ m, multiply a b = .ok m ∧ m.Wf ∧ m.rows = a.rows ∧ m.cols = b.cols ∧
      ∀ r c, r < a.rows → c < b.cols →
        m.getElement r c = some (prodRC a b r c) := by
  have hbase := mulRows_spec a b hwfa hwfb hab 0 (mk0 a.rows b.cols)
    (Nat.zero_le _) rfl rfl
    (by rw [mk0_row_ptr]; simp)
    rfl
    (by
      intro t _ ht2
      rw [mk0_row_ptr, replicate_getD, if_pos (by omega)]
      rfl)
    (by
      intro t ht
      rw [mk0_row_ptr, replicate_getD, replicate_getD]
      split_ifs <;> simp)
    (by
      intro r hr
      exact absurd hr (Nat.not_lt_zero r))
    (by
      intro v hv
      simp [mk0] at hv)
    (by
      intro r c hr hc
      exact absurd hr (Nat.not_lt_zero r))
  refine ⟨mulRows a b 0 (mk0 a.rows b.cols), ?_, hbase.1, hbase.2.1,
    hbase.2.2.1, hbase.2.2.2⟩
  rw [multiply, if_neg (by simp [hab])]

end SparseMatrix

/-! ## The file codec (lines 17–94 and 304–327)

`loadFromFile` and `saveToFile` are modelled at the character level: the file
content is a `List Char` (file-system access, `path.resolve` and
`fs.existsSync` are out of scope), and each JavaScript string primitive the
source uses — `split`, `trim`, `startsWith`/`endsWith`, `slice(1, -1)`,
`replace(/\s/g, '')`, `match(/rows=(\d+)/i)`, `parseInt`, template
interpolation of numbers — is translated below. -/

/-- JavaScript `String.prototype.split(sep)` for a one-character separator:
no field is ever dropped, and splitting the empty string gives `[""]`. -/
def splitOnChar (sep : Char) : List Char → List (List Char)
  | [] => [[]]
  | c :: rest =>
      match splitOnChar sep rest with
      | [] => [[]]
      | g :: gs => if c = sep then [] :: g :: gs else (c :: g) :: gs

/-- The ASCII part of JavaScript's whitespace class (`\s`, `trim()`). -/
def isWsChar (c : Char) : Bool :=
  c = ' ' || c = '\t' || c = '\n' || c = '\r' || c = '\x0b' || c = '\x0c'

/-- JavaScript `String.prototype.trim()`. -/
def jsTrim (l : List Char) : List Char :=
  ((l.dropWhile isWsChar).reverse.dropWhile isWsChar).reverse

/-- Line 25: `content.split('\n').filter(line => line.trim() !== '')`. -/
def linesOf (content : List Char) : List (List Char) :=
  (splitOnChar '\n' content).filter (fun l => !(jsTrim l).isEmpty)

/-- ASCII lower-casing, for the `/i` flag of the header regexes. -/
def lowerChar (c : Char) : Char :=
  if 'A' ≤ c ∧ c ≤ 'Z' then Char.ofNat (c.toNat + 32) else c

/-- `l` starts with `key`, case-insensitively (`key` is given lower-case). -/
def startsWithCI (key l : List Char) : Bool :=
  (l.take key.length).map lowerChar = key

/-- `line.match(/KEY(\d+)/i)` (lines 31–32) for a literal KEY: search the
first position where the key occurs case-insensitively and is followed by at
least one decimal digit, and return the maximal digit run — the capture
group `match[1]`.  `none` models a failed match (`null`). -/
def matchKeyNum (key : List Char) : List Char → Option (List Char)
  | [] => none
  | c :: rest =>
      let ds := ((c :: rest).drop key.length).takeWhile Char.isDigit
      if startsWithCI key (c :: rest) && !ds.isEmpty then some ds
      else matchKeyNum key rest

/-- Value of a string of decimal digits (what `parseInt` computes once the
digit run is isolated). -/
def decDigitsToNat (l : List Char) : Nat :=
  l.foldl (fun a c => 10 * a + (c.toNat - 48)) 0

def isHexDigitChar (c : Char) : Bool :=
  c.isDigit || ('a' ≤ c && c ≤ 'f') || ('A' ≤ c && c ≤ 'F')

def hexDigitVal (c : Char) : Nat :=
  if c.isDigit then c.toNat - 48
  else if 'a' ≤ c && c ≤ 'f' then c.toNat - 87
  else c.toNat - 55

def hexDigitsToNat (l : List Char) : Nat :=
  l.foldl (fun a c => 16 * a + hexDigitVal c) 0

/-- The unsigned part of JavaScript `parseInt(s)` with no radix argument, on
a whitespace-free string (every call site strips or never produces
whitespace first): a `0x`/`0X` prefix switches to hexadecimal, otherwise the
maximal leading decimal digit run is read and anything after it is ignored
— so `parseInt("3.5") = 3` and `parseInt("12abc") = 12`.  `none` is `NaN`:
no digit could be read. -/
def jsParseNat (l : List Char) : Option Nat :=
  match l with
  | '0' :: 'x' :: rest =>
      let ds := rest.takeWhile isHexDigitChar
      if ds.isEmpty then none else some (hexDigitsToNat ds)
  | '0' :: 'X' :: rest =>
      let ds := rest.takeWhile isHexDigitChar
      if ds.isEmpty then none else some (hexDigitsToNat ds)
  | _ =>
      let ds := l.takeWhile Char.isDigit
      if ds.isEmpty then none else some (decDigitsToNat ds)

/-- JavaScript `parseInt(s)` on a whitespace-free string: an optional sign,
then the unsigned part. -/
def jsParseInt (l : List Char) : Option Int :=
  match l with
  | '-' :: rest => (jsParseNat rest).map (fun n : Nat => -(n : Int))
  | '+' :: rest => (jsParseNat rest).map (fun n : Nat => (n : Int))
  | _ => (jsParseNat l).map (fun n : Nat => (n : Int))

/-- The distinct `throw new Error(...)` sites of `loadFromFile` (lines
27–79).  Entry errors carry the reported line number `i + 1`, where `i` is
the index of the entry's line in the filtered line list. -/
inductive LoadError where
  | fileTooShort : LoadError
  | badHeader : LoadError
  | nonPositiveDims : LoadError
  | badEntryParens : Nat → LoadError
  | badEntryCount : Nat → LoadError
  | badEntryNaN : Nat → LoadError
  | negativeIndex : Nat → LoadError
  | outOfBounds : Nat → LoadError
  | indexError : LoadError
deriving Repr, DecidableEq

/-- One iteration of the entry loop (lines 49–81): trim the line, check the
surrounding parentheses, strip every whitespace character from the inside,
split on commas, `parseInt` the three fields, reject negative indices, clamp
`col === cols` to `cols - 1`, and bounds-check. -/
def checkEntry (rows cols : Nat) (lineNo : Nat) (line : List Char) :
    Except LoadError (Nat × Nat × Int) :=
  let l := jsTrim line
  if l.head? = some '(' ∧ l.getLast? = some ')' then
    let inner := ((l.drop 1).dropLast).filter (fun c => !isWsChar c)
    let parts := splitOnChar ',' inner
    if parts.length = 3 then
      match jsParseInt (parts.getD 0 []), jsParseInt (parts.getD 1 []),
          jsParseInt (parts.getD 2 []) with
      | some row, some col, some value =>
          if row < 0 ∨ col < 0 then .error (.negativeIndex lineNo)
          else
            let col2 := if col = (cols : Int) then (cols : Int) - 1 else col
            if (rows : Int) ≤ row ∨ (cols : Int) ≤ col2 then
              .error (.outOfBounds lineNo)
            else .ok (row.toNat, col2.toNat, value)
      | _, _, _ => .error (.badEntryNaN lineNo)
    else .error (.badEntryCount lineNo)
  else .error (.badEntryParens lineNo)

/-- The `for (let i = 2; i < lines.length; i++)` collection loop (lines
47–82): the first failing line wins, and the line at index `i` of the
filtered list reports line number `i + 1`. -/
def parseEntries (rows cols : Nat) : Nat → List (List Char) →
    Except LoadError (List (Nat × Nat × Int))
  | _, [] => .ok []
  | i, l :: rest => do
      let e ← checkEntry rows cols (i + 1) l
      let es ← parseEntries rows cols (i + 1) rest
      pure (e :: es)

/-- The comparator `(a, b) => a[0] - b[0] || a[1] - b[1]` of line 85: order
by row, then by column. -/
def entryLE (a b : Nat × Nat × Int) : Prop :=
  a.1 < b.1 ∨ (a.1 = b.1 ∧ a.2.1 ≤ b.2.1)

instance decEntryLE : DecidableRel entryLE := fun a b => by
  unfold entryLE
  infer_instance

/-- `entries.sort(...)` (line 85): `Array.prototype.sort` is stable, which
the stable insertion sort models. -/
def sortEntries (l : List (Nat × Nat × Int)) : List (Nat × Nat × Int) :=
  List.insertionSort entryLE l

/-- Lines 27–43: the length check and the two header lines.  `parseInt` on
the all-digit capture `match[1]` is its decimal value, and the positivity
check `this.rows <= 0 || this.cols <= 0` becomes `= 0` on `Nat`. -/
def parseHeader (lines : List (List Char)) : Except LoadError (Nat × Nat) :=
  if lines.length < 2 then .error .fileTooShort
  else
    match matchKeyNum ("rows=".data) (lines.getD 0 []),
        matchKeyNum ("cols=".data) (lines.getD 1 []) with
    | some rds, some cds =>
        let rows := decDigitsToNat rds
        let cols := decDigitsToNat cds
        if rows = 0 ∨ cols = 0 then .error .nonPositiveDims
        else .ok (rows, cols)
    | _, _ => .error .badHeader

/-- Lines 84–90: the stable sort and the `setElement` population loop, on a
fresh all-zero matrix (`this.row_ptr = Array(this.rows + 1).fill(0)` with
empty `values`/`col_indices`, the state after line 45).  Every entry was
bounds-checked, so `setElement` cannot throw; its guard is kept and a
failure would surface as `LoadError.indexError`. -/
def buildEntries (rows cols : Nat) (entries : List (Nat × Nat × Int)) :
    Except LoadError SparseMatrix :=
  match SparseMatrix.runSets (SparseMatrix.mk0 rows cols)
      (sortEntries entries) with
  | some m => .ok m
  | none => .error .indexError

/-- `loadFromFile` (lines 17–94) minus the file system: split the content
into non-blank lines, read the header, collect and check the entries, then
sort and populate. -/
def loadFromChars (content : List Char) : Except LoadError SparseMatrix := do
  let lines := linesOf content
  let (rows, cols) ← parseHeader lines
  let entries ← parseEntries rows cols 2 (lines.drop 2)
  buildEntries rows cols entries

/-! ### The serializer (`saveToFile`, lines 304–327) -/

def digitChar (k : Nat) : Char :=
  match k with
  | 0 => '0'
  | 1 => '1'
  | 2 => '2'
  | 3 => '3'
  | 4 => '4'
  | 5 => '5'
  | 6 => '6'
  | 7 => '7'
  | 8 => '8'
  | _ => '9'

/-- Decimal digits of `n`, most significant first, onto `acc` — JavaScript's
`${n}` for a non-negative integer. -/
def natDigits (n : Nat) (acc : List Char) : List Char :=
  if h : n < 10 then digitChar n :: acc
  else natDigits (n / 10) (digitChar (n % 10) :: acc)
termination_by n
decreasing_by exact Nat.div_lt_self (by omega) (by omega)

def natToChars (n : Nat) : List Char := natDigits n []

/-- JavaScript `${z}` for an integer value. -/
def intToChars (z : Int) : List Char :=
  if z < 0 then '-' :: natToChars z.natAbs else natToChars z.natAbs

/-- The text between the parentheses of one saved entry (line 319):
`${i}, ${col}, ${value}`. -/
def entryBody (i c : Nat) (v : Int) : List Char :=
  natToChars i ++ (',' :: ' ' :: (natToChars c ++ (',' :: ' ' :: intToChars v)))

/-- One saved entry line without its newline: `(${i}, ${col}, ${value})`. -/
def entryChars (i c : Nat) (v : Int) : List Char :=
  '(' :: entryBody i c v ++ [')']

/-- The entry lines the nested loops of lines 315–321 emit from row `i` on,
in order: row `i`'s slice runs from `row_ptr[i]` to `row_ptr[i+1]` (or to
the end of `values` for the last row). -/
def serLines (m : SparseMatrix) (i : Nat) : List (List Char) :=
  if h : i < m.rows then
    ((SparseMatrix.slicePairs m id
        (if i + 1 < m.row_ptr.length then m.row_ptr.getD (i + 1) 0
         else m.values.length)
        (m.row_ptr.getD i 0)).map (fun e => entryChars i e.1 e.2))
      ++ serLines m (i + 1)
  else []
termination_by m.rows - i
decreasing_by omega

/-- The same traversal as `(row, col, value)` triples: what parsing the
saved entry lines back gives. -/
def serCalls (m : SparseMatrix) (i : Nat) : List (Nat × Nat × Int) :=
  if h : i < m.rows then
    ((SparseMatrix.slicePairs m id
        (if i + 1 < m.row_ptr.length then m.row_ptr.getD (i + 1) 0
         else m.values.length)
        (m.row_ptr.getD i 0)).map (fun e => (i, e.1, e.2)))
      ++ serCalls m (i + 1)
  else []
termination_by m.rows - i
decreasing_by omega

/-- `saveToFile` (lines 304–327) minus the file system: the header
`rows=R\ncols=C\n`, then one `(${i}, ${col}, ${value})\n` line per stored
entry in row-major order. -/
def serialize (m : SparseMatrix) : List Char :=
  ("rows=".data) ++ natToChars m.rows ++ '\n' ::
    (("cols=".data) ++ natToChars m.cols ++ '\n' ::
      ((serLines m 0).map (fun l => l ++ ['\n'])).flatten)

/-! ### Splitting and trimming lemmas -/

theorem splitOnChar_ne_nil (sep : Char) (l : List Char) : splitOnChar sep l ≠ [] := by
  cases l with
  | nil => simp [splitOnChar]
  | cons c rest =>
      rw [splitOnChar]
      cases h : splitOnChar sep rest with
      | nil => simp
      | cons g gs =>
          dsimp only []
          split_ifs <;> simp

theorem splitOnChar_sepfree (sep : Char) (xs : List Char)
    (hxs : ∀ c ∈ xs, ¬ c = sep) : splitOnChar sep xs = [xs] := by
  induction xs with
  | nil => rfl
  | cons c rest ih =>
      rw [splitOnChar, ih (fun d hd => hxs d (List.mem_cons_of_mem c hd))]
      dsimp only []
      rw [if_neg (hxs c (List.mem_cons_self c rest))]

theorem splitOnChar_append (sep : Char) (xs ys : List Char)
    (hxs : ∀ c ∈ xs, ¬ c = sep) :
    splitOnChar sep (xs ++ sep :: ys) = xs :: splitOnChar sep ys := by
  induction xs with
  | nil =>
      show splitOnChar sep (sep :: ys) = [] :: splitOnChar sep ys
      rw [splitOnChar]
      cases h : splitOnChar sep ys with
      | nil => exact absurd h (splitOnChar_ne_nil sep ys)
      | cons g gs =>
          dsimp only []
          rw [if_pos rfl]
  | cons c rest ih =>
      show splitOnChar sep (c :: (rest ++ sep :: ys)) = _
      rw [splitOnChar, ih (fun d hd => hxs d (List.mem_cons_of_mem c hd))]
      dsimp only []
      rw [if_neg (hxs c (List.mem_cons_self c rest))]

theorem splitOnChar_flatten (sep : Char) (B : List (List Char))
    (hB : ∀ b ∈ B, ∀ c ∈ b, ¬ c = sep) :
    splitOnChar sep ((B.map (fun b => b ++ [sep])).flatten) = B ++ [[]] := by
  induction B with
  | nil => rfl
  | cons b bs ih =>
      rw [List.map_cons, List.flatten_cons, List.append_assoc,
        List.singleton_append,
        splitOnChar_append sep b _ (hB b (List.mem_cons_self b bs)),
        ih (fun b' hb' => hB b' (List.mem_cons_of_mem b hb'))]
      rfl

theorem dropWhile_eq_self_of_head (p : Char → Bool) (l : List Char)
    (h : ∀ c, l.head? = some c → p c = false) : l.dropWhile p = l := by
  cases l with
  | nil => rfl
  | cons c rest => simp [List.dropWhile_cons, h c rfl]

theorem jsTrim_eq_self (l : List Char)
    (hh : ∀ c, l.head? = some c → isWsChar c = false)
    (hl : ∀ c, l.getLast? = some c → isWsChar c = false) : jsTrim l = l := by
  unfold jsTrim
  rw [dropWhile_eq_self_of_head _ _ hh]
  rw [dropWhile_eq_self_of_head _ _ (fun c hc =>
    hl c (by rw [List.head?_reverse] at hc; exact hc))]
  exact List.reverse_reverse l

theorem jsTrim_nil : jsTrim [] = [] := rfl

/-! ### Decimal digits and `parseInt` lemmas -/

theorem digitChar_isDigit (k : Nat) (h : k < 10) : (digitChar k).isDigit = true := by
  interval_cases k <;> decide

theorem digitChar_toNat (k : Nat) (h : k < 10) : (digitChar k).toNat = 48 + k := by
  interval_cases k <;> decide

theorem natDigits_eq_append (n : Nat) : ∀ acc, natDigits n acc = natToChars n ++ acc := by
  induction n using Nat.strong_induction_on with
  | _ n ih =>
      intro acc
      by_cases h : n < 10
      · rw [natDigits, dif_pos h, natToChars, natDigits, dif_pos h]
        rfl
      · have hdiv : n / 10 < n := Nat.div_lt_self (by omega) (by omega)
        rw [natDigits, dif_neg h, ih (n / 10) hdiv _]
        conv_rhs => rw [natToChars, natDigits, dif_neg h, ih (n / 10) hdiv _]
        rw [List.append_assoc]
        rfl

theorem natToChars_digits (n : Nat) : ∀ c ∈ natToChars n, c.isDigit = true := by
  induction n using Nat.strong_induction_on with
  | _ n ih =>
      intro c hc
      rw [natToChars, natDigits] at hc
      by_cases h : n < 10
      · rw [dif_pos h] at hc
        have : c = digitChar n := List.mem_singleton.mp hc
        subst this
        exact digitChar_isDigit n h
      · rw [dif_neg h, natDigits_eq_append] at hc
        rcases List.mem_append.mp hc with hc | hc
        · exact ih (n / 10) (Nat.div_lt_self (by omega) (by omega)) c hc
        · have : c = digitChar (n % 10) := List.mem_singleton.mp hc
          subst this
          exact digitChar_isDigit (n % 10) (Nat.mod_lt _ (by omega))

theorem decDigitsToNat_natToChars (n : Nat) : decDigitsToNat (natToChars n) = n := by
  induction n using Nat.strong_induction_on with
  | _ n ih =>
      by_cases h : n < 10
      · rw [natToChars, natDigits, dif_pos h]
        show 10 * 0 + ((digitChar n).toNat - 48) = n
        rw [digitChar_toNat n h]
        omega
      · rw [natToChars, natDigits, dif_neg h, natDigits_eq_append]
        show decDigitsToNat (natToChars (n / 10) ++ [digitChar (n % 10)]) = n
        unfold decDigitsToNat
        rw [List.foldl_append]
        have hfold := ih (n / 10) (Nat.div_lt_self (by omega) (by omega))
        unfold decDigitsToNat at hfold
        rw [hfold, List.foldl_cons, List.foldl_nil,
          digitChar_toNat (n % 10) (Nat.mod_lt _ (by omega))]
        omega

theorem natToChars_ne_nil (n : Nat) : natToChars n ≠ [] := by
  rw [natToChars, natDigits]
  by_cases h : n < 10
  · rw [dif_pos h]
    simp
  · rw [dif_neg h, natDigits_eq_append]
    simp

theorem takeWhile_eq_self_of_all (p : Char → Bool) (l : List Char)
    (h : ∀ c ∈ l, p c = true) : l.takeWhile p = l := by
  induction l with
  | nil => rfl
  | cons c rest ih =>
      simp [List.takeWhile_cons, h c (List.mem_cons_self c rest),
        ih (fun d hd => h d (List.mem_cons_of_mem c hd))]

theorem jsParseNat_digits (l : List Char) (hne : l ≠ [])
    (hd : ∀ c ∈ l, c.isDigit = true) :
    jsParseNat l = some (decDigitsToNat l) := by
  unfold jsParseNat
  split
  · exact absurd (hd 'x' (by simp)) (by decide)
  · exact absurd (hd 'X' (by simp)) (by decide)
  · show (if (l.takeWhile Char.isDigit).isEmpty then none
        else some (decDigitsToNat (l.takeWhile Char.isDigit))) = _
    rw [takeWhile_eq_self_of_all Char.isDigit l hd,
      if_neg (fun hemp => hne (by simpa using hemp))]

theorem jsParseInt_digits (l : List Char) (hne : l ≠ [])
    (hd : ∀ c ∈ l, c.isDigit = true) :
    jsParseInt l = some ((decDigitsToNat l : Nat) : Int) := by
  unfold jsParseInt
  split
  · exact absurd (hd '-' (by simp)) (by decide)
  · exact absurd (hd '+' (by simp)) (by decide)
  · rw [jsParseNat_digits _ hne hd]
    rfl

theorem jsParseInt_neg_head (rest : List Char) :
    jsParseInt ('-' :: rest) =
      (jsParseNat rest).map (fun n : Nat => -(n : Int)) := rfl

theorem jsParseInt_natToChars (n : Nat) : jsParseInt (natToChars n) = some (n : Int) := by
  rw [jsParseInt_digits (natToChars n) (natToChars_ne_nil n) (natToChars_digits n),
    decDigitsToNat_natToChars]

theorem jsParseInt_intToChars (v : Int) : jsParseInt (intToChars v) = some v := by
  unfold intToChars
  by_cases h : v < 0
  · rw [if_pos h, jsParseInt_neg_head,
      jsParseNat_digits _ (natToChars_ne_nil _) (natToChars_digits _),
      decDigitsToNat_natToChars, Option.map_some']
    congr 1
    omega
  · rw [if_neg h, jsParseInt_natToChars]
    congr 1
    omega

/-! ### Character classes of serialized numbers -/

theorem digit_ne (c d : Char) (h : c.isDigit = true) (hd : d.isDigit = false) :
    ¬ c = d := fun hc => by
  subst hc
  rw [h] at hd
  cases hd

theorem isWsChar_true_elim (c : Char) (h : isWsChar c = true) :
    c = ' ' ∨ c = '\t' ∨ c = '\n' ∨ c = '\r' ∨ c = '\x0b' ∨ c = '\x0c' := by
  unfold isWsChar at h
  simp only [Bool.or_eq_true, decide_eq_true_eq] at h
  tauto

theorem isDigit_not_ws (c : Char) (h : c.isDigit = true) : isWsChar c = false := by
  cases hb : isWsChar c with
  | false => rfl
  | true =>
      rcases isWsChar_true_elim c hb with rfl | rfl | rfl | rfl | rfl | rfl <;>
        exact absurd h (by decide)

theorem intToChars_chars (v : Int) :
    ∀ c ∈ intToChars v, c.isDigit = true ∨ c = '-' := by
  intro c hc
  unfold intToChars at hc
  by_cases h : v < 0
  · rw [if_pos h] at hc
    rcases List.mem_cons.mp hc with rfl | hc
    · exact Or.inr rfl
    · exact Or.inl (natToChars_digits _ c hc)
  · rw [if_neg h] at hc
    exact Or.inl (natToChars_digits _ c hc)

theorem intToChars_not_ws (v : Int) : ∀ c ∈ intToChars v, isWsChar c = false := by
  intro c hc
  rcases intToChars_chars v c hc with h | rfl
  · exact isDigit_not_ws c h
  · decide

theorem intToChars_ne_comma (v : Int) : ∀ c ∈ intToChars v, ¬ c = ',' := by
  intro c hc
  rcases intToChars_chars v c hc with h | rfl
  · exact digit_ne c ',' h (by decide)
  · decide

theorem intToChars_ne_nl (v : Int) : ∀ c ∈ intToChars v, ¬ c = '\n' := by
  intro c hc
  rcases intToChars_chars v c hc with h | rfl
  · exact digit_ne c '\n' h (by decide)
  · decide

theorem natToChars_ne_comma (n : Nat) : ∀ c ∈ natToChars n, ¬ c = ',' :=
  fun c hc => digit_ne c ',' (natToChars_digits n c hc) (by decide)

theorem natToChars_ne_nl (n : Nat) : ∀ c ∈ natToChars n, ¬ c = '\n' :=
  fun c hc => digit_ne c '\n' (natToChars_digits n c hc) (by decide)

theorem filter_ws_digits (A : List Char) (h : ∀ c ∈ A, c.isDigit = true) :
    A.filter (fun ch => !isWsChar ch) = A :=
  List.filter_eq_self.mpr (fun a ha => by rw [isDigit_not_ws a (h a ha)]; rfl)

theorem filter_ws_intToChars (v : Int) :
    (intToChars v).filter (fun ch => !isWsChar ch) = intToChars v :=
  List.filter_eq_self.mpr (fun a ha => by rw [intToChars_not_ws v a ha]; rfl)

/-! ### One saved entry line parses back to its triple -/

theorem entryBody_filter (i c : Nat) (v : Int) :
    (entryBody i c v).filter (fun ch => !isWsChar ch) =
      natToChars i ++ (',' :: (natToChars c ++ (',' :: intToChars v))) := by
  unfold entryBody
  rw [List.filter_append, filter_ws_digits _ (natToChars_digits i),
    List.filter_cons_of_pos (by decide), List.filter_cons_of_neg (by decide),
    List.filter_append, filter_ws_digits _ (natToChars_digits c),
    List.filter_cons_of_pos (by decide), List.filter_cons_of_neg (by decide),
    filter_ws_intToChars]

theorem entry_parts (i c : Nat) (v : Int) :
    splitOnChar ','
        (natToChars i ++ (',' :: (natToChars c ++ (',' :: intToChars v)))) =
      [natToChars i, natToChars c, intToChars v] := by
  rw [splitOnChar_append ',' _ _ (natToChars_ne_comma i),
    splitOnChar_append ',' _ _ (natToChars_ne_comma c),
    splitOnChar_sepfree ',' _ (intToChars_ne_comma v)]

theorem entryChars_head (i c : Nat) (v : Int) :
    (entryChars i c v).head? = some '(' := rfl

theorem entryChars_getLast (i c : Nat) (v : Int) :
    (entryChars i c v).getLast? = some ')' := by
  unfold entryChars
  rw [List.getLast?_concat]

theorem jsTrim_entryChars (i c : Nat) (v : Int) :
    jsTrim (entryChars i c v) = entryChars i c v := by
  refine jsTrim_eq_self _ (fun ch hch => ?_) (fun ch hch => ?_)
  · rw [entryChars_head] at hch
    injection hch with h
    rw [← h]
    decide
  · rw [entryChars_getLast] at hch
    injection hch with h
    rw [← h]
    decide

theorem checkEntry_entryChars (rows cols n row col : Nat) (v : Int)
    (hrow : row < rows) (hcol : col < cols) :
    checkEntry rows cols n (entryChars row col v) = .ok (row, col, v) := by
  simp only [checkEntry, jsTrim_entryChars]
  rw [if_pos ⟨entryChars_head row col v, entryChars_getLast row col v⟩]
  rw [show (entryChars row col v).drop 1 = entryBody row col v ++ [')'] from rfl,
    List.dropLast_concat, entryBody_filter, entry_parts]
  rw [if_pos (show [natToChars row, natToChars col, intToChars v].length = 3 from rfl)]
  simp only [List.getD_cons_zero, List.getD_cons_succ]
  rw [jsParseInt_natToChars, jsParseInt_natToChars, jsParseInt_intToChars]
  simp only []
  rw [if_neg (by omega), if_neg (show ¬((col : Nat) : Int) = ((cols : Nat) : Int) by omega),
    if_neg (by omega)]
  simp

/-! ### The entry loop over saved lines -/

theorem exceptBind_ok {ε α β : Type} (a : α) (f : α → Except ε β) :
    ((Except.ok a : Except ε α) >>= f) = f a := rfl

theorem parseEntries_nil (rows cols i : Nat) :
    parseEntries rows cols i [] = .ok [] := rfl

theorem parseEntries_cons (rows cols i : Nat) (l : List Char)
    (rest : List (List Char)) :
    parseEntries rows cols i (l :: rest) =
      (checkEntry rows cols (i + 1) l) >>= (fun e =>
        (parseEntries rows cols (i + 1) rest) >>= (fun es =>
          pure (e :: es))) := rfl

theorem parseEntries_entry_block (rows cols r : Nat) (hr : r < rows)
    (ps : List (Nat × Int)) (hb : ∀ p ∈ ps, p.1 < cols) :
    ∀ k, parseEntries rows cols k (ps.map (fun e => entryChars r e.1 e.2)) =
      .ok (ps.map (fun e => (r, e.1, e.2))) := by
  induction ps with
  | nil => intro k; rfl
  | cons p rest ih =>
      intro k
      rw [List.map_cons, parseEntries_cons,
        checkEntry_entryChars rows cols (k + 1) r p.1 p.2 hr
          (hb p (List.mem_cons_self p rest)),
        exceptBind_ok,
        ih (fun q hq => hb q (List.mem_cons_of_mem p hq)) (k + 1),
        exceptBind_ok, List.map_cons]
      rfl

theorem parseEntries_ok_append (rows cols : Nat) (L1 L2 : List (List Char))
    (E1 : List (Nat × Nat × Int)) :
    ∀ i, parseEntries rows cols i L1 = .ok E1 →
    parseEntries rows cols i (L1 ++ L2) =
      (parseEntries rows cols (i + L1.length) L2) >>= (fun E2 =>
        pure (E1 ++ E2)) := by
  induction L1 generalizing E1 with
  | nil =>
      intro i h1
      rw [parseEntries_nil] at h1
      injection h1 with h1
      subst h1
      show parseEntries rows cols i L2 = _
      rw [show i + ([] : List (List Char)).length = i from rfl]
      cases parseEntries rows cols i L2 with
      | error e => rfl
      | ok E2 => rfl
  | cons l rest ih =>
      intro i h1
      rw [parseEntries_cons] at h1
      rw [List.cons_append, parseEntries_cons]
      cases hce : checkEntry rows cols (i + 1) l with
      | error e =>
          rw [hce] at h1
          cases h1
      | ok e0 =>
          rw [hce] at h1
          rw [exceptBind_ok] at h1
          rw [exceptBind_ok]
          cases hpe : parseEntries rows cols (i + 1) rest with
          | error e2 =>
              rw [hpe] at h1
              cases h1
          | ok Er =>
              rw [hpe] at h1
              rw [exceptBind_ok] at h1
              injection h1 with h1
              subst h1
              rw [ih Er (i + 1) hpe]
              rw [show i + (l :: rest).length = (i + 1) + rest.length from by
                simp; omega]
              cases parseEntries rows cols (i + 1 + rest.length) L2 with
              | error e3 => rfl
              | ok E2 => rfl

/-! ### The saved entry lines parse back to the saved triples -/

theorem serLines_mem (m : SparseMatrix) (i : Nat) :
    ∀ l ∈ serLines m i, ∃ r p v, l = entryChars r p v := by
  rw [serLines]
  split
  · next h =>
      intro l hl
      rcases List.mem_append.mp hl with hl | hl
      · rcases List.mem_map.mp hl with ⟨x, _, rfl⟩
        exact ⟨i, x.1, x.2, rfl⟩
      · exact serLines_mem m (i + 1) l hl
  · intro l hl
    cases hl
termination_by m.rows - i
decreasing_by omega

theorem serCalls_row_ge (m : SparseMatrix) (i : Nat) :
    ∀ e ∈ serCalls m i, i ≤ e.1 := by
  rw [serCalls]
  split
  · next h =>
      intro e he
      rcases List.mem_append.mp he with he | he
      · rcases List.mem_map.mp he with ⟨x, _, rfl⟩
        exact le_refl i
      · exact le_trans (by omega) (serCalls_row_ge m (i + 1) e he)
  · intro e he
    cases he
termination_by m.rows - i
decreasing_by omega

theorem serCalls_bounds (m : SparseMatrix) (hwf : m.Wf) (i : Nat) :
    ∀ e ∈ serCalls m i, e.1 < m.rows ∧ e.2.1 < m.cols := by
  rw [serCalls]
  split
  · next h =>
      intro e he
      rcases List.mem_append.mp he with he | he
      · rcases List.mem_map.mp he with ⟨x, hx, rfl⟩
        refine ⟨h, ?_⟩
        have hE : (if i + 1 < m.row_ptr.length then m.row_ptr.getD (i + 1) 0
            else m.values.length) = m.rowEnd i := by
          rw [if_pos (by rw [hwf.rp_length]; omega), SparseMatrix.rowEnd_def]
        rw [hE] at hx
        exact SparseMatrix.slicePairs_col_lt m id (m.rowEnd i) (m.row_ptr.getD i 0) m.cols
          (fun q hq1 hq2 => (hwf.row_sorted i h q hq2 hq1).1) x hx
      · exact serCalls_bounds m hwf (i + 1) e he
  · intro e he
    cases he
termination_by m.rows - i
decreasing_by omega

theorem parseEntries_serLines (m : SparseMatrix) (hwf : m.Wf) (i k : Nat) :
    parseEntries m.rows m.cols k (serLines m i) = .ok (serCalls m i) := by
  rw [serLines, serCalls]
  by_cases h : i < m.rows
  · rw [dif_pos h, dif_pos h]
    have hE : (if i + 1 < m.row_ptr.length then m.row_ptr.getD (i + 1) 0
        else m.values.length) = m.rowEnd i := by
      rw [if_pos (by rw [hwf.rp_length]; omega), SparseMatrix.rowEnd_def]
    have hb : ∀ p ∈ SparseMatrix.slicePairs m id
        (if i + 1 < m.row_ptr.length then m.row_ptr.getD (i + 1) 0
         else m.values.length) (m.row_ptr.getD i 0), p.1 < m.cols := by
      rw [hE]
      exact SparseMatrix.slicePairs_col_lt m id (m.rowEnd i) (m.row_ptr.getD i 0) m.cols
        (fun q hq1 hq2 => (hwf.row_sorted i h q hq2 hq1).1)
    rw [parseEntries_ok_append m.rows m.cols _ _ _ k
      (parseEntries_entry_block m.rows m.cols i h _ hb k)]
    rw [parseEntries_serLines m hwf (i + 1) _]
    rw [exceptBind_ok]
    rfl
  · rw [dif_neg h, dif_neg h]
    rfl
termination_by m.rows - i
decreasing_by omega

/-! ### The header lines of a saved file -/

theorem matchKeyNum_exact (key ds : List Char) (hne : key ≠ [])
    (hkey : key.map lowerChar = key)
    (hdig : ∀ c ∈ ds, c.isDigit = true) (hdne : ds ≠ []) :
    matchKeyNum key (key ++ ds) = some ds := by
  cases key with
  | nil => exact absurd rfl hne
  | cons k ks =>
      rw [List.cons_append, matchKeyNum]
      have hdrop : (k :: (ks ++ ds)).drop (k :: ks).length = ds := by
        show (ks ++ ds).drop ks.length = ds
        exact List.drop_left ks ds
      have htake : (k :: (ks ++ ds)).take (k :: ks).length = k :: ks := by
        show k :: (ks ++ ds).take ks.length = k :: ks
        rw [List.take_left]
      have hsw : startsWithCI (k :: ks) (k :: (ks ++ ds)) = true := by
        unfold startsWithCI
        rw [htake, hkey]
        simp
      have hemp : ds.isEmpty = false := by
        cases ds with
        | nil => exact absurd rfl hdne
        | cons d dr => rfl
      simp only [hdrop, takeWhile_eq_self_of_all Char.isDigit ds hdig, hsw,
        hemp, Bool.not_false, Bool.and_self, if_true]

theorem headerLine_trim (key : List Char) (n : Nat) (hne : key ≠ [])
    (hh : ∀ c, key.head? = some c → isWsChar c = false) :
    jsTrim (key ++ natToChars n) = key ++ natToChars n := by
  refine jsTrim_eq_self _ (fun ch hch => ?_) (fun ch hch => ?_)
  · cases key with
    | nil => exact absurd rfl hne
    | cons k ks =>
        rw [List.cons_append] at hch
        have : (k :: (ks ++ natToChars n)).head? = some k := rfl
        rw [this] at hch
        injection hch with h
        subst h
        exact hh k rfl
  · rw [List.getLast?_append_of_ne_nil key (natToChars_ne_nil n)] at hch
    exact isDigit_not_ws ch
      (natToChars_digits n ch (List.mem_of_getLast?_eq_some hch))

/-! ### Splitting the serialized text into lines -/

theorem serialize_lines (m : SparseMatrix) :
    linesOf (serialize m) =
      (("rows=".data) ++ natToChars m.rows) ::
        (("cols=".data) ++ natToChars m.cols) :: serLines m 0 := by
  have hrows_free : ∀ c ∈ ("rows=".data) ++ natToChars m.rows, ¬ c = '\n' := by
    intro c hc
    rcases List.mem_append.mp hc with hc | hc
    · rw [show ("rows=".data) = ['r', 'o', 'w', 's', '='] from rfl] at hc
      simp only [List.mem_cons, List.not_mem_nil, or_false] at hc
      rcases hc with rfl | rfl | rfl | rfl | rfl <;> decide
    · exact natToChars_ne_nl m.rows c hc
  have hcols_free : ∀ c ∈ ("cols=".data) ++ natToChars m.cols, ¬ c = '\n' := by
    intro c hc
    rcases List.mem_append.mp hc with hc | hc
    · rw [show ("cols=".data) = ['c', 'o', 'l', 's', '='] from rfl] at hc
      simp only [List.mem_cons, List.not_mem_nil, or_false] at hc
      rcases hc with rfl | rfl | rfl | rfl | rfl <;> decide
    · exact natToChars_ne_nl m.cols c hc
  have hbody_free : ∀ b ∈ serLines m 0, ∀ c ∈ b, ¬ c = '\n' := by
    intro b hb c hc
    rcases serLines_mem m 0 b hb with ⟨r, p, v, rfl⟩
    rcases List.mem_append.mp hc with hc | hc
    · rcases List.mem_cons.mp hc with rfl | hc
      · decide
      · unfold entryBody at hc
        rcases List.mem_append.mp hc with hc | hc
        · exact natToChars_ne_nl r c hc
        · rcases List.mem_cons.mp hc with rfl | hc
          · decide
          · rcases List.mem_cons.mp hc with rfl | hc
            · decide
            · rcases List.mem_append.mp hc with hc | hc
              · exact natToChars_ne_nl p c hc
              · rcases List.mem_cons.mp hc with rfl | hc
                · decide
                · rcases List.mem_cons.mp hc with rfl | hc
                  · decide
                  · exact intToChars_ne_nl v c hc
    · rcases List.mem_singleton.mp hc with rfl
      decide
  unfold serialize linesOf
  rw [splitOnChar_append '\n' _ _ hrows_free,
    splitOnChar_append '\n' _ _ hcols_free,
    splitOnChar_flatten '\n' _ hbody_free]
  have hser_keep : (serLines m 0).filter (fun l => !(jsTrim l).isEmpty) =
      serLines m 0 :=
    List.filter_eq_self.mpr (fun b hb => by
      rcases serLines_mem m 0 b hb with ⟨r, p, v, rfl⟩
      rw [jsTrim_entryChars]
      rfl)
  rw [List.filter_cons_of_pos, List.filter_cons_of_pos]
  · rw [List.filter_append, hser_keep, List.filter_cons_of_neg (by decide),
      List.filter_nil, List.append_nil]
  · rw [headerLine_trim _ m.cols (by decide) (fun c hc => by
      injection hc with h
      rw [← h]
      decide)]
    simp [List.append_ne_nil_of_right_ne_nil _ (natToChars_ne_nil m.cols)]
  · rw [headerLine_trim _ m.rows (by decide) (fun c hc => by
      injection hc with h
      rw [← h]
      decide)]
    simp [List.append_ne_nil_of_right_ne_nil _ (natToChars_ne_nil m.rows)]

/-! ### Order and shadow structure of the saved triples -/

theorem slicePairs_mem_eq (src : SparseMatrix) (f : Int → Int) (e p : Nat) :
    ∀ x ∈ SparseMatrix.slicePairs src f e p, ∃ q, p ≤ q ∧ q < e ∧
      x = (src.col_indices.getD q 0, f (src.values.getD q 0)) := by
  rw [SparseMatrix.slicePairs]
  split
  · next h =>
      intro x hx
      rcases List.mem_cons.mp hx with rfl | hx
      · exact ⟨p, le_refl _, h, rfl⟩
      · rcases slicePairs_mem_eq src f e (p + 1) x hx with ⟨q, h1, h2, h3⟩
        exact ⟨q, by omega, h2, h3⟩
  · intro x hx
    cases hx
termination_by e - p
decreasing_by omega

theorem slicePairs_pairwise (src : SparseMatrix) (f : Int → Int) (e p : Nat)
    (hs : ∀ q q', p ≤ q → q < q' → q' < e →
      src.col_indices.getD q 0 < src.col_indices.getD q' 0) :
    List.Pairwise (fun x y : Nat × Int => x.1 < y.1)
      (SparseMatrix.slicePairs src f e p) := by
  rw [SparseMatrix.slicePairs]
  split
  · next h =>
      refine List.Pairwise.cons ?_ (slicePairs_pairwise src f e (p + 1)
        (fun q q' u1 u2 u3 => hs q q' (by omega) u2 u3))
      intro y hy
      rcases slicePairs_mem_eq src f e (p + 1) y hy with ⟨q, h1, h2, rfl⟩
      exact hs p q (le_refl _) (by omega) h2
  · exact List.Pairwise.nil
termination_by e - p
decreasing_by omega

theorem serCalls_sorted (m : SparseMatrix) (hwf : m.Wf) (i : Nat) :
    List.Pairwise entryLE (serCalls m i) := by
  rw [serCalls]
  split
  · next h =>
      rw [List.pairwise_append]
      refine ⟨?_, serCalls_sorted m hwf (i + 1), ?_⟩
      · rw [List.pairwise_map]
        have hE : (if i + 1 < m.row_ptr.length then m.row_ptr.getD (i + 1) 0
            else m.values.length) = m.rowEnd i := by
          rw [if_pos (by rw [hwf.rp_length]; omega), SparseMatrix.rowEnd_def]
        rw [hE]
        refine List.Pairwise.imp ?_ (slicePairs_pairwise m id (m.rowEnd i)
          (m.row_ptr.getD i 0)
          (fun q q' u1 u2 u3 => hwf.sorted_lt h q' u3 q u1 u2))
        intro a b hab
        exact Or.inr ⟨rfl, le_of_lt hab⟩
      · intro a ha b hb
        rcases List.mem_map.mp ha with ⟨x, _, rfl⟩
        refine Or.inl ?_
        show i < b.1
        have := serCalls_row_ge m (i + 1) b hb
        omega
  · exact List.Pairwise.nil
termination_by m.rows - i
decreasing_by omega

theorem serCalls_shadow_gt (m : SparseMatrix) (r c : Nat) (d : Int) (i : Nat)
    (hi : r < i) : SparseMatrix.lastShadow (serCalls m i) r c d = d := by
  rw [serCalls]
  split
  · next h =>
      rw [SparseMatrix.lastShadow_append, SparseMatrix.lastShadow_mapRow,
        if_neg (by omega)]
      exact serCalls_shadow_gt m r c d (i + 1) (by omega)
  · rfl
termination_by m.rows - i
decreasing_by omega

theorem serCalls_shadow_le (m : SparseMatrix) (r c : Nat) (d : Int)
    (hr : r < m.rows) (i : Nat) (hi : i ≤ r) :
    SparseMatrix.lastShadow (serCalls m i) r c d =
      SparseMatrix.assocLast (SparseMatrix.slicePairs m id
        (if r + 1 < m.row_ptr.length then m.row_ptr.getD (r + 1) 0
         else m.values.length) (m.row_ptr.getD r 0)) c d := by
  rw [serCalls, dif_pos (show i < m.rows by omega),
    SparseMatrix.lastShadow_append, SparseMatrix.lastShadow_mapRow]
  rcases Nat.eq_or_lt_of_le hi with rfl | hlt
  · rw [if_pos rfl]
    exact serCalls_shadow_gt m i c _ (i + 1) (by omega)
  · rw [if_neg (by omega)]
    exact serCalls_shadow_le m r c d hr (i + 1) hlt
termination_by m.rows - i
decreasing_by omega

/-! ### The round trip -/

theorem loadFromChars_serialize (m : SparseMatrix) (hwf : m.Wf)
    (hr0 : 0 < m.rows) (hc0 : 0 < m.cols) :
    ∃ m', loadFromChars (serialize m) = .ok m' ∧ m'.rows = m.rows ∧
      m'.cols = m.cols ∧ ∀ r c, r < m.rows → c < m.cols →
        m'.getElement r c = m.getElement r c := by
  have hlines := serialize_lines m
  have hsortid : sortEntries (serCalls m 0) = serCalls m 0 :=
    List.Sorted.insertionSort_eq (serCalls_sorted m hwf 0)
  have hbounds : ∀ e ∈ sortEntries (serCalls m 0),
      e.1 < (SparseMatrix.mk0 m.rows m.cols).rows ∧
      e.2.1 < (SparseMatrix.mk0 m.rows m.cols).cols := by
    rw [hsortid]
    exact serCalls_bounds m hwf 0
  refine ⟨SparseMatrix.applyCalls (sortEntries (serCalls m 0))
    (SparseMatrix.mk0 m.rows m.cols), ?_, ?_, ?_, ?_⟩
  · unfold loadFromChars
    rw [hlines]
    have hhdr : parseHeader ((("rows=".data) ++ natToChars m.rows) ::
        (("cols=".data) ++ natToChars m.cols) :: serLines m 0) =
        .ok (m.rows, m.cols) := by
      unfold parseHeader
      rw [if_neg (by simp)]
      rw [show ((("rows=".data) ++ natToChars m.rows) ::
          (("cols=".data) ++ natToChars m.cols) :: serLines m 0).getD 0 [] =
          ("rows=".data) ++ natToChars m.rows from rfl,
        show ((("rows=".data) ++ natToChars m.rows) ::
          (("cols=".data) ++ natToChars m.cols) :: serLines m 0).getD 1 [] =
          ("cols=".data) ++ natToChars m.cols from rfl,
        matchKeyNum_exact _ _ (by decide) (by decide)
          (natToChars_digits m.rows) (natToChars_ne_nil m.rows),
        matchKeyNum_exact _ _ (by decide) (by decide)
          (natToChars_digits m.cols) (natToChars_ne_nil m.cols)]
      simp only [decDigitsToNat_natToChars]
      rw [if_neg (by omega)]
    simp only [hhdr, exceptBind_ok, List.drop_succ_cons, List.drop_zero,
      parseEntries_serLines m hwf 0 2]
    unfold buildEntries
    rw [SparseMatrix.runSets_eq_some _ _ hbounds]
  · rw [SparseMatrix.applyCalls_rows]
    rfl
  · rw [SparseMatrix.applyCalls_cols]
    rfl
  · intro r c hrr hcc
    rw [SparseMatrix.getElement_applyCalls _ _
      (SparseMatrix.mk0_wf m.rows m.cols) hbounds r c hrr hcc,
      SparseMatrix.getElement_mk0 m.rows m.cols r c hrr hcc,
      Option.getD_some, hsortid,
      serCalls_shadow_le m r c 0 hrr 0 (Nat.zero_le r)]
    have hE : (if r + 1 < m.row_ptr.length then m.row_ptr.getD (r + 1) 0
        else m.values.length) = m.rowEnd r := by
      rw [if_pos (by rw [hwf.rp_length]; omega), SparseMatrix.rowEnd_def]
    rw [hE]
    rw [SparseMatrix.assocLast_slicePairs m id (m.rowEnd r) (m.row_ptr.getD r 0)
      (le_trans (hwf.rowEnd_le hrr) (le_of_eq hwf.len_eq))
      (fun q q' u1 u2 u3 => hwf.sorted_lt hrr q' u3 q u1 u2)
      (fun q u1 u2 => by
        have hql : q < m.values.length := lt_of_lt_of_le u2 (hwf.rowEnd_le hrr)
        rw [List.getD_eq_getElem m.values 0 hql]
        exact hwf.nonzero _ (List.getElem_mem _)) c 0]
    rw [SparseMatrix.getElement_eq_getLoop m r c hwf.rp_length hrr hcc,
      SparseMatrix.rowStart_def]
    by_cases hz : SparseMatrix.getLoop m.col_indices m.values c (m.rowEnd r)
        (m.row_ptr.getD r 0) = 0
    · rw [if_pos hz, hz]
    · rw [if_neg hz]
      rfl

/-! ### Stability of the entry sort

`Array.prototype.sort` is stable, and the insertion sort models it: the
elements satisfying a predicate `p` keep their relative order whenever any
two `p`-elements compare `≤` both ways (here: equal `(row, col)` keys). -/

theorem filter_orderedInsert_pos {α : Type} (le : α → α → Prop)
    [DecidableRel le] (p : α → Bool) (a : α) (l : List α) (hpa : p a = true)
    (h : ∀ b ∈ l, p b = true → le a b) :
    (l.orderedInsert le a).filter p = a :: l.filter p := by
  induction l with
  | nil => rw [List.orderedInsert_nil, List.filter_cons_of_pos hpa]
  | cons b bs ih =>
      rw [List.orderedInsert]
      by_cases hab : le a b
      · rw [if_pos hab, List.filter_cons_of_pos hpa]
      · rw [if_neg hab]
        have hpb : p b = false := by
          cases hpb : p b with
          | false => rfl
          | true => exact absurd (h b (List.mem_cons_self b bs) hpb) hab
        rw [List.filter_cons_of_neg (by rw [hpb]; exact Bool.false_ne_true),
          ih (fun x hx hpx => h x (List.mem_cons_of_mem b hx) hpx),
          List.filter_cons_of_neg (by rw [hpb]; exact Bool.false_ne_true)]

theorem filter_orderedInsert_neg {α : Type} (le : α → α → Prop)
    [DecidableRel le] (p : α → Bool) (a : α) (l : List α) (hpa : p a = false) :
    (l.orderedInsert le a).filter p = l.filter p := by
  induction l with
  | nil =>
      rw [List.orderedInsert_nil,
        List.filter_cons_of_neg (by rw [hpa]; exact Bool.false_ne_true)]
  | cons b bs ih =>
      rw [List.orderedInsert]
      by_cases hab : le a b
      · rw [if_pos hab,
          List.filter_cons_of_neg (by rw [hpa]; exact Bool.false_ne_true)]
      · rw [if_neg hab]
        by_cases hpb : p b = true
        · rw [List.filter_cons_of_pos hpb, List.filter_cons_of_pos hpb, ih]
        · rw [List.filter_cons_of_neg hpb, List.filter_cons_of_neg hpb, ih]

theorem filter_insertionSort {α : Type} (le : α → α → Prop) [DecidableRel le]
    (p : α → Bool) (l : List α)
    (h : ∀ x ∈ l, ∀ y ∈ l, p x = true → p y = true → le x y) :
    (List.insertionSort le l).filter p = l.filter p := by
  induction l with
  | nil => rfl
  | cons a as ih =>
      rw [List.insertionSort]
      by_cases hpa : p a = true
      · rw [filter_orderedInsert_pos le p a _ hpa (fun b hb hpb =>
          h a (List.mem_cons_self a as) b
            (List.mem_cons_of_mem a ((List.mem_insertionSort le).mp hb)) hpa hpb),
          ih (fun x hx y hy => h x (List.mem_cons_of_mem a hx) y
            (List.mem_cons_of_mem a hy)),
          List.filter_cons_of_pos hpa]
      · rw [filter_orderedInsert_neg le p a _ (Bool.eq_false_iff.mpr hpa),
          ih (fun x hx y hy => h x (List.mem_cons_of_mem a hx) y
            (List.mem_cons_of_mem a hy)),
          List.filter_cons_of_neg hpa]

/-! ### The population stage on arbitrary checked entries -/

theorem buildEntries_getElement (R C : Nat) (entries : List (Nat × Nat × Int))
    (hb : ∀ e ∈ entries, e.1 < R ∧ e.2.1 < C) (r c : Nat)
    (hr : r < R) (hc : c < C) :
    ∃ m, buildEntries R C entries = .ok m ∧ m.Wf ∧ m.rows = R ∧ m.cols = C ∧
      m.getElement r c = some
        (((entries.filter (fun e => e.1 = r ∧ e.2.1 = c)).map
          (fun e => e.2.2)).getLastD 0) := by
  have hb' : ∀ e ∈ sortEntries entries,
      e.1 < (SparseMatrix.mk0 R C).rows ∧ e.2.1 < (SparseMatrix.mk0 R C).cols := by
    intro e he
    exact hb e ((List.mem_insertionSort entryLE).mp he)
  refine ⟨SparseMatrix.applyCalls (sortEntries entries) (SparseMatrix.mk0 R C),
    ?_, ?_, ?_, ?_, ?_⟩
  · unfold buildEntries
    rw [SparseMatrix.runSets_eq_some _ _ hb']
  · exact SparseMatrix.applyCalls_wf _ _ (SparseMatrix.mk0_wf R C) hb'
  · rw [SparseMatrix.applyCalls_rows]
    rfl
  · rw [SparseMatrix.applyCalls_cols]
    rfl
  · rw [SparseMatrix.getElement_applyCalls _ _ (SparseMatrix.mk0_wf R C) hb'
      r c hr hc, SparseMatrix.getElement_mk0 R C r c hr hc, Option.getD_some,
      SparseMatrix.lastShadow_eq_getLastD]
    have hflt := filter_insertionSort entryLE
      (fun e : Nat × Nat × Int => decide (e.1 = r ∧ e.2.1 = c)) entries
      (fun x _ y _ hpx hpy => by
        have hx' : x.1 = r ∧ x.2.1 = c := by simpa using hpx
        have hy' : y.1 = r ∧ y.2.1 = c := by simpa using hpy
        exact Or.inr ⟨hx'.1.trans hy'.1.symm,
          le_of_eq (hx'.2.trans hy'.2.symm)⟩)
    rw [show sortEntries entries = List.insertionSort entryLE entries from rfl,
      hflt]

/-- `loadFromChars` factored through its stages, given the header and the
entry loop succeed. -/
theorem loadFromChars_decompose (content : List Char) (R C : Nat)
    (entries : List (Nat × Nat × Int))
    (hhdr : parseHeader (linesOf content) = .ok (R, C))
    (hents : parseEntries R C 2 ((linesOf content).drop 2) = .ok entries) :
    loadFromChars content = buildEntries R C entries := by
  unfold loadFromChars
  simp only [hhdr, exceptBind_ok, hents]

/-! ### Checked entries are in bounds -/

theorem checkEntry_ok_bounds (rows cols n : Nat) (hC : 0 < cols)
    (line : List Char) (e : Nat × Nat × Int)
    (h : checkEntry rows cols n line = .ok e) : e.1 < rows ∧ e.2.1 < cols := by
  unfold checkEntry at h
  dsimp only [] at h
  split at h
  · split at h
    · split at h
      · split at h
        · cases h
        · split at h
          · split at h
            · cases h
            · injection h with h
              subst h
              refine ⟨?_, ?_⟩
              · show Int.toNat _ < rows
                omega
              · show Int.toNat _ < cols
                omega
          · split at h
            · cases h
            · injection h with h
              subst h
              refine ⟨?_, ?_⟩
              · show Int.toNat _ < rows
                omega
              · show Int.toNat _ < cols
                omega
      · cases h
    · cases h
  · cases h

theorem parseEntries_ok_bounds (rows cols : Nat) (hC : 0 < cols) :
    ∀ (L : List (List Char)) (i : Nat) (E : List (Nat × Nat × Int)),
      parseEntries rows cols i L = .ok E →
        ∀ e ∈ E, e.1 < rows ∧ e.2.1 < cols := by
  intro L
  induction L with
  | nil =>
      intro i E h e he
      rw [parseEntries_nil] at h
      injection h with h
      subst h
      cases he
  | cons l rest ih =>
      intro i E h e he
      rw [parseEntries_cons] at h
      cases hce : checkEntry rows cols (i + 1) l with
      | error e0 =>
          rw [hce] at h
          cases h
      | ok e0 =>
          rw [hce, exceptBind_ok] at h
          cases hpe : parseEntries rows cols (i + 1) rest with
          | error e1 =>
              rw [hpe] at h
              cases h
          | ok Er =>
              rw [hpe, exceptBind_ok] at h
              injection h with h
              subst h
              rcases List.mem_cons.mp he with rfl | he
              · exact checkEntry_ok_bounds rows cols (i + 1) hC l e hce
              · exact ih (i + 1) Er hpe e he

/-! ### The clamp rule on a saved-style entry line -/

theorem checkEntry_clamp (rows cols n row col : Nat) (v : Int)
    (hrow : row < rows) (hge : cols ≤ col) :
    checkEntry rows cols n (entryChars row col v) =
      if col = cols then .ok (row, cols - 1, v)
      else .error (.outOfBounds n) := by
  simp only [checkEntry, jsTrim_entryChars]
  rw [if_pos ⟨entryChars_head row col v, entryChars_getLast row col v⟩]
  rw [show (entryChars row col v).drop 1 = entryBody row col v ++ [')'] from rfl,
    List.dropLast_concat, entryBody_filter, entry_parts]
  rw [if_pos (show [natToChars row, natToChars col, intToChars v].length = 3
    from rfl)]
  simp only [List.getD_cons_zero, List.getD_cons_succ]
  rw [jsParseInt_natToChars, jsParseInt_natToChars, jsParseInt_intToChars]
  simp only []
  rw [if_neg (by omega)]
  by_cases hcc : col = cols
  · rw [if_pos (show ((col : Nat) : Int) = ((cols : Nat) : Int) by omega),
      if_neg (by omega), if_pos hcc]
    have h1 : ((cols : Int) - 1).toNat = cols - 1 := by omega
    have h2 : ((row : Nat) : Int).toNat = row := by omega
    rw [h1, h2]
  · rw [if_neg (show ¬((col : Nat) : Int) = ((cols : Nat) : Int) by omega),
      if_pos (Or.inr (by omega : ((cols : Nat) : Int) ≤ ((col : Nat) : Int))),
      if_neg hcc]

/-! ### `parseInt` reads the integer prefix and ignores the rest -/

theorem takeWhile_append_stop (p : Char → Bool) (A X : List Char)
    (hA : ∀ c ∈ A, p c = true) (hX : ∀ c, X.head? = some c → p c = false) :
    (A ++ X).takeWhile p = A := by
  induction A with
  | nil =>
      cases X with
      | nil => rfl
      | cons x xs =>
          show List.takeWhile p (x :: xs) = []
          rw [List.takeWhile_cons, hX x rfl]
          simp
  | cons a as ih =>
      rw [List.cons_append, List.takeWhile_cons, hA a (List.mem_cons_self a as),
        ih (fun c hc => hA c (List.mem_cons_of_mem a hc))]
      simp

theorem natToChars_head_digit (a : Nat) :
    ∀ c, (natToChars a).head? = some c → c.isDigit = true := by
  intro c hc
  rcases hA : natToChars a with _ | ⟨d, tl⟩
  · exact absurd hA (natToChars_ne_nil a)
  · rw [hA] at hc
    injection hc with h1
    rw [← h1]
    exact natToChars_digits a d (by rw [hA]; exact List.mem_cons_self d tl)

theorem natToChars_append_head (a : Nat) (X : List Char) :
    ∀ c, (natToChars a ++ X).head? = some c → c.isDigit = true := by
  intro c hc
  rcases hA : natToChars a with _ | ⟨d, tl⟩
  · exact absurd hA (natToChars_ne_nil a)
  · rw [hA, List.cons_append] at hc
    injection hc with h1
    rw [← h1]
    exact natToChars_head_digit a d (by rw [hA]; rfl)

theorem jsParseNat_leading_digits (a : Nat) (X : List Char)
    (hX : ∀ c, X.head? = some c → c.isDigit = false ∧ ¬ c = 'x' ∧ ¬ c = 'X') :
    jsParseNat (natToChars a ++ X) = some a := by
  unfold jsParseNat
  split
  · rename_i rest heq
    exfalso
    rcases hA : natToChars a with _ | ⟨d, tl⟩
    · exact absurd hA (natToChars_ne_nil a)
    · rw [hA, List.cons_append] at heq
      injection heq with h1 h2
      cases tl with
      | nil =>
          rw [List.nil_append] at h2
          rcases hX 'x' (by rw [h2]; rfl) with ⟨_, hx, _⟩
          exact hx rfl
      | cons d2 tl2 =>
          rw [List.cons_append] at h2
          injection h2 with h2a _
          have hd2 : d2.isDigit = true := natToChars_digits a d2
            (by rw [hA]; exact List.mem_cons_of_mem _ (List.mem_cons_self _ _))
          rw [h2a] at hd2
          exact absurd hd2 (by decide)
  · rename_i rest heq
    exfalso
    rcases hA : natToChars a with _ | ⟨d, tl⟩
    · exact absurd hA (natToChars_ne_nil a)
    · rw [hA, List.cons_append] at heq
      injection heq with h1 h2
      cases tl with
      | nil =>
          rw [List.nil_append] at h2
          rcases hX 'X' (by rw [h2]; rfl) with ⟨_, _, hx⟩
          exact hx rfl
      | cons d2 tl2 =>
          rw [List.cons_append] at h2
          injection h2 with h2a _
          have hd2 : d2.isDigit = true := natToChars_digits a d2
            (by rw [hA]; exact List.mem_cons_of_mem _ (List.mem_cons_self _ _))
          rw [h2a] at hd2
          exact absurd hd2 (by decide)
  · show (if ((natToChars a ++ X).takeWhile Char.isDigit).isEmpty then none
        else some (decDigitsToNat ((natToChars a ++ X).takeWhile Char.isDigit))) =
        some a
    rw [takeWhile_append_stop Char.isDigit _ X (natToChars_digits a)
      (fun c hc => (hX c hc).1)]
    rw [if_neg (fun hemp => natToChars_ne_nil a (by simpa using hemp)),
      decDigitsToNat_natToChars]

theorem jsParseInt_leading_digits (a : Nat) (X : List Char)
    (hX : ∀ c, X.head? = some c → c.isDigit = false ∧ ¬ c = 'x' ∧ ¬ c = 'X') :
    jsParseInt (natToChars a ++ X) = some ((a : Nat) : Int) := by
  unfold jsParseInt
  split
  · rename_i rest heq
    have hd : ('-' : Char).isDigit = true :=
      natToChars_append_head a X '-' (by rw [heq]; rfl)
    exact absurd hd (by decide)
  · rename_i rest heq
    have hd : ('+' : Char).isDigit = true :=
      natToChars_append_head a X '+' (by rw [heq]; rfl)
    exact absurd hd (by decide)
  · rw [jsParseNat_leading_digits a X hX]
    rfl

/-! ### An arbitrary whitespace-free entry line through the field checks -/

/-- A parenthesized comma-separated triple of raw fields. -/
def fieldLine (F1 F2 F3 : List Char) : List Char :=
  '(' :: (F1 ++ (',' :: (F2 ++ (',' :: F3)))) ++ [')']

theorem checkEntry_fieldLine (rows cols n : Nat) (F1 F2 F3 : List Char)
    (hws1 : ∀ c ∈ F1, isWsChar c = false) (hcm1 : ∀ c ∈ F1, ¬ c = ',')
    (hws2 : ∀ c ∈ F2, isWsChar c = false) (hcm2 : ∀ c ∈ F2, ¬ c = ',')
    (hws3 : ∀ c ∈ F3, isWsChar c = false) (hcm3 : ∀ c ∈ F3, ¬ c = ',') :
    checkEntry rows cols n (fieldLine F1 F2 F3) =
      match jsParseInt F1, jsParseInt F2, jsParseInt F3 with
      | some row, some col, some value =>
          if row < 0 ∨ col < 0 then .error (.negativeIndex n)
          else
            if (rows : Int) ≤ row ∨ (cols : Int) ≤
                (if col = (cols : Int) then (cols : Int) - 1 else col) then
              .error (.outOfBounds n)
            else .ok (row.toNat,
              (if col = (cols : Int) then (cols : Int) - 1 else col).toNat, value)
      | _, _, _ => .error (.badEntryNaN n) := by
  have hhead : (fieldLine F1 F2 F3).head? = some '(' := rfl
  have hlast : (fieldLine F1 F2 F3).getLast? = some ')' := by
    unfold fieldLine
    rw [List.getLast?_concat]
  have htrim : jsTrim (fieldLine F1 F2 F3) = fieldLine F1 F2 F3 := by
    refine jsTrim_eq_self _ (fun ch hch => ?_) (fun ch hch => ?_)
    · rw [hhead] at hch
      injection hch with h
      rw [← h]
      decide
    · rw [hlast] at hch
      injection hch with h
      rw [← h]
      decide
  simp only [checkEntry, htrim]
  rw [if_pos ⟨hhead, hlast⟩]
  rw [show (fieldLine F1 F2 F3).drop 1 =
      (F1 ++ (',' :: (F2 ++ (',' :: F3)))) ++ [')'] from rfl,
    List.dropLast_concat]
  have hfil : (F1 ++ (',' :: (F2 ++ (',' :: F3)))).filter
      (fun c => !isWsChar c) = F1 ++ (',' :: (F2 ++ (',' :: F3))) :=
    List.filter_eq_self.mpr (fun a ha => by
      rcases List.mem_append.mp ha with ha | ha
      · rw [hws1 a ha]
        rfl
      · rcases List.mem_cons.mp ha with rfl | ha
        · decide
        · rcases List.mem_append.mp ha with ha | ha
          · rw [hws2 a ha]
            rfl
          · rcases List.mem_cons.mp ha with rfl | ha
            · decide
            · rw [hws3 a ha]
              rfl)
  rw [hfil, splitOnChar_append ',' _ _ hcm1, splitOnChar_append ',' _ _ hcm2,
    splitOnChar_sepfree ',' _ hcm3]
  rw [if_pos (show ([F1, F2, F3] : List (List Char)).length = 3 from rfl)]
  simp only [List.getD_cons_zero, List.getD_cons_succ]

theorem checkEntry_nan_field (rows cols n : Nat) (F1 F2 F3 : List Char)
    (hws1 : ∀ c ∈ F1, isWsChar c = false) (hcm1 : ∀ c ∈ F1, ¬ c = ',')
    (hws2 : ∀ c ∈ F2, isWsChar c = false) (hcm2 : ∀ c ∈ F2, ¬ c = ',')
    (hws3 : ∀ c ∈ F3, isWsChar c = false) (hcm3 : ∀ c ∈ F3, ¬ c = ',')
    (hnan : jsParseInt F1 = none ∨ jsParseInt F2 = none ∨ jsParseInt F3 = none) :
    checkEntry rows cols n (fieldLine F1 F2 F3) = .error (.badEntryNaN n) := by
  rw [checkEntry_fieldLine rows cols n F1 F2 F3 hws1 hcm1 hws2 hcm2 hws3 hcm3]
  rcases hnan with hn | hn | hn
  · rw [hn]
  · cases h1 : jsParseInt F1 with
    | none => rfl
    | some a => rw [hn]
  · cases h1 : jsParseInt F1 with
    | none => rfl
    | some a =>
        cases h2 : jsParseInt F2 with
        | none => rfl
        | some b => rw [hn]

/-! ### Dimensions accepted by the header are positive -/

theorem parseHeader_pos (lines : List (List Char)) (R C : Nat)
    (h : parseHeader lines = .ok (R, C)) : 0 < R ∧ 0 < C := by
  unfold parseHeader at h
  split at h
  · cases h
  · split at h
    · dsimp only [] at h
      split at h
      · cases h
      · rename_i hz
        injection h with h
        injection h with h1 h2
        rw [not_or] at hz
        omega
    · cases h

/-! ## The claims -/

/-- C1: for a well-formed matrix and in-bounds `(row, col, value)`,
`setElement` succeeds, preserves the invariants I1-I3, and afterwards
`getElement row col` returns exactly `value` (covering the four behaviours:
insert, overwrite, delete-on-zero, no-op). -/
theorem claim_C1 (m : SparseMatrix) (row col : Nat) (v : Int)
    (hwf : m.Wf) (hrow : row < m.rows) (hcol : col < m.cols) :
    ∃ m', m.setElement row col v = some m' ∧ m'.Wf ∧
      m'.getElement row col = some v :=
  ⟨m.setElementU row col v,
    SparseMatrix.setElement_eq_some m row col v hrow hcol,
    SparseMatrix.setElementU_wf m row col v hwf hrow hcol,
    SparseMatrix.getElement_setElementU_self m row col v hwf hrow hcol⟩

theorem claim_C1_witness :
    ∃ m', SparseMatrix.setElement ⟨2, 2, [1], [0], [0, 1, 1]⟩ 0 1 5 = some m' ∧
      m'.Wf ∧ m'.getElement 0 1 = some 5 :=
  claim_C1 ⟨2, 2, [1], [0], [0, 1, 1]⟩ 0 1 5 (by decide) (by decide) (by decide)

/-- C2: starting from the empty matrix with positive dimensions, any
sequence of in-bounds `setElement` calls succeeds and leaves the invariants
I1-I3 (`Wf`: sorted strictly-increasing in-range columns per row, no stored
zeros, monotone row pointer with final entry the array length). -/
theorem claim_C2 (R C : Nat) (calls : List (Nat × Nat × Int))
    (hR : 0 < R) (hC : 0 < C)
    (hb : ∀ e ∈ calls, e.1 < R ∧ e.2.1 < C) :
    ∃ m, SparseMatrix.runSets (SparseMatrix.mk0 R C) calls = some m ∧ m.Wf :=
  ⟨SparseMatrix.applyCalls calls (SparseMatrix.mk0 R C),
    SparseMatrix.runSets_eq_some calls _ hb,
    SparseMatrix.applyCalls_wf calls _ (SparseMatrix.mk0_wf R C) hb⟩

theorem claim_C2_witness :
    ∃ m, SparseMatrix.runSets (SparseMatrix.mk0 2 3)
      [(0, 1, 5), (1, 2, -4), (0, 1, 0), (1, 0, 7)] = some m ∧ m.Wf :=
  claim_C2 2 3 [(0, 1, 5), (1, 2, -4), (0, 1, 0), (1, 0, 7)]
    (by decide) (by decide) (by decide)

/-- C3: on well-formed equal-dimension operands `add` and `subtract` succeed
with a well-formed result (so no zero is stored: absence, not an explicit
zero) whose every in-bounds cell is the sum, respectively the difference, of
the operands' cells; and the spec's concrete 2x2 scenario yields exactly the
stored entries `(0,1,2)` and `(1,0,4)`. -/
theorem claim_C3 (a b : SparseMatrix) (hwfa : a.Wf) (hwfb : b.Wf)
    (hbr : b.rows = a.rows) (hbc : b.cols = a.cols) :
    (∃ m, a.add b = .ok m ∧ m.Wf ∧ ∀ r c, r < a.rows → c < a.cols →
        m.getElement r c = some ((a.getElement r c).getD 0 +
          (b.getElement r c).getD 0)) ∧
    (∃ m, a.subtract b = .ok m ∧ m.Wf ∧ ∀ r c, r < a.rows → c < a.cols →
        m.getElement r c = some ((a.getElement r c).getD 0 -
          (b.getElement r c).getD 0)) ∧
    (∃ m, SparseMatrix.add ⟨2, 2, [1, 2, 3], [0, 1, 1], [0, 2, 3]⟩
        ⟨2, 2, [-1, 4, -3], [0, 0, 1], [0, 1, 3]⟩ = .ok m ∧ m.Wf ∧
      m.getElement 0 1 = some 2 ∧ m.getElement 1 0 = some 4 ∧
      m.getElement 0 0 = some 0 ∧ m.getElement 1 1 = some 0) := by
  refine ⟨?_, ?_, ?_⟩
  · obtain ⟨m, h0, _, _, h3, h4⟩ := SparseMatrix.add_spec a b hwfa hwfb hbr hbc
    exact ⟨m, h0, h3, h4⟩
  · obtain ⟨m, h0, _, _, h3, h4⟩ :=
      SparseMatrix.subtract_spec a b hwfa hwfb hbr hbc
    exact ⟨m, h0, h3, h4⟩
  · obtain ⟨m, h0, _, _, h3, h4⟩ := SparseMatrix.add_spec
      ⟨2, 2, [1, 2, 3], [0, 1, 1], [0, 2, 3]⟩
      ⟨2, 2, [-1, 4, -3], [0, 0, 1], [0, 1, 3]⟩
      (by decide) (by decide) rfl rfl
    refine ⟨m, h0, h3, ?_, ?_, ?_, ?_⟩
    · rw [h4 0 1 (by decide) (by decide)]
      simp [SparseMatrix.getElement, SparseMatrix.getLoop]
    · rw [h4 1 0 (by decide) (by decide)]
      simp [SparseMatrix.getElement, SparseMatrix.getLoop]
    · rw [h4 0 0 (by decide) (by decide)]
      simp [SparseMatrix.getElement, SparseMatrix.getLoop]
    · rw [h4 1 1 (by decide) (by decide)]
      simp [SparseMatrix.getElement, SparseMatrix.getLoop]

theorem claim_C3_witness :
    ((∃ m, SparseMatrix.add ⟨1, 2, [6], [1], [0, 1]⟩ ⟨1, 2, [-6], [1], [0, 1]⟩ =
        .ok m ∧ m.Wf ∧ ∀ r c, r < 1 → c < 2 →
        m.getElement r c = some
          (((⟨1, 2, [6], [1], [0, 1]⟩ : SparseMatrix).getElement r c).getD 0 +
           ((⟨1, 2, [-6], [1], [0, 1]⟩ : SparseMatrix).getElement r c).getD 0)) ∧
     (∃ m, SparseMatrix.subtract ⟨1, 2, [6], [1], [0, 1]⟩
        ⟨1, 2, [-6], [1], [0, 1]⟩ = .ok m ∧ m.Wf ∧ ∀ r c, r < 1 → c < 2 →
        m.getElement r c = some
          (((⟨1, 2, [6], [1], [0, 1]⟩ : SparseMatrix).getElement r c).getD 0 -
           ((⟨1, 2, [-6], [1], [0, 1]⟩ : SparseMatrix).getElement r c).getD 0)) ∧
     (∃ m, SparseMatrix.add ⟨2, 2, [1, 2, 3], [0, 1, 1], [0, 2, 3]⟩
        ⟨2, 2, [-1, 4, -3], [0, 0, 1], [0, 1, 3]⟩ = .ok m ∧ m.Wf ∧
      m.getElement 0 1 = some 2 ∧ m.getElement 1 0 = some 4 ∧
      m.getElement 0 0 = some 0 ∧ m.getElement 1 1 = some 0)) :=
  claim_C3 ⟨1, 2, [6], [1], [0, 1]⟩ ⟨1, 2, [-6], [1], [0, 1]⟩
    (by decide) (by decide) (by decide) (by decide)

/-- C4: multiplying well-formed matrices with `a.cols = b.rows` succeeds
with an `a.rows x b.cols` well-formed result (I1-I3 hold although the rows
are bulk-appended, and no zero sum is stored) whose every in-bounds cell is
`∑ k, A(r,k) * B(k,c)`. -/
theorem claim_C4 (a b : SparseMatrix) (hwfa : a.Wf) (hwfb : b.Wf)
    (hab : a.cols = b.rows) :
    ∃ m, SparseMatrix.multiply a b = .ok m ∧ m.rows = a.rows ∧
      m.cols = b.cols ∧ m.Wf ∧ ∀ r c, r < a.rows → c < b.cols →
        m.getElement r c = some (SparseMatrix.prodRC a b r c) := by
  obtain ⟨m, h0, hwf, h1, h2, h3⟩ := SparseMatrix.multiply_spec a b hwfa hwfb hab
  exact ⟨m, h0, h1, h2, hwf, h3⟩

theorem claim_C4_witness :
    ∃ m, SparseMatrix.multiply ⟨2, 2, [1, 2, 3], [0, 1, 1], [0, 2, 3]⟩
        ⟨2, 2, [5, 8, -3], [0, 1, 0], [0, 2, 3]⟩ = .ok m ∧
      m.rows = (⟨2, 2, [1, 2, 3], [0, 1, 1], [0, 2, 3]⟩ : SparseMatrix).rows ∧
      m.cols = (⟨2, 2, [5, 8, -3], [0, 1, 0], [0, 2, 3]⟩ : SparseMatrix).cols ∧
      m.Wf ∧ ∀ r c, r < 2 → c < 2 →
        m.getElement r c = some (SparseMatrix.prodRC
          ⟨2, 2, [1, 2, 3], [0, 1, 1], [0, 2, 3]⟩
          ⟨2, 2, [5, 8, -3], [0, 1, 0], [0, 2, 3]⟩ r c) :=
  claim_C4 ⟨2, 2, [1, 2, 3], [0, 1, 1], [0, 2, 3]⟩
    ⟨2, 2, [5, 8, -3], [0, 1, 0], [0, 2, 3]⟩ (by decide) (by decide) (by decide)

/-- C5: parsing the serialization of any well-formed matrix (its dimensions
are positive, per the data model) succeeds and yields a matrix with the same
dimensions and the same `(row, col) -> value` mapping. -/
theorem claim_C5 (m : SparseMatrix) (hwf : m.Wf) (hr : 0 < m.rows)
    (hc : 0 < m.cols) :
    ∃ m', loadFromChars (serialize m) = .ok m' ∧ m'.rows = m.rows ∧
      m'.cols = m.cols ∧ ∀ r c, r < m.rows → c < m.cols →
        m'.getElement r c = m.getElement r c :=
  loadFromChars_serialize m hwf hr hc

theorem claim_C5_witness :
    ∃ m', loadFromChars (serialize ⟨2, 3, [5, -7], [2, 0], [0, 1, 2]⟩) =
        .ok m' ∧
      m'.rows = (⟨2, 3, [5, -7], [2, 0], [0, 1, 2]⟩ : SparseMatrix).rows ∧
      m'.cols = (⟨2, 3, [5, -7], [2, 0], [0, 1, 2]⟩ : SparseMatrix).cols ∧
      ∀ r c, r < 2 → c < 3 →
        m'.getElement r c =
          (⟨2, 3, [5, -7], [2, 0], [0, 1, 2]⟩ : SparseMatrix).getElement r c :=
  claim_C5 ⟨2, 3, [5, -7], [2, 0], [0, 1, 2]⟩ (by decide) (by decide) (by decide)

theorem exceptBind_err {ε α β : Type} (e : ε) (f : α → Except ε β) :
    ((Except.error e : Except ε α) >>= f) = .error e := rfl

/-- C6: an entry whose column index equals the declared `cols` is accepted
and stored at column `cols - 1` (the clamp rule), while a column strictly
greater fails with the line-numbered out-of-bounds error; concretely, with
`cols = 4` the entry `(0, 4, 5)` parses and is stored at column 3, and
`(0, 5, 5)` is rejected. -/
theorem claim_C6 (rows cols n row col : Nat) (v : Int)
    (hrow : row < rows) (hge : cols ≤ col) :
    (col = cols → checkEntry rows cols n (entryChars row col v) =
      .ok (row, cols - 1, v)) ∧
    (cols < col → checkEntry rows cols n (entryChars row col v) =
      .error (.outOfBounds n)) ∧
    (∃ m, loadFromChars ("rows=1\ncols=4\n(0, 4, 5)".data) = .ok m ∧
      m.getElement 0 3 = some 5) ∧
    loadFromChars ("rows=1\ncols=4\n(0, 5, 5)".data) =
      .error (.outOfBounds 3) := by
  refine ⟨fun hcc => ?_, fun hlt => ?_, ?_, ?_⟩
  · rw [checkEntry_clamp rows cols n row col v hrow hge, if_pos hcc]
  · rw [checkEntry_clamp rows cols n row col v hrow hge, if_neg (by omega)]
  · obtain ⟨m, hb, _, _, _, hget⟩ := buildEntries_getElement 1 4 [(0, 3, 5)]
      (by decide) 0 3 (by decide) (by decide)
    refine ⟨m, ?_, ?_⟩
    · rw [loadFromChars_decompose ("rows=1\ncols=4\n(0, 4, 5)".data) 1 4
        [(0, 3, 5)] rfl rfl, hb]
    · rw [hget]
      rfl
  · unfold loadFromChars
    simp only [show parseHeader (linesOf ("rows=1\ncols=4\n(0, 5, 5)".data)) =
        .ok (1, 4) from rfl, exceptBind_ok,
      show parseEntries 1 4 2 ((linesOf ("rows=1\ncols=4\n(0, 5, 5)".data)).drop 2) =
        .error (.outOfBounds 3) from rfl, exceptBind_err]

theorem claim_C6_witness :
    ((4 = 4 → checkEntry 4 4 7 (entryChars 2 4 9) = .ok (2, 4 - 1, 9)) ∧
     (4 < 4 → checkEntry 4 4 7 (entryChars 2 4 9) = .error (.outOfBounds 7)) ∧
     (∃ m, loadFromChars ("rows=1\ncols=4\n(0, 4, 5)".data) = .ok m ∧
       m.getElement 0 3 = some 5) ∧
     loadFromChars ("rows=1\ncols=4\n(0, 5, 5)".data) =
       .error (.outOfBounds 3)) :=
  claim_C6 4 4 7 2 4 9 (by decide) (by decide)

/-- C7: when the input parses and two or more entry lines share the key
`(r, c)`, the whole parse succeeds and that cell reads back the value of the
key's last entry line in input order: the sort by `(row, col)` is stable, so
the later duplicate is fed to the mutator last and wins. -/
theorem claim_C7 (content : List Char) (R C : Nat)
    (entries : List (Nat × Nat × Int)) (r c : Nat) (v : Int)
    (hhdr : parseHeader (linesOf content) = .ok (R, C))
    (hents : parseEntries R C 2 ((linesOf content).drop 2) = .ok entries)
    (hdup : 2 ≤ (entries.filter (fun e => e.1 = r ∧ e.2.1 = c)).length)
    (hlast : ((entries.filter (fun e => e.1 = r ∧ e.2.1 = c)).map
      (fun e => e.2.2)).getLast? = some v) :
    ∃ m, loadFromChars content = .ok m ∧ m.getElement r c = some v := by
  have hpos := parseHeader_pos (linesOf content) R C hhdr
  have hbounds := parseEntries_ok_bounds R C hpos.2 _ 2 entries hents
  have hne : entries.filter (fun e => e.1 = r ∧ e.2.1 = c) ≠ [] := by
    intro hnil
    rw [hnil] at hdup
    simp at hdup
  obtain ⟨e0, he0⟩ := List.exists_mem_of_ne_nil _ hne
  have he0m : e0 ∈ entries := List.mem_of_mem_filter he0
  have hkey : e0.1 = r ∧ e0.2.1 = c := by
    have := List.of_mem_filter he0
    simpa using this
  have hrR : r < R := by
    have := (hbounds e0 he0m).1
    omega
  have hcC : c < C := by
    have := (hbounds e0 he0m).2
    omega
  obtain ⟨m, hb, hwfm, _, _, hget⟩ :=
    buildEntries_getElement R C entries hbounds r c hrR hcC
  refine ⟨m, ?_, ?_⟩
  · rw [loadFromChars_decompose content R C entries hhdr hents, hb]
  · rw [hget, List.getLastD_eq_getLast?, hlast]
    rfl

theorem claim_C7_witness :
    ∃ m, loadFromChars
        ("rows=2\ncols=2\n(0, 1, 5)\n(0, 1, 7)\n(1, 0, 2)".data) = .ok m ∧
      m.getElement 0 1 = some 7 :=
  claim_C7 ("rows=2\ncols=2\n(0, 1, 5)\n(0, 1, 7)\n(1, 0, 2)".data) 2 2
    [(0, 1, 5), (0, 1, 7), (1, 0, 2)] 0 1 7 rfl rfl (by decide) (by decide)

/-- C8 (amended): `parseInt` reads the maximal integer prefix of a field and
ignores what follows, so a decimal field such as `3.5` (or `12abc`) does NOT
fail — it is accepted truncated; an entry line that is a well-formed
parenthesized triple fails with the line-numbered `All values must be
integers` error exactly in the `NaN` case, i.e. when some field has no
integer prefix at all. -/
theorem claim_C8 (rows cols n : Nat) (a : Nat) (X F1 F2 F3 : List Char)
    (hX : ∀ ch, X.head? = some ch →
      ch.isDigit = false ∧ ¬ ch = 'x' ∧ ¬ ch = 'X')
    (hws1 : ∀ c ∈ F1, isWsChar c = false) (hcm1 : ∀ c ∈ F1, ¬ c = ',')
    (hws2 : ∀ c ∈ F2, isWsChar c = false) (hcm2 : ∀ c ∈ F2, ¬ c = ',')
    (hws3 : ∀ c ∈ F3, isWsChar c = false) (hcm3 : ∀ c ∈ F3, ¬ c = ',')
    (hnan : jsParseInt F1 = none ∨ jsParseInt F2 = none ∨
      jsParseInt F3 = none) :
    jsParseInt (natToChars a ++ X) = some ((a : Nat) : Int) ∧
    checkEntry rows cols n (fieldLine F1 F2 F3) = .error (.badEntryNaN n) :=
  ⟨jsParseInt_leading_digits a X hX,
    checkEntry_nan_field rows cols n F1 F2 F3 hws1 hcm1 hws2 hcm2 hws3 hcm3 hnan⟩

theorem claim_C8_witness :
    (jsParseInt (natToChars 3 ++ (".5".data)) = some ((3 : Nat) : Int) ∧
     checkEntry 1 2 3 (fieldLine ("0".data) ("1".data) ("zz".data)) =
       .error (.badEntryNaN 3)) :=
  claim_C8 1 2 3 3 (".5".data) ("0".data) ("1".data) ("zz".data)
    (fun ch hch => by
      injection hch with h
      rw [← h]
      exact ⟨by decide, by decide, by decide⟩)
    (by decide) (by decide) (by decide) (by decide) (by decide) (by decide)
    (Or.inr (Or.inr (by decide)))

/-- C8 counterexample to the frozen claim: the entry line `(0, 1, 3.5)` has
the non-integer field `3.5`, yet parsing SUCCEEDS (storing the truncated
value 3) instead of failing with a format error. -/
theorem claim_C8_counterexample :
    ∃ m, loadFromChars ("rows=1\ncols=2\n(0, 1, 3.5)".data) = .ok m ∧
      m.getElement 0 1 = some 3 := by
  obtain ⟨m, hb, _, _, _, hget⟩ := buildEntries_getElement 1 2 [(0, 1, 3)]
    (by decide) 0 1 (by decide) (by decide)
  refine ⟨m, ?_, ?_⟩
  · rw [loadFromChars_decompose ("rows=1\ncols=2\n(0, 1, 3.5)".data) 1 2
        [(0, 1, 3)] rfl rfl, hb]
  · rw [hget]
    rfl

/-- C9: `add` and `subtract` fail with the dimension-mismatch error exactly
when the operand dimensions differ, `multiply` exactly when the left column
count differs from the right row count, and under the matching-shape
precondition all three succeed. -/
theorem claim_C9 (a b : SparseMatrix) (hwfa : a.Wf) (hwfb : b.Wf) :
    (a.add b = .error .dimensionMismatch ↔
      ¬(a.rows = b.rows ∧ a.cols = b.cols)) ∧
    (a.subtract b = .error .dimensionMismatch ↔
      ¬(a.rows = b.rows ∧ a.cols = b.cols)) ∧
    (SparseMatrix.multiply a b = .error .dimensionMismatch ↔
      ¬ a.cols = b.rows) ∧
    ((a.rows = b.rows ∧ a.cols = b.cols) →
      (∃ m, a.add b = .ok m) ∧ ∃ m, a.subtract b = .ok m) ∧
    (a.cols = b.rows → ∃ m, SparseMatrix.multiply a b = .ok m) := by
  refine ⟨⟨?_, ?_⟩, ⟨?_, ?_⟩, ⟨?_, ?_⟩, ?_, ?_⟩
  · intro herr hdim
    obtain ⟨m, hok, _⟩ :=
      SparseMatrix.add_spec a b hwfa hwfb hdim.1.symm hdim.2.symm
    rw [hok] at herr
    cases herr
  · intro hdim
    unfold SparseMatrix.add
    rw [if_pos (by tauto)]
  · intro herr hdim
    obtain ⟨m, hok, _⟩ :=
      SparseMatrix.subtract_spec a b hwfa hwfb hdim.1.symm hdim.2.symm
    rw [hok] at herr
    cases herr
  · intro hdim
    unfold SparseMatrix.subtract
    rw [if_pos (by tauto)]
  · intro herr hab
    obtain ⟨m, hok, _⟩ := SparseMatrix.multiply_spec a b hwfa hwfb hab
    rw [hok] at herr
    cases herr
  · intro hab
    unfold SparseMatrix.multiply
    rw [if_pos hab]
  · intro hdim
    obtain ⟨m1, h1, _⟩ :=
      SparseMatrix.add_spec a b hwfa hwfb hdim.1.symm hdim.2.symm
    obtain ⟨m2, h2, _⟩ :=
      SparseMatrix.subtract_spec a b hwfa hwfb hdim.1.symm hdim.2.symm
    exact ⟨⟨m1, h1⟩, ⟨m2, h2⟩⟩
  · intro hab
    obtain ⟨m, h0, _⟩ := SparseMatrix.multiply_spec a b hwfa hwfb hab
    exact ⟨m, h0⟩

theorem claim_C9_witness :
    ((SparseMatrix.add ⟨1, 2, [2], [0], [0, 1]⟩ ⟨2, 1, [3], [0], [0, 0, 1]⟩ =
        .error .dimensionMismatch ↔
      ¬((1 : Nat) = 2 ∧ (2 : Nat) = 1)) ∧
     (SparseMatrix.subtract ⟨1, 2, [2], [0], [0, 1]⟩
        ⟨2, 1, [3], [0], [0, 0, 1]⟩ = .error .dimensionMismatch ↔
      ¬((1 : Nat) = 2 ∧ (2 : Nat) = 1)) ∧
     (SparseMatrix.multiply ⟨1, 2, [2], [0], [0, 1]⟩
        ⟨2, 1, [3], [0], [0, 0, 1]⟩ = .error .dimensionMismatch ↔
      ¬(2 : Nat) = 2) ∧
     (((1 : Nat) = 2 ∧ (2 : Nat) = 1) →
       (∃ m, SparseMatrix.add ⟨1, 2, [2], [0], [0, 1]⟩
          ⟨2, 1, [3], [0], [0, 0, 1]⟩ = .ok m) ∧
       ∃ m, SparseMatrix.subtract ⟨1, 2, [2], [0], [0, 1]⟩
          ⟨2, 1, [3], [0], [0, 0, 1]⟩ = .ok m) ∧
     ((2 : Nat) = 2 → ∃ m, SparseMatrix.multiply ⟨1, 2, [2], [0], [0, 1]⟩
        ⟨2, 1, [3], [0], [0, 0, 1]⟩ = .ok m)) :=
  claim_C9 ⟨1, 2, [2], [0], [0, 1]⟩ ⟨2, 1, [3], [0], [0, 0, 1]⟩
    (by decide) (by decide)

/-- C10: an in-bounds entry line with value field 0 is not rejected — the
parse succeeds — and when that explicit zero is the key's final write the
resulting matrix stores nothing at that cell: reading it gives 0, and I2
holds (every stored value is non-zero). -/
theorem claim_C10 (content : List Char) (R C : Nat)
    (entries : List (Nat × Nat × Int)) (r c : Nat)
    (hhdr : parseHeader (linesOf content) = .ok (R, C))
    (hents : parseEntries R C 2 ((linesOf content).drop 2) = .ok entries)
    (hmem : (r, c, (0 : Int)) ∈ entries)
    (hlast : ((entries.filter (fun e => e.1 = r ∧ e.2.1 = c)).map
      (fun e => e.2.2)).getLast? = some 0) :
    ∃ m, loadFromChars content = .ok m ∧ m.getElement r c = some 0 ∧
      ∀ w ∈ m.values, w ≠ 0 := by
  have hpos := parseHeader_pos (linesOf content) R C hhdr
  have hbounds := parseEntries_ok_bounds R C hpos.2 _ 2 entries hents
  have hrR : r < R := by
    have := (hbounds _ hmem).1
    simpa using this
  have hcC : c < C := by
    have := (hbounds _ hmem).2
    simpa using this
  obtain ⟨m, hb, hwfm, _, _, hget⟩ :=
    buildEntries_getElement R C entries hbounds r c hrR hcC
  refine ⟨m, ?_, ?_, hwfm.nonzero⟩
  · rw [loadFromChars_decompose content R C entries hhdr hents, hb]
  · rw [hget, List.getLastD_eq_getLast?, hlast]
    rfl

theorem claim_C10_witness :
    ∃ m, loadFromChars ("rows=2\ncols=2\n(0, 1, 0)".data) = .ok m ∧
      m.getElement 0 1 = some 0 ∧ ∀ w ∈ m.values, w ≠ 0 :=
  claim_C10 ("rows=2\ncols=2\n(0, 1, 0)".data) 2 2 [(0, 1, 0)] 0 1
    rfl rfl (by decide) (by decide)
